import Mathlib

/-! nssecurity: policy engine and plugin dispatch

A shallow embedding of the policy decision code (`policy.c`), the instance
table (`instance.c`), the entry points of an instance, among them the
dispatch entry point `netscape_plugin_new` (`netscape.c`, `export.c`), the
message encoding (`util.c`) and the configuration callback (`config.c`) of the
nssecurity NPAPI wrapper, with the properties proved about them.

Conventions of the embedding:

* a C string is the list of its characters before the terminating NUL
  (`CStr`); a `char *` that may be `NULL` is an `Option CStr`;
* the libc routines the code calls (`strspn`, `strcspn`, `strncmp`,
  `strncasecmp`, `strchr`, `strtok_r`, `fnmatch`, `qsort`, `bsearch`) are
  modelled in the C locale;
* the comparison routines return only the sign of their result, which is all
  the callers look at;
* a real C string holds no NUL; the routines treat a NUL in a list as any
  other character, and the properties proved for all lists hold for all C
  strings;
* the browser and the managed plugins are outside the code: the page URL the
  browser reports for an instance is a function `geturl`, and a plugin's
  handler is the value it hands back;
* `char` is a signed byte, as on the platforms of the code, and a character
  stands for the byte of its code modulo 256;
* the shared libraries (`dlopen`, `dlsym`) are outside the code and are a
  parameter of the configuration callback, whose platform routines are those
  of `linux.c`; memory allocations are taken to succeed.
-/

namespace NSSecurity

/-- The characters of a C string, terminating NUL excluded. -/
abbrev CStr := List Char

/-! ## libc string routines -/

/-- `strlen(s)`. -/
def strlen (s : CStr) : Nat := s.length

/-- `strspn(s, accept)`: length of the longest prefix of `s` made only of
characters of `accept`. -/
def strspn (s accept : CStr) : Nat :=
  (s.takeWhile (fun c => accept.contains c)).length

/-- `strcspn(s, reject)`: length of the longest prefix of `s` holding no
character of `reject`. -/
def strcspn (s reject : CStr) : Nat :=
  (s.takeWhile (fun c => !reject.contains c)).length

/-- `strndupa(s, n)`: a copy of at most the first `n` characters of `s`. -/
def strndupa (s : CStr) (n : Nat) : CStr := s.take n

/-- `strchr(s, c)` for `c` other than NUL: the offset of the first occurrence
of `c` in `s`, `none` standing for the `NULL` result. -/
def strchr : CStr → Char → Option Nat
  | [], _ => none
  | x :: xs, c => if x = c then some 0 else (strchr xs c).map (· + 1)

/-- `strncmp(s1, s2, n)`, reduced to the sign of the result. The end of a list
plays the part of the terminating NUL. -/
def strncmp : CStr → CStr → Nat → Int
  | _, _, 0 => 0
  | [], [], _ + 1 => 0
  | [], _ :: _, _ + 1 => -1
  | _ :: _, [], _ + 1 => 1
  | a :: as, b :: bs, n + 1 =>
    if a = b then strncmp as bs n else if a < b then -1 else 1

/-- `strncasecmp(s1, s2, n)` in the C locale, reduced to the sign of the
result: as `strncmp`, on the lower-cased characters. -/
def strncasecmp : CStr → CStr → Nat → Int
  | _, _, 0 => 0
  | [], [], _ + 1 => 0
  | [], _ :: _, _ + 1 => -1
  | _ :: _, [], _ + 1 => 1
  | a :: as, b :: bs, n + 1 =>
    if a.toLower = b.toLower then strncasecmp as bs n
    else if a.toLower < b.toLower then -1 else 1

/-- One call of `strtok_r`: skip the leading delimiters; at the end of the
string there is no token; otherwise the token runs up to the next delimiter
and the scan resumes one character after it. Returns the token and the
remainder kept in `saveptr`. -/
def strtok_r (s delim : CStr) : Option (CStr × CStr) :=
  match s.drop (strspn s delim) with
  | [] => none
  | c :: cs =>
    let n := strcspn (c :: cs) delim
    some ((c :: cs).take n, (c :: cs).drop (n + 1))

/-- The tokens returned by the calls of a `while ((tok = strtok_r(...)))`
loop, in order; every call consumes at least one character, so `fuel` calls
are enough for a string shorter than `fuel`. -/
def strtok_loop (delim : CStr) : Nat → CStr → List CStr
  | 0, _ => []
  | fuel + 1, s =>
    match strtok_r s delim with
    | none => []
    | some (tok, rest) => tok :: strtok_loop delim fuel rest

/-- All the tokens of `s`: the loop run with enough calls for `s`. -/
def strtok_all (s delim : CStr) : List CStr :=
  strtok_loop delim (s.length + 1) s

/-! ## fnmatch

The matcher of glibc (`posix/fnmatch_loop.c`), as `policy.c` calls it: flag
`FNM_NOESCAPE` alone, the "C" locale, `POSIXLY_CORRECT` not set. -/

/-- The longest name the scan of a named class accepts
(`CHAR_CLASS_MAX_LENGTH`, the value of `CHARCLASS_NAME_MAX`). -/
def CHAR_CLASS_MAX_LENGTH : Nat := 2048

/-- Whether the code of `c` lies between `lo` and `hi`, both included. -/
def code_within (lo hi : Nat) (c : Char) : Bool :=
  decide (lo ≤ c.toNat ∧ c.toNat ≤ hi)

/-- The class test `_ISCTYPE (c, wctype (name))` of the "C" locale, which has
the twelve classes of the C standard and no other (another locale may define
more); `none` when `wctype` knows no class of that name. -/
def is_ctype (name : CStr) (c : Char) : Option Bool :=
  let upper := code_within 65 90 c
  let lower := code_within 97 122 c
  let digit := code_within 48 57 c
  let graph := code_within 33 126 c
  if name = "upper".toList then some upper
  else if name = "lower".toList then some lower
  else if name = "alpha".toList then some (upper || lower)
  else if name = "digit".toList then some digit
  else if name = "xdigit".toList then
    some (digit || code_within 65 70 c || code_within 97 102 c)
  else if name = "space".toList then some (code_within 9 13 c || c.toNat = 32)
  else if name = "print".toList then some (code_within 32 126 c)
  else if name = "graph".toList then some graph
  else if name = "blank".toList then some (decide (c.toNat = 9 ∨ c.toNat = 32))
  else if name = "cntrl".toList then some (code_within 0 31 c || c.toNat = 127)
  else if name = "punct".toList then some (graph && !(upper || lower || digit))
  else if name = "alnum".toList then some (upper || lower || digit)
  else none

/-- How the scan of a class name behind `[:` ends. -/
inductive ClassScan where
  /-- The counter reached `CHAR_CLASS_MAX_LENGTH`: `FNM_NOMATCH`. -/
  | too_long
  /-- A character outside `'a'` .. `'y'` came first: the `[` is an ordinary
  member of the bracket expression. -/
  | not_class
  /-- The name up to `:]`, and the pattern behind `:]`. -/
  | name (str rest : CStr)

/-- The scan of a class name in the item loop of a bracket expression; `c1`
counts the characters stored in `str`, the pattern starts behind `[:`. -/
def class_scan (c1 : Nat) (str : CStr) : CStr → ClassScan
  | [] => if c1 = CHAR_CLASS_MAX_LENGTH then .too_long else .not_class
  | c :: p =>
    if c1 = CHAR_CLASS_MAX_LENGTH then .too_long
    else if c = ':' ∧ p.head? = some ']' then .name str (p.drop 1)
    else if c < 'a' ∨ 'z' ≤ c then .not_class
    else class_scan (c1 + 1) (str ++ [c]) p

/-- The scan of a class name in the loop that skips the rest of a bracket
expression: the counter is raised before it is tested and the name is not
kept. -/
def class_skip (c1 : Nat) : CStr → ClassScan
  | [] => if c1 + 1 = CHAR_CLASS_MAX_LENGTH then .too_long else .not_class
  | c :: p =>
    if c1 + 1 = CHAR_CLASS_MAX_LENGTH then .too_long
    else if c = ':' ∧ p.head? = some ']' then .name [] (p.drop 1)
    else if c < 'a' ∨ 'z' ≤ c then .not_class
    else class_skip (c1 + 1) p

/-- The scan of a collating symbol, the pattern starting behind `[.`: the
number of characters in front of `.]` (added to `c1`) and the pattern behind
it; `none` when the pattern ends first. -/
def symbol_scan (c1 : Nat) : CStr → Option (Nat × CStr)
  | [] => none
  | c :: p =>
    if c = '.' ∧ p.head? = some ']' then some (c1, p.drop 1)
    else symbol_scan (c1 + 1) p

/-- What a bracket expression says of one subject character. -/
inductive BracketResult where
  /-- The call of `fnmatch` returns `FNM_NOMATCH`. -/
  | no_match
  /-- The expression is not terminated: its `[` is an ordinary character
  and the pattern goes on right behind it. -/
  | literal
  /-- The subject character is accepted and the pattern goes on at `rest`. -/
  | pass (rest : CStr)

/-- The loop at label `matched`: skip the rest of a bracket expression one of
whose items matched. With `neg` set the expression was negated. The first
argument bounds the number of rounds. -/
def bracket_skip (neg : Bool) : Nat → CStr → BracketResult
  | 0, _ => .no_match
  | _ + 1, [] => .literal
  | fuel + 1, c :: p =>
    if c = ']' then (if neg then .no_match else .pass p)
    else if c = '[' ∧ p.head? = some ':' then
      match class_skip 0 (p.drop 1) with
      | .too_long => .no_match
      | .not_class => bracket_skip neg fuel p
      | .name _ rest => bracket_skip neg fuel rest
    else if c = '[' ∧ p.head? = some '=' then
      match p.drop 1 with
      | _ :: '=' :: ']' :: rest => bracket_skip neg fuel rest
      | _ => .no_match
    else if c = '[' ∧ p.head? = some '.' then
      match symbol_scan 0 (p.drop 1) with
      | none => .no_match
      | some (_, rest) => bracket_skip neg fuel rest
    else bracket_skip neg fuel p

/-- How one round of the item loop of a bracket expression ends: with the
result of the expression, or with the pattern at which the next round
starts. -/
inductive Round where
  | done (result : BracketResult)
  | again (p : CStr)

/-- What a round leaves of the pattern is an end of `p`. -/
def Round.within : Round → CStr → Prop
  | .done (.pass rest), p => rest <:+ p
  | .done _, _ => True
  | .again q, p => q <:+ p

/-- The bottom of the item loop behind an item that did not match, the next
pattern character being read: `]` ends the expression, and anything else is
the next item. -/
def bracket_next (neg : Bool) (q : CStr) : Round :=
  match q with
  | ']' :: rest => .done (if neg then .pass rest else .no_match)
  | _ => .again q

/-- The item loop behind an item `cold` that did not match by itself: with
`-` and no `]` next, `cold` starts a range, whose end is the next character
or a collating symbol of one character. -/
def bracket_range (fn : Char) (neg : Bool) (cold : Char) (q : CStr) : Round :=
  match q with
  | '-' :: q1 =>
    if q1.head? = some ']' then bracket_next neg q
    else
      match q1 with
      | [] => .done .no_match
      | cend :: q2 =>
        if cend = '[' ∧ q2.head? = some '.' then
          match symbol_scan 0 (q2.drop 1) with
          | none => .done .no_match
          | some (c1, rest) =>
            if c1 ≠ 1 then .done .no_match
            else if cold ≤ fn ∧ fn ≤ (q2.drop 1).headD ' ' then
              .done (bracket_skip neg (rest.length + 1) rest)
            else bracket_next neg rest
        else if cold ≤ fn ∧ fn ≤ cend then .done (bracket_skip neg (q2.length + 1) q2)
        else bracket_next neg q2
  | _ => bracket_next neg q

/-- Label `normal_bracket`: the item is the character `c`, the pattern
standing behind it. -/
def bracket_normal (fn : Char) (neg : Bool) (c : Char) (q : CStr) : Round :=
  let is_range :=
    match q with
    | '-' :: e :: _ => decide (e ≠ ']')
    | _ => false
  if is_range = false ∧ c = fn then .done (bracket_skip neg (q.length + 1) q)
  else bracket_range fn neg c q

/-- One round of the item loop for the subject character `fn`: the item
starts with the character `c`, the pattern standing behind it. -/
def bracket_item (fn : Char) (neg : Bool) (c : Char) (p : CStr) : Round :=
  if c = '[' ∧ p.head? = some ':' then
    match class_scan 0 [] (p.drop 1) with
    | .too_long => .done .no_match
    | .not_class => bracket_normal fn neg '[' p
    | .name str rest =>
      match is_ctype str fn with
      | none => .done .no_match
      | some true => .done (bracket_skip neg (rest.length + 1) rest)
      | some false => bracket_next neg rest
  else if c = '[' ∧ p.head? = some '=' then
    match p.drop 1 with
    | str :: '=' :: ']' :: rest =>
      if fn = str then .done (bracket_skip neg (rest.length + 1) rest)
      else bracket_next neg rest
    | _ => bracket_normal fn neg '[' p
  else if c = '[' ∧ p.head? = some '.' then
    match symbol_scan 0 (p.drop 1) with
    | none => .done .no_match
    | some (c1, rest) =>
      let is_range :=
        match rest with
        | '-' :: _ :: _ => true
        | _ => false
      if c1 ≠ 1 then .done .no_match
      else if is_range = false ∧ fn = (p.drop 1).headD ' ' then
        .done (bracket_skip neg (rest.length + 1) rest)
      else bracket_range fn neg ((p.drop 1).headD ' ') rest
  else bracket_normal fn neg c p

/-- The item loop of a bracket expression for the subject character `fn`,
the pattern standing at the next item; the end of the pattern there means
that the expression is not terminated. The first argument bounds the number
of rounds. -/
def bracket_items (fn : Char) (neg : Bool) : Nat → CStr → BracketResult
  | 0, _ => .no_match
  | _ + 1, [] => .literal
  | fuel + 1, c :: p =>
    match bracket_item fn neg c p with
    | .done result => result
    | .again q => bracket_items fn neg fuel q

/-- Case `[` of the matcher for the subject character `fn`, the pattern
standing behind the `[`: a leading `!` or `^` negates the expression. -/
def bracket (fn : Char) (p : CStr) : BracketResult :=
  match p with
  | c :: q =>
    if c = '!' ∨ c = '^' then bracket_items fn true (q.length + 1) q
    else bracket_items fn false (p.length + 1) p
  | [] => .literal

/-- How a call of the matcher that was handed an `ends` record finishes. -/
inductive Segment where
  /-- It returned `FNM_NOMATCH`. -/
  | no_match
  /-- It returned 0 at the end of the pattern and of the string. -/
  | matched
  /-- It returned 0 at a `*`, leaving the place of the `*` in the pattern and
  the string still to match in `ends`; the pattern kept here is the one behind
  that `*`, which the caller reads next. -/
  | star (pattern string : CStr)

/-- The matcher up to the next `*`: `?` takes any one character, a bracket
expression one character of its set, and every other character, the
backslash included, itself. The first argument counts the pattern characters
of a bracket expression still to be stepped over. -/
def fnmatch_segment : Nat → CStr → CStr → Segment
  | _ + 1, [], _ => .no_match
  | k + 1, _ :: p, s => fnmatch_segment k p s
  | 0, [], s => if s.isEmpty then .matched else .no_match
  | 0, c :: p, s =>
    if c = '*' then .star p s
    else
      match s with
      | [] => .no_match
      | x :: s1 =>
        if c = '?' then fnmatch_segment 0 p s1
        else if c = '[' then
          match bracket x p with
          | .no_match => .no_match
          | .literal => if x = '[' then fnmatch_segment 0 p s1 else .no_match
          | .pass rest => fnmatch_segment (p.length - rest.length) p s1
        else if x = c then fnmatch_segment 0 p s1
        else .no_match

/-- The run of `?` and `*` that follows a `*`: every `?` takes one
character of the string; `none` when the string ends first. -/
def skip_wildcards : CStr → CStr → Option (CStr × CStr)
  | [], s => some ([], s)
  | c :: p, s =>
    if c = '*' then skip_wildcards p s
    else if c = '?' then
      match s with
      | [] => none
      | _ :: s1 => skip_wildcards p s1
    else some (c :: p, s)

/-- The search loop of case `*`: the first position of the string, its end
left out, at which the pattern up to its next `*` matches, with the outcome
of that match. Where the pattern does not start with `[`, only positions that
hold its first character are tried. -/
def first_segment (p : CStr) : CStr → Segment
  | [] => .no_match
  | x :: s =>
    if p.head? = some '[' ∨ p.head? = some x then
      match fnmatch_segment 0 p (x :: s) with
      | .no_match => first_segment p s
      | r => r
    else first_segment p s

/-- Case `*` of the matcher, the pattern standing behind the `*`: the
pattern up to the next `*` is tried at every position of the string in turn,
and the match goes on from the first position that fits. -/
def fnmatch_star_loop : Nat → CStr → CStr → Bool
  | 0, _, _ => false
  | fuel + 1, p, s =>
    match skip_wildcards p s with
    | none => false
    | some ([], _) => true
    | some (p1, s1) =>
      match first_segment p1 s1 with
      | .no_match => false
      | .matched => true
      | .star p2 s2 => fnmatch_star_loop fuel p2 s2

/-- The matcher proper (`internal_fnmatch` called without an `ends` record). -/
def fnmatch_loop (p s : CStr) : Bool :=
  match fnmatch_segment 0 p s with
  | .no_match => false
  | .matched => true
  | .star p1 s1 => fnmatch_star_loop (p1.length + 1) p1 s1

/-- The result `fnmatch` gives when the string does not match. -/
def FNM_NOMATCH : Int := 1

/-- `fnmatch(pattern, string, FNM_NOESCAPE)`: `0` on a match, `FNM_NOMATCH`
otherwise. -/
def fnmatch (pattern string : CStr) : Int :=
  if fnmatch_loop pattern string then 0 else FNM_NOMATCH

/-! ## Data model (`config.h`) -/

/-- An NPAPI error code (`NPError`), by its name in the NPAPI header; `other`
stands for the codes that only a plugin hands back. -/
inductive NPError where
  | NPERR_NO_ERROR
  | NPERR_GENERIC_ERROR
  | NPERR_INVALID_INSTANCE_ERROR
  | NPERR_INVALID_PARAM
  | other (code : Nat)
  deriving DecidableEq

open NPError

/-- An instance handle (`NPP`): an opaque pointer, taken by its address. -/
abbrev NPP := Nat

/-- The entry points of a managed plugin that the wrapper calls
(`NPPluginFuncs`). A handler stands for the value it hands back (an error
code, a number, a flag, or nothing for a `void` handler); `none` is a `NULL`
function pointer. -/
structure NPPluginFuncs where
  newp : Option NPError := none
  destroy : Option NPError := none
  setwindow : Option NPError := none
  newstream : Option NPError := none
  destroystream : Option NPError := none
  asfile : Option Unit := none
  writeready : Option Int := none
  write : Option Int := none
  print : Option Unit := none
  event : Option Int := none
  urlnotify : Option Unit := none
  setvalue : Option NPError := none
  getvalue : Option NPError := none
  gotfocus : Option Bool := none
  lostfocus : Option Unit := none
  urlredirectnotify : Option Unit := none
  deriving DecidableEq

set_option linter.dupNamespace false in
/-- One configured plugin (`struct plugin`): every pointer field is `none`
when `NULL`; `handle` is the address `dlopen` gave. The `next` pointer is the
tail of the list the record sits in. -/
structure plugin where
  allow_insecure : Option CStr := none
  allow_domains : Option CStr := none
  allow_override : Option CStr := none
  allow_port : Option CStr := none
  allow_auth : Option CStr := none
  warning : Option CStr := none
  plugin : Option CStr := none
  section_name : Option CStr := none
  description : Option CStr := none
  name : Option CStr := none
  mime_description : Option CStr := none
  handle : Option Nat := none
  plugin_funcs : Option NPPluginFuncs := none
  deriving DecidableEq

/-- The process-wide configuration (`struct registry`): the aggregated MIME
description, the `Global` section when one was configured, and the plugin
records in registration order. The browser's function table
(`netscape_funcs`) is outside the code and is not a field here. -/
structure registry where
  mime_description : Option CStr := none
  global : Option plugin := none
  plugins : List plugin := []
  deriving DecidableEq

/-! ## Policy decisions (`policy.c`) -/

/-- The characters a host name may hold. -/
def kDomainCharacterSet : CStr := "abcdefghijklmnopqrstuvwxyz0123456789-._".toList

/-- The longest host name accepted. -/
def kDomainMaxLen : Nat := 128

/-- The insecure scheme prefix. -/
def kHttpPrefix : CStr := "http://".toList

/-- The secure scheme prefix. -/
def kHttpsPrefix : CStr := "https://".toList

/-- The domain decision `policy_plugin_allowed_domain(plugin, url)`. -/
def policy_plugin_allowed_domain (p : plugin) (url : CStr) : Bool :=
  match p.allow_domains with
  | none => false
  | some allow_domains =>
    let start : Option CStr :=
      if strncmp url kHttpPrefix (strlen kHttpPrefix) = 0 then
        some (url.drop (strlen kHttpPrefix))
      else if strncmp url kHttpsPrefix (strlen kHttpsPrefix) = 0 then
        some (url.drop (strlen kHttpsPrefix))
      else none
    match start with
    | none => false
    | some hostname =>
      let hostname := strndupa hostname (strcspn hostname "/".toList)
      if strspn hostname kDomainCharacterSet ≠ strlen hostname then false
      else if strlen hostname > kDomainMaxLen ∨ strlen hostname = 0 then false
      else
        (strtok_all allow_domains ",".toList).any
          (fun domainglob => fnmatch domainglob hostname = 0)

/-- The protocol decision `policy_plugin_allowed_protocol(plugin, url)`. -/
def policy_plugin_allowed_protocol (p : plugin) (url : CStr) : Bool :=
  if p.allow_insecure.isSome then true
  else strncmp url kHttpsPrefix (strlen kHttpsPrefix) = 0

/-- The combined decision `policy_plugin_allowed_url(plugin, url)`. -/
def policy_plugin_allowed_url (p : plugin) (url : CStr) : Bool :=
  policy_plugin_allowed_protocol p url && policy_plugin_allowed_domain p url

/-- The first plugin record of the runtime test `test_policy_allowed`. -/
def testplugin1 : plugin :=
  { section_name := some "Domain With Wildcard".toList,
    allow_domains := some "*.google.com,google.com,*.safe.com".toList }

/-- The second plugin record of the runtime test `test_policy_allowed`. -/
def testplugin2 : plugin :=
  { section_name := some "Empty Domain Specification".toList,
    allow_domains := some "".toList }

/-! ## Instance table (`instance.c`) -/

/-- One row of the instance table (`struct instance`): the instance handle
and the plugin that owns it, `none` for a `NULL` owner. -/
structure instance_entry where
  npp : NPP
  plugin : Option plugin
  deriving DecidableEq

/-- The most instances the table holds. -/
def kMaxInstances : Nat := 0x1000

/-- The comparison routine `instance_compare` handed to `qsort` and
`bsearch`: rows are ordered by the address of their handle. -/
def instance_compare (x y : instance_entry) : Int :=
  if x.npp < y.npp then -1 else if x.npp > y.npp then 1 else 0

/-- The call `qsort(table, count, size, instance_compare)`: the rows put in
non-decreasing order of `instance_compare`. The C library leaves the order of
rows that compare equal open; here they keep their relative order. -/
def qsort (table : List instance_entry) : List instance_entry :=
  table.insertionSort (fun x y => instance_compare x y ≤ 0)

/-- The call `netscape_instance_map(instance, plugin)` on the table `table`
(`global_instance_table`, of `global_instance_count` rows): the result and the
table afterwards. -/
def netscape_instance_map (table : List instance_entry) (inst : NPP)
    (p : Option plugin) : Bool × List instance_entry :=
  if table.length ≥ kMaxInstances then (false, table)
  else (true, qsort (table ++ [⟨inst, p⟩]))

/-! ## Dispatch (`netscape.c`) -/

/-- The set of characters allowed in a MIME type. -/
def kMimeCharacterSet : CStr :=
  "abcdefghijklmnopqrstuvwxyzABCDEFGHIJKLMOPQRSTUVWXYZ@0123456789.,- ;+=/:_".toList

/-- The maximum realistic length of a MIME type. -/
def kMaxMimeLength : Nat := 128

/-- What `netscape_plugin_new` does that the outside can see: a query of the
page URL (`netscape_plugin_geturl`), a call of `netscape_display_message`
(with the text handed over, `none` for `NULL`; what that routine then shows is
not part of the model) and a call of a plugin's own `newp`. -/
inductive Event where
  | geturl (inst : NPP)
  | display_message (inst : NPP) (message : Option CStr)
  | newp (current : plugin) (pluginType : CStr) (inst : NPP)
  deriving DecidableEq

/-- How the body of the field loop ends for one field: the loop goes on
(`continue`), the search is over (`goto found`), or a `NULL` pointer was
dereferenced. -/
inductive Scan where
  | next
  | found
  | fault
  deriving DecidableEq

/-- How the search over the plugins ends: at a plugin (`goto found`), with
`current` run off the end of the list, or on a `NULL` dereference. -/
inductive Search where
  | found (current : plugin)
  | exhausted
  | fault
  deriving DecidableEq

/-- The body of the `while` loop of `netscape_plugin_new` for one field of
the MIME description of `current`. `geturl` is the browser's answer to
`netscape_plugin_geturl`, `none` when the query fails. -/
def try_field (reg : registry) (geturl : NPP → Option CStr) (pluginType : CStr)
    (inst : NPP) (current : plugin) (field : CStr) : List Event × Scan :=
  match strchr field ':' with
  | none => ([], Scan.next)
  | some colon =>
    if strncasecmp field pluginType colon ≠ 0 then ([], Scan.next)
    else
      match geturl inst with
      | none => ([Event.geturl inst], Scan.next)
      | some pageurl =>
        if policy_plugin_allowed_url current pageurl = false then
          match current.warning with
          | some w =>
            ([Event.geturl inst, Event.display_message inst (some w)], Scan.next)
          | none =>
            match reg.global with
            | none => ([Event.geturl inst], Scan.fault)
            | some g =>
              ([Event.geturl inst, Event.display_message inst g.warning], Scan.next)
        else ([Event.geturl inst], Scan.found)

/-- The `while` loop over the fields of one MIME description. -/
def scan_fields (reg : registry) (geturl : NPP → Option CStr) (pluginType : CStr)
    (inst : NPP) (current : plugin) : List CStr → List Event × Scan
  | [] => ([], Scan.next)
  | field :: rest =>
    match try_field reg geturl pluginType inst current field with
    | (ev, Scan.next) =>
      let r := scan_fields reg geturl pluginType inst current rest
      (ev ++ r.1, r.2)
    | r => r

/-- The `for` loop of `netscape_plugin_new` over the plugin list. -/
def find_plugin (reg : registry) (geturl : NPP → Option CStr) (pluginType : CStr)
    (inst : NPP) : List plugin → List Event × Search
  | [] => ([], Search.exhausted)
  | current :: next =>
    match current.mime_description with
    | none => find_plugin reg geturl pluginType inst next
    | some mimetypes =>
      match scan_fields reg geturl pluginType inst current
          (strtok_all mimetypes ";".toList) with
      | (ev, Scan.found) => (ev, Search.found current)
      | (ev, Scan.fault) => (ev, Search.fault)
      | (ev, Scan.next) =>
        let r := find_plugin reg geturl pluginType inst next
        (ev ++ r.1, r.2)

/-- The result of one call of `netscape_plugin_new`: the error code handed
back, `none` when the call dereferenced a `NULL` pointer instead of returning;
the instance table afterwards; and what the call did, in order. -/
structure Outcome where
  ret : Option NPError
  table : List instance_entry
  trace : List Event
  deriving DecidableEq

/-- The entry point `netscape_plugin_new(pluginType, instance, ...)`, run on
the registry `reg` and the instance table `table`. The remaining arguments
are handed to the plugin untouched and are left out. -/
def netscape_plugin_new (reg : registry) (geturl : NPP → Option CStr)
    (table : List instance_entry) (pluginType : CStr) (inst : NPP) : Outcome :=
  if strspn pluginType kMimeCharacterSet ≠ strlen pluginType then
    ⟨some NPERR_INVALID_PARAM, table, []⟩
  else if strlen pluginType > kMaxMimeLength then
    ⟨some NPERR_INVALID_PARAM, table, []⟩
  else
    match find_plugin reg geturl pluginType inst reg.plugins with
    | (ev, Search.fault) => ⟨none, table, ev⟩
    | (ev, Search.exhausted) => ⟨some NPERR_INVALID_PARAM, table, ev⟩
    | (ev, Search.found current) =>
      match netscape_instance_map table inst (some current) with
      | (false, _) => ⟨some NPERR_GENERIC_ERROR, table, ev⟩
      | (true, table1) =>
        match current.plugin_funcs with
        | none => ⟨none, table1, ev⟩
        | some funcs =>
          match funcs.newp with
          | none => ⟨none, table1, ev⟩
          | some handler =>
            ⟨some handler, table1, ev ++ [Event.newp current pluginType inst]⟩

/-! ## Vocabulary of the policy properties -/

/-- The pieces of `s` between the occurrences of `d`, the empty ones dropped:
what "the `d`-separated elements of `s`" are. -/
def separated (d : Char) (s : CStr) : List CStr :=
  (s.splitOn d).filter (fun t => !t.isEmpty)

/-- The checks `policy_plugin_allowed_domain` makes on the host name. -/
def host_ok (host : CStr) : Bool :=
  decide (∀ c ∈ host, c ∈ kDomainCharacterSet) && decide (host ≠ []) &&
    decide (host.length ≤ 128)

/-- The content type of a capability entry: its text before the first `:`. -/
def entry_type (entry : CStr) : CStr := entry.takeWhile (fun c => c ≠ ':')

/-- Two strings are equal once the ASCII letters are put in lower case. -/
def eq_ignoring_case (a b : CStr) : Bool :=
  a.map Char.toLower = b.map Char.toLower

/-! ## Vocabulary of the dispatch properties -/

/-- The two tests the field loop of `netscape_plugin_new` makes on a field
before it looks at the page: the field has a `:`, and `strncasecmp` finds it
equal to the requested type over the length of its text before the `:`. -/
def field_matches (field pluginType : CStr) : Bool :=
  match strchr field ':' with
  | none => false
  | some colon => strncasecmp field pluginType colon = 0

/-- The plugin has a MIME description with a field that passes the tests of
the field loop for the requested type. -/
def wants_type (p : plugin) (pluginType : CStr) : Bool :=
  match p.mime_description with
  | none => false
  | some mimetypes =>
    (strtok_all mimetypes ";".toList).any (fun field => field_matches field pluginType)

/-- The plugin is a candidate for the requested type and its policy allows
the page of the instance. -/
def eligible (geturl : NPP → Option CStr) (inst : NPP) (pluginType : CStr)
    (p : plugin) : Bool :=
  wants_type p pluginType &&
    match geturl inst with
    | none => false
    | some pageurl => policy_plugin_allowed_url p pageurl

/-- The event is a call of some plugin's `newp`. -/
def Event.is_newp : Event → Bool
  | Event.newp _ _ _ => true
  | _ => false

/-! ## Records used in the examples -/

/-- A plugin that displays PDF documents on the pages of `*.google.com`. -/
def pdf_plugin : plugin :=
  { section_name := some "Viewer".toList,
    allow_domains := some "*.google.com".toList,
    mime_description := some "application/pdf:pdf:PDF".toList,
    plugin_funcs := some { newp := some NPERR_NO_ERROR } }

/-- A second PDF plugin, allowed on the pages of `*.example.org` only, with a
warning text of its own. -/
def intranet_plugin : plugin :=
  { section_name := some "Intranet viewer".toList,
    allow_domains := some "*.example.org".toList,
    warning := some "Ask the help desk".toList,
    mime_description := some "application/pdf:pdf:PDF".toList,
    plugin_funcs := some { newp := some NPERR_NO_ERROR } }

/-- A plugin that declares the catch-all type `*`, allowed on the pages of
`*.google.com`. -/
def default_plugin : plugin :=
  { section_name := some "Default".toList,
    allow_domains := some "*.google.com".toList,
    mime_description := some "*:*:All types".toList,
    plugin_funcs := some { newp := some NPERR_NO_ERROR } }

/-- A browser in which every instance sits on `https://www.google.com/`. -/
def google_page : NPP → Option CStr :=
  fun _ => some "https://www.google.com/".toList

/-- An instance table filled to its limit: 4096 rows, with the handles
`1` to `4096`, all owned by `pdf_plugin`. -/
def full_table : List instance_entry :=
  (List.range 4096).map (fun i => ⟨i + 1, some pdf_plugin⟩)

/-! ## Instance table: lookup and removal (`instance.c`) -/

/-- The loop of `bsearch(key, table, count, size, instance_compare)`: the
search between the positions `l` and `u` of the table, the middle row compared
with the key each round; `fuel` bounds the rounds. Gives the position of the
row found, `none` for `NULL`. -/
def bsearch_loop (key : instance_entry) (table : List instance_entry) :
    Nat → Nat → Nat → Option Nat
  | 0, _, _ => none
  | fuel + 1, l, u =>
    if l < u then
      match table[(l + u) / 2]? with
      | none => none
      | some row =>
        if instance_compare key row < 0 then
          bsearch_loop key table fuel l ((l + u) / 2)
        else if instance_compare key row > 0 then
          bsearch_loop key table fuel ((l + u) / 2 + 1) u
        else some ((l + u) / 2)
    else none

/-- The call `bsearch(&key, table, count, sizeof key, instance_compare)`: the
range shrinks every round, so one round per row and one more are enough. -/
def bsearch (key : instance_entry) (table : List instance_entry) : Option Nat :=
  bsearch_loop key table (table.length + 1) 0 table.length

/-- The call `netscape_instance_resolve(instance, &result)` on the table
`table`: the value returned and the owner stored in `*result`, `none` for
`NULL`. -/
def netscape_instance_resolve (table : List instance_entry) (inst : NPP) :
    Bool × Option plugin :=
  let result : Option plugin :=
    match bsearch ⟨inst, none⟩ table with
    | some idx => table[idx]?.bind (fun row => row.plugin)
    | none => none
  (result.isSome, result)

/-- The call `netscape_instance_destroy(instance)` on the table `table`: the
value returned and the table afterwards, the rows behind the match moved one
place down. -/
def netscape_instance_destroy (table : List instance_entry) (inst : NPP) :
    Bool × List instance_entry :=
  match bsearch ⟨inst, none⟩ table with
  | some idx => (true, table.eraseIdx idx)
  | none => (false, table)

/-! ## Vocabulary of the instance table properties -/

/-- The tables that calls of `netscape_instance_map` and
`netscape_instance_destroy`, with any arguments, lead to from the empty
table. -/
inductive Reachable : List instance_entry → Prop where
  | empty : Reachable []
  | map (table : List instance_entry) (inst : NPP) (p : Option plugin) :
    Reachable table → Reachable (netscape_instance_map table inst p).2
  | destroy (table : List instance_entry) (inst : NPP) :
    Reachable table → Reachable (netscape_instance_destroy table inst).2

/-- The rows of the table for the handle `inst`. -/
def rows_of (table : List instance_entry) (inst : NPP) : List instance_entry :=
  table.filter (fun row => row.npp = inst)

/-- The handle has a row in the table. -/
def is_bound (table : List instance_entry) (inst : NPP) : Bool :=
  table.any (fun row => row.npp = inst)

/-- The tables that the calls lead to from the empty table when
`netscape_instance_map` is only ever called with a handle that has no row at
that moment: the browser keeps its promise that instance handles are
unique. -/
inductive ReachableUnique : List instance_entry → Prop where
  | empty : ReachableUnique []
  | map (table : List instance_entry) (inst : NPP) (p : Option plugin) :
    ReachableUnique table → is_bound table inst = false →
    ReachableUnique (netscape_instance_map table inst p).2
  | destroy (table : List instance_entry) (inst : NPP) :
    ReachableUnique table → ReachableUnique (netscape_instance_destroy table inst).2

/-- A table with two rows for the handle `5`: `netscape_instance_map` called
twice with that handle, for `intranet_plugin` and then for `pdf_plugin`. -/
def twice_bound_table : List instance_entry :=
  (netscape_instance_map (netscape_instance_map [] 5 (some intranet_plugin)).2 5
    (some pdf_plugin)).2

/-! ## Vocabulary of the instance table sequences -/

/-- One call on the instance table: `netscape_instance_map(inst, p)` with `p`
not `NULL`, `netscape_instance_destroy(inst)`, or
`netscape_instance_resolve(inst, &result)`. -/
inductive TableOp where
  | bind (inst : NPP) (p : plugin)
  | unbind (inst : NPP)
  | resolve (inst : NPP)
  deriving DecidableEq

/-- The call is a `netscape_instance_resolve`. -/
def TableOp.is_resolve : TableOp → Bool
  | TableOp.resolve _ => true
  | _ => false

/-- What a call on the instance table gave back: the value returned and, for
`netscape_instance_resolve`, the owner stored in `*result`. -/
inductive OpResult where
  | mapped (ok : Bool)
  | destroyed (ok : Bool)
  | resolved (ok : Bool) (owner : Option plugin)
  deriving DecidableEq

/-- One call run on a table: what it gave back and the table afterwards. -/
def run_op (table : List instance_entry) : TableOp → OpResult × List instance_entry
  | TableOp.bind inst p =>
    (OpResult.mapped (netscape_instance_map table inst (some p)).1,
      (netscape_instance_map table inst (some p)).2)
  | TableOp.unbind inst =>
    (OpResult.destroyed (netscape_instance_destroy table inst).1,
      (netscape_instance_destroy table inst).2)
  | TableOp.resolve inst =>
    (OpResult.resolved (netscape_instance_resolve table inst).1
      (netscape_instance_resolve table inst).2, table)

/-- A sequence of calls run on a table, one after the other: what each gave
back, in order, and the table at the end. -/
def run_ops : List instance_entry → List TableOp → List OpResult × List instance_entry
  | table, [] => ([], table)
  | table, op :: ops =>
    ((run_op table op).1 :: (run_ops (run_op table op).2 ops).1,
      (run_ops (run_op table op).2 ops).2)

/-- The owner of each handle after a call, from the owners before it: a
binding sets the owner of its handle, an unbinding clears it. -/
def owners_step (m : NPP → Option plugin) : TableOp → NPP → Option plugin
  | TableOp.bind inst p => fun x => if x = inst then some p else m x
  | TableOp.unbind inst => fun x => if x = inst then none else m x
  | TableOp.resolve _ => m

/-- The owner of each handle after a sequence of calls. -/
def owners_after (m : NPP → Option plugin) : List TableOp → NPP → Option plugin
  | [] => m
  | op :: ops => owners_after (owners_step m op) ops

/-- The number of bound handles after a call, from the number before it. -/
def live_step (m : NPP → Option plugin) (n : Nat) : TableOp → Nat
  | TableOp.bind _ _ => n + 1
  | TableOp.unbind inst => if (m inst).isSome then n - 1 else n
  | TableOp.resolve _ => n

/-- The number of bound handles after a sequence of calls. -/
def live_after (m : NPP → Option plugin) (n : Nat) : List TableOp → Nat
  | [] => n
  | op :: ops => live_after (owners_step m op) (live_step m n op) ops

/-- What a call has to give back when the owners of the handles are `m`. -/
def expected (m : NPP → Option plugin) : TableOp → OpResult
  | TableOp.bind _ _ => OpResult.mapped true
  | TableOp.unbind inst => OpResult.destroyed (m inst).isSome
  | TableOp.resolve inst => OpResult.resolved (m inst).isSome (m inst)

/-- What the calls of a sequence have to give back, from the owners `m` at
its start. -/
def expected_all (m : NPP → Option plugin) : List TableOp → List OpResult
  | [] => []
  | op :: ops => expected m op :: expected_all (owners_step m op) ops

/-- Every binding of the sequence is of a handle without owner at that
moment, with fewer than `kMaxInstances` handles bound. -/
def fresh_binds (m : NPP → Option plugin) (n : Nat) : List TableOp → Prop
  | [] => True
  | TableOp.bind inst p :: ops =>
    (m inst = none ∧ n < kMaxInstances) ∧
      fresh_binds (owners_step m (TableOp.bind inst p))
        (live_step m n (TableOp.bind inst p)) ops
  | op :: ops => fresh_binds (owners_step m op) (live_step m n op) ops

/-- The table holds the owners `m`: it is sorted, has `n` rows, and the rows
of each handle are the one row with its owner, or none. -/
def represents (table : List instance_entry) (m : NPP → Option plugin) (n : Nat) : Prop :=
  table.Sorted (fun x y => instance_compare x y ≤ 0) ∧ table.length = n ∧
    ∀ h, rows_of table h =
      match m h with
      | some p => [⟨h, some p⟩]
      | none => []


/-- Two handles bound to plugins, for the examples of sequences of calls. -/
def example_binds : List (NPP × plugin) := [(1, pdf_plugin), (2, intranet_plugin)]

/-- A sequence of calls on the instance table: the handles `1` and `2` are
bound, then unbound in the other order, with resolves in between. -/
def example_calls : List TableOp :=
  [TableOp.resolve 1, TableOp.bind 1 pdf_plugin, TableOp.resolve 1,
    TableOp.bind 2 intranet_plugin, TableOp.resolve 2, TableOp.unbind 2,
    TableOp.resolve 2, TableOp.resolve 1, TableOp.unbind 1, TableOp.resolve 1]

/-! ## Vocabulary and records of the validation properties -/

/-- A lower-case ASCII letter, a digit, `-`, `.` or `_`. -/
def host_char (c : Char) : Bool :=
  c.isLower || c.isDigit || c == '-' || c == '.' || c == '_'

/-- A plugin whose policy allows every host. -/
def star_plugin : plugin :=
  { section_name := some "Anywhere".toList,
    allow_domains := some "*".toList }

/-- A plugin allowed on `*.google.com` with the `AllowPort` option set. -/
def port_plugin : plugin :=
  { section_name := some "Ports".toList,
    allow_domains := some "*.google.com".toList,
    allow_port := some "1".toList }

/-- A PDF plugin allowed on the pages of `*.example.org` only, without a
warning text of its own. -/
def silent_plugin : plugin :=
  { section_name := some "Silent viewer".toList,
    allow_domains := some "*.example.org".toList,
    mime_description := some "application/pdf:pdf:PDF".toList,
    plugin_funcs := some { newp := some NPERR_NO_ERROR } }

/-- A requested type of 128 characters, all of the MIME character set. -/
def long_type : CStr := List.replicate 128 'a'

/-- A plugin that declares `long_type`, allowed on the pages of
`*.google.com`. -/
def long_plugin : plugin :=
  { section_name := some "Long".toList,
    allow_domains := some "*.google.com".toList,
    mime_description := some (long_type ++ ":x:Long".toList),
    plugin_funcs := some { newp := some NPERR_NO_ERROR } }


/-! ## Message encoding (`util.c`) -/

/-- The longest message `encode_javascript_string` takes. -/
def kMessageLengthMax : Nat := 2048

/-- The value of a `char` of the message once promoted to `int`, as `sprintf`
receives it. A character stands for the byte of its code modulo 256, and
`char` is a signed byte, as it is on the platforms of the code (x86 Linux and
macOS). -/
def char_to_int (c : Char) : Int :=
  if c.toNat % 256 < 128 then ((c.toNat % 256 : Nat) : Int)
  else ((c.toNat % 256 : Nat) : Int) - 256

/-- The hexadecimal digit of a value below 16, in lower case. -/
def hex_digit (n : Nat) : Char := "0123456789abcdef".toList.getD n '0'

/-- What `sprintf` writes for the conversion `%02hx`: the argument converted
to `unsigned short`, in hexadecimal with lower-case digits and no leading
zero, padded with zeros on the left to two digits. -/
def sprintf_02hx (arg : Int) : CStr :=
  let n := (arg % 65536).toNat
  let digits :=
    ([n / 4096 % 16, n / 256 % 16, n / 16 % 16, n % 16].dropWhile (fun d => d == 0)).map
      hex_digit
  List.replicate (2 - digits.length) '0' ++ digits

/-- The loop of `encode_javascript_string`: each character of the message is
written by `sprintf(*output + strlen(*output), "%%%02hx", *message)` at the
end of what `*output` holds. -/
def encode_loop (output : CStr) : CStr → CStr
  | [] => output
  | c :: message => encode_loop (output ++ '%' :: sprintf_02hx (char_to_int c)) message

/-- What a call of `encode_javascript_string` that returns true leaves behind:
the size in bytes of the buffer it allocated for `*output` and the characters
it stored from the start of that buffer, the terminating NUL excluded. -/
structure Encoded where
  size : Nat
  output : CStr
  deriving DecidableEq

/-- The call `encode_javascript_string(message, &output)`: `none` when it
returns false. The allocation of the buffer is taken to succeed. -/
def encode_javascript_string (message : Option CStr) : Option Encoded :=
  match message with
  | none => none
  | some message =>
    if strlen message > kMessageLengthMax then none
    else some ⟨strlen message * 3 + 1, encode_loop [] message⟩

/-! ## Vocabulary of the encoding properties -/

/-- The percent encoding of a message: for each byte, `%` followed by its two
hexadecimal digits in lower case. -/
def percent_encoding (message : CStr) : CStr :=
  message.flatMap
    (fun c => ['%', hex_digit (c.toNat % 256 / 16), hex_digit (c.toNat % 256 % 16)])

/-- The characters stored and their terminating NUL lie within the buffer
allocated for them. -/
def Encoded.fits (e : Encoded) : Bool := decide (e.output.length + 1 ≤ e.size)

/-- A message of two bytes above `0x7f`: `0xc3 0xa9`, the letter e with an
acute accent in UTF-8. -/
def accented_message : CStr := [Char.ofNat 0xc3, Char.ofNat 0xa9]

/-! ## Entry points of an instance (`netscape.c`, `export.c`) -/

/-- What an entry point hands back to the browser: an `NPError` code (also
when the return type is a plain integer and the code is returned as a
number), a number from a handler, an `NPBool`, or nothing for a `void` entry
point. -/
inductive Returned where
  | error (code : NPError)
  | number (n : Int)
  | flag (b : Bool)
  | nothing
  deriving DecidableEq

/-- The handlers of a plugin that an entry point of an instance calls. -/
inductive Handler where
  | destroy
  | setwindow
  | newstream
  | destroystream
  | asfile
  | writeready
  | write
  | print
  | event
  | urlnotify
  | setvalue
  | getvalue
  | gotfocus
  | lostfocus
  | urlredirectnotify
  deriving DecidableEq

/-- One call of a handler of a plugin, for an instance. -/
structure Invocation where
  owner : plugin
  handler : Handler
  inst : NPP
  deriving DecidableEq

/-- The result of one call of an entry point: the value handed back, `none`
when the call dereferenced a `NULL` pointer instead of returning; the handlers
it called; and, for `NP_GetValue`, the string stored through `value`. -/
structure Call where
  ret : Option Returned
  calls : List Invocation
  stored : Option (Option CStr) := none
  deriving DecidableEq

/-- The body shared by the entry points that hand a call over to the owner of
the instance: `unresolved` is returned when `netscape_instance_resolve`
fails, `missing` when the plugin has no such handler, and otherwise the
handler is called and its value returned. -/
def pass_through (table : List instance_entry) (inst : NPP) (unresolved missing : Returned)
    (handler : NPPluginFuncs → Option Returned) (name : Handler) : Call :=
  match netscape_instance_resolve table inst with
  | (false, _) => ⟨some unresolved, [], none⟩
  | (true, none) => ⟨none, [], none⟩
  | (true, some plugin) =>
    match plugin.plugin_funcs with
    | none => ⟨none, [], none⟩
    | some funcs =>
      match handler funcs with
      | none => ⟨some missing, [], none⟩
      | some value => ⟨some value, [⟨plugin, name, inst⟩], none⟩

/-- The entry point `netscape_plugin_setwindow(instance, window)`. -/
def netscape_plugin_setwindow (table : List instance_entry) (inst : NPP) : Call :=
  pass_through table inst (Returned.error NPERR_INVALID_INSTANCE_ERROR)
    (Returned.error NPERR_GENERIC_ERROR) (fun funcs => funcs.setwindow.map Returned.error)
    Handler.setwindow

/-- The entry point `netscape_plugin_newstream(instance, ...)`. -/
def netscape_plugin_newstream (table : List instance_entry) (inst : NPP) : Call :=
  pass_through table inst (Returned.error NPERR_INVALID_INSTANCE_ERROR)
    (Returned.error NPERR_GENERIC_ERROR) (fun funcs => funcs.newstream.map Returned.error)
    Handler.newstream

/-- The entry point `netscape_plugin_destroystream(instance, ...)`. -/
def netscape_plugin_destroystream (table : List instance_entry) (inst : NPP) : Call :=
  pass_through table inst (Returned.error NPERR_INVALID_INSTANCE_ERROR)
    (Returned.error NPERR_GENERIC_ERROR) (fun funcs => funcs.destroystream.map Returned.error)
    Handler.destroystream

/-- The entry point `netscape_plugin_streamasfile(instance, ...)`, of type
`void`. -/
def netscape_plugin_streamasfile (table : List instance_entry) (inst : NPP) : Call :=
  pass_through table inst Returned.nothing Returned.nothing
    (fun funcs => funcs.asfile.map (fun _ => Returned.nothing)) Handler.asfile

/-- The entry point `netscape_plugin_writeready(instance, stream)`, of type
`int32_t`. -/
def netscape_plugin_writeready (table : List instance_entry) (inst : NPP) : Call :=
  pass_through table inst (Returned.error NPERR_INVALID_INSTANCE_ERROR)
    (Returned.error NPERR_GENERIC_ERROR) (fun funcs => funcs.writeready.map Returned.number)
    Handler.writeready

/-- The entry point `netscape_plugin_write(instance, ...)`, of type
`int32_t`. -/
def netscape_plugin_write (table : List instance_entry) (inst : NPP) : Call :=
  pass_through table inst (Returned.error NPERR_INVALID_INSTANCE_ERROR)
    (Returned.error NPERR_GENERIC_ERROR) (fun funcs => funcs.write.map Returned.number)
    Handler.write

/-- The entry point `netscape_plugin_print(instance, PrintInfo)`, of type
`void`. -/
def netscape_plugin_print (table : List instance_entry) (inst : NPP) : Call :=
  pass_through table inst Returned.nothing Returned.nothing
    (fun funcs => funcs.print.map (fun _ => Returned.nothing)) Handler.print

/-- The entry point `netscape_plugin_handleevent(instance, event)`, of type
`int16_t`. -/
def netscape_plugin_handleevent (table : List instance_entry) (inst : NPP) : Call :=
  pass_through table inst (Returned.error NPERR_INVALID_INSTANCE_ERROR)
    (Returned.error NPERR_GENERIC_ERROR) (fun funcs => funcs.event.map Returned.number)
    Handler.event

/-- The entry point `netscape_plugin_urlnotify(instance, ...)`, of type
`void`. -/
def netscape_plugin_urlnotify (table : List instance_entry) (inst : NPP) : Call :=
  pass_through table inst Returned.nothing Returned.nothing
    (fun funcs => funcs.urlnotify.map (fun _ => Returned.nothing)) Handler.urlnotify

/-- The entry point `netscape_plugin_setvalue(instance, variable, value)`. -/
def netscape_plugin_setvalue (table : List instance_entry) (inst : NPP) : Call :=
  pass_through table inst (Returned.error NPERR_INVALID_INSTANCE_ERROR)
    (Returned.error NPERR_GENERIC_ERROR) (fun funcs => funcs.setvalue.map Returned.error)
    Handler.setvalue

/-- The entry point `netscape_plugin_gotfocus(instance, direction)`, of type
`NPBool`. -/
def netscape_plugin_gotfocus (table : List instance_entry) (inst : NPP) : Call :=
  pass_through table inst (Returned.flag false) (Returned.flag false)
    (fun funcs => funcs.gotfocus.map Returned.flag) Handler.gotfocus

/-- The entry point `netscape_plugin_lostfocus(instance)`, of type `void`. -/
def netscape_plugin_lostfocus (table : List instance_entry) (inst : NPP) : Call :=
  pass_through table inst Returned.nothing Returned.nothing
    (fun funcs => funcs.lostfocus.map (fun _ => Returned.nothing)) Handler.lostfocus

/-- The entry point `netscape_plugin_urlredirectnotify(instance, ...)`, of
type `void`. -/
def netscape_plugin_urlredirectnotify (table : List instance_entry) (inst : NPP) : Call :=
  pass_through table inst Returned.nothing Returned.nothing
    (fun funcs => funcs.urlredirectnotify.map (fun _ => Returned.nothing))
    Handler.urlredirectnotify

/-- The variable asked of `NP_GetValue` (`NPPVariable`): the two the wrapper
answers itself, and the others by their number. -/
inductive NPPVariable where
  | NPPVpluginNameString
  | NPPVpluginDescriptionString
  | other (n : Nat)
  deriving DecidableEq

/-- The exported `NP_GetValue(instance, variable, value)`. -/
def NP_GetValue (reg : registry) (table : List instance_entry) (inst : NPP)
    (var : NPPVariable) : Call :=
  match var with
  | NPPVariable.NPPVpluginNameString =>
    match reg.global with
    | none => ⟨some (Returned.error NPERR_GENERIC_ERROR), [], none⟩
    | some g =>
      match g.name with
      | none => ⟨some (Returned.error NPERR_GENERIC_ERROR), [], none⟩
      | some name => ⟨some (Returned.error NPERR_NO_ERROR), [], some (some name)⟩
  | NPPVariable.NPPVpluginDescriptionString =>
    match reg.global with
    | none => ⟨some (Returned.error NPERR_GENERIC_ERROR), [], none⟩
    | some g =>
      match g.name with
      | none => ⟨some (Returned.error NPERR_GENERIC_ERROR), [], none⟩
      | some _ => ⟨some (Returned.error NPERR_NO_ERROR), [], some g.description⟩
  | NPPVariable.other _ =>
    match netscape_instance_resolve table inst with
    | (false, _) => ⟨some (Returned.error NPERR_INVALID_INSTANCE_ERROR), [], none⟩
    | (true, none) => ⟨none, [], none⟩
    | (true, some plugin) =>
      match plugin.plugin_funcs with
      | none => ⟨none, [], none⟩
      | some funcs =>
        match funcs.getvalue with
        | none => ⟨none, [], none⟩
        | some code => ⟨some (Returned.error code), [⟨plugin, Handler.getvalue, inst⟩], none⟩

/-- The entry point `netscape_plugin_getvalue(instance, variable, value)`. -/
def netscape_plugin_getvalue (reg : registry) (table : List instance_entry) (inst : NPP)
    (var : NPPVariable) : Call :=
  NP_GetValue reg table inst var

/-- The entry point `netscape_plugin_destroy(instance, save)`: the result of
the call and the instance table afterwards. -/
def netscape_plugin_destroy (table : List instance_entry) (inst : NPP) :
    Call × List instance_entry :=
  match netscape_instance_resolve table inst with
  | (false, _) => (⟨some (Returned.error NPERR_GENERIC_ERROR), [], none⟩, table)
  | (true, plugin) =>
    match netscape_instance_destroy table inst with
    | (false, table1) => (⟨some (Returned.error NPERR_GENERIC_ERROR), [], none⟩, table1)
    | (true, table1) =>
      match plugin with
      | none => (⟨none, [], none⟩, table1)
      | some plugin =>
        match plugin.plugin_funcs with
        | none => (⟨none, [], none⟩, table1)
        | some funcs =>
          match funcs.destroy with
          | none => (⟨some (Returned.error NPERR_GENERIC_ERROR), [], none⟩, table1)
          | some code =>
            (⟨some (Returned.error code), [⟨plugin, Handler.destroy, inst⟩], none⟩, table1)

/-! ## Vocabulary of the entry point properties -/

/-- The instance tables the browser can bring about through
`netscape_plugin_new` and `netscape_plugin_destroy`, with any arguments and
any page, from the empty table; a call that faults has no state after it. -/
inductive Dispatched (reg : registry) : List instance_entry → Prop where
  | empty : Dispatched reg []
  | create (geturl : NPP → Option CStr) (table : List instance_entry) (pluginType : CStr)
      (inst : NPP) :
    Dispatched reg table →
    (netscape_plugin_new reg geturl table pluginType inst).ret ≠ none →
    Dispatched reg (netscape_plugin_new reg geturl table pluginType inst).table
  | destroy (table : List instance_entry) (inst : NPP) :
    Dispatched reg table →
    (netscape_plugin_destroy table inst).1.ret ≠ none →
    Dispatched reg (netscape_plugin_destroy table inst).2

/-- A plugin with a handler for every entry point, allowed on the pages of
`*.google.com`. -/
def complete_plugin : plugin :=
  { section_name := some "Complete".toList,
    allow_domains := some "*.google.com".toList,
    mime_description := some "application/pdf:pdf:PDF".toList,
    plugin_funcs := some
      { newp := some NPERR_NO_ERROR, destroy := some NPERR_NO_ERROR,
        setwindow := some NPERR_NO_ERROR, newstream := some NPERR_NO_ERROR,
        destroystream := some NPERR_NO_ERROR, asfile := some (),
        writeready := some 4096, write := some 512, print := some (),
        event := some 1, urlnotify := some (), setvalue := some NPERR_NO_ERROR,
        getvalue := some NPERR_NO_ERROR, gotfocus := some true, lostfocus := some (),
        urlredirectnotify := some () } }

/-- A registry with a `Global` section that has a name. -/
def named_registry : registry :=
  { global := some { section_name := some "Global".toList, name := some "Wrapper".toList },
    plugins := [pdf_plugin] }

/-! ## Vocabulary of the denial message properties -/

/-- A registry with a `Global` section that has a warning text. -/
def warned_registry : registry :=
  { global := some { section_name := some "Global".toList,
                     warning := some "Not allowed here".toList },
    plugins := [silent_plugin, pdf_plugin] }

/-! ## Configuration (`config.c`, `linux.c`) -/

/-- The shared libraries of the machine, outside the code: the handle
`dlopen` gives for a path, `none` for `NULL`; and, for a handle, its export
`NP_GetMIMEDescription`: `none` when `dlsym` does not find it, else the
string the function returns, `none` for `NULL`. -/
structure Libraries where
  dlopen : CStr → Option Nat
  get_mime_description : Nat → Option (Option CStr)

/-- The call `platform_dlopen(plugin)` of `linux.c`. -/
def platform_dlopen (env : Libraries) (path : CStr) : Option Nat := env.dlopen path

/-- The call `platform_getmimedescription(plugin)` of `linux.c`: `none` for
`NULL`. -/
def platform_getmimedescription (env : Libraries) (p : plugin) : Option CStr :=
  match p.handle with
  | none => none
  | some handle =>
    match env.get_mime_description handle with
    | none => none
    | some result => some (result.getD [])

/-- `strrchr(s, c)` for `c` not NUL: the offset of the last `c` in `s`, `none`
for `NULL`. -/
def strrchr : CStr → Char → Option Nat
  | [], _ => none
  | x :: s, c =>
    match strrchr s c with
    | some i => some (i + 1)
    | none => if x = c then some 0 else none

/-- The record a `struct plugin *` of the configuration code points at: the
`Global` record or the record at a position of the plugin list. -/
inductive Slot where
  | global
  | entry (i : Nat)
  deriving DecidableEq

/-- The record at a slot of the registry. -/
def registry.record (reg : registry) : Slot → Option plugin
  | Slot.global => reg.global
  | Slot.entry i => reg.plugins[i]?

/-- An assignment to fields of the record at a slot of the registry. -/
def registry.assign (reg : registry) (slot : Slot) (f : plugin → plugin) : registry :=
  match slot with
  | Slot.global => { reg with global := reg.global.map f }
  | Slot.entry i => { reg with plugins := reg.plugins.modify f i }

/-- The search loop of `find_plugin_section` over the plugin list, from the
position `i`: the position of the first record whose section name is `sect`,
`some none` when there is none, and `none` when a record without a section
name is met (`strcmp` on `NULL`). -/
def find_section (sect : CStr) : List plugin → Nat → Option (Option Nat)
  | [], _ => some none
  | current :: next, i =>
    match current.section_name with
    | none => none
    | some s => if s = sect then some (some i) else find_section sect next (i + 1)

/-- The call `find_plugin_section(registry, section, &plugin)`: the value
returned, the registry afterwards and the slot `*plugin` points at; `none`
when the call dereferences `NULL`. The allocations are taken to succeed. -/
def find_plugin_section (reg : registry) (sect : CStr) : Option (Bool × registry × Slot) :=
  if sect = "Global".toList then
    match reg.global with
    | none =>
      some (true, { reg with global := some { section_name := some sect } }, Slot.global)
    | some g => some (g.section_name.isSome, reg, Slot.global)
  else
    match find_section sect reg.plugins 0 with
    | none => none
    | some (some i) => some (true, reg, Slot.entry i)
    | some none =>
      some (true, { reg with plugins := reg.plugins ++ [{ section_name := some sect }] },
        Slot.entry reg.plugins.length)

/-- The lines of `config_ini_handler` that add the MIME description of a
plugin to the aggregated one of the registry (`none` when there is none yet):
the first description is copied; a later one is appended, after a `;` when
the aggregate is not empty and does not end with one. -/
def append_description : Option CStr → CStr → CStr
  | none, description => description
  | some aggregate, description =>
    let lacks_delimiter : Bool :=
      match strrchr aggregate ';' with
      | none => true
      | some i => decide (i + 1 ≠ strlen aggregate)
    let joined :=
      if lacks_delimiter ∧ strlen aggregate ≠ 0 then aggregate ++ ";".toList
      else aggregate
    joined ++ description

/-- The callback `config_ini_handler(registry, section, name, value)`: the
value returned (as a truth value) and the registry afterwards; `none` when the
call dereferences `NULL`. -/
def config_ini_handler (env : Libraries) (reg : registry) (sect name value : CStr) :
    Option (Bool × registry) :=
  match find_plugin_section reg sect with
  | none => none
  | some (false, reg1, _) => some (false, reg1)
  | some (true, reg1, slot) =>
    if name = "AllowedDomains".toList then
      some (true, reg1.assign slot (fun p => { p with allow_domains := some value }))
    else if name = "AllowInsecure".toList then
      some (true, reg1.assign slot (fun p => { p with allow_insecure := some value }))
    else if name = "FriendlyWarning".toList then
      some (true, reg1.assign slot (fun p => { p with warning := some value }))
    else if name = "PluginDescription".toList then
      some (true, reg1.assign slot (fun p => { p with description := some value }))
    else if name = "PluginName".toList then
      some (true, reg1.assign slot (fun p => { p with name := some value }))
    else if name = "AllowPort".toList then
      some (true, reg1.assign slot (fun p => { p with allow_port := some value }))
    else if name = "AllowAuth".toList then
      some (true, reg1.assign slot (fun p => { p with allow_auth := some value }))
    else if name = "LoadPlugin".toList then
      let reg2 := reg1.assign slot
        (fun p => { p with plugin := some value, handle := platform_dlopen env value })
      let mime := (reg2.record slot).bind (platform_getmimedescription env)
      let reg3 := reg2.assign slot (fun p => { p with mime_description := mime })
      match mime with
      | none => some (true, reg3)
      | some description =>
        some (true, { reg3 with
          mime_description := some (append_description reg3.mime_description description) })
    else some (false, reg1)

/-! ## Vocabulary of the configuration properties -/

/-- One directive of a configuration file: its section, its name and its
value. -/
structure Directive where
  sect : CStr
  name : CStr
  value : CStr
  deriving DecidableEq

/-- The callback `config_ini_handler` called for each directive of a sequence
in order, whatever the earlier calls returned; `none` when a call dereferences
`NULL`. -/
def config_run (env : Libraries) : registry → List Directive → Option registry
  | reg, [] => some reg
  | reg, d :: rest =>
    match config_ini_handler env reg d.sect d.name d.value with
    | none => none
    | some (_, reg1) => config_run env reg1 rest

/-- Every record of the registry has a section name, as every record made by
`find_plugin_section` has. -/
def sections_named (reg : registry) : Bool :=
  reg.plugins.all (fun p => p.section_name.isSome) &&
    match reg.global with
    | none => true
    | some g => g.section_name.isSome

/-- The MIME descriptions that the `LoadPlugin` directives of a sequence
produce, in order: for each, what `platform_getmimedescription` gives for the
library opened from its value, when it gives one. -/
def loaded_descriptions (env : Libraries) (ds : List Directive) : List CStr :=
  ds.filterMap (fun d =>
    if d.name = "LoadPlugin".toList then
      platform_getmimedescription env { handle := platform_dlopen env d.value }
    else none)

/-- Two libraries: `/usr/lib/pdf.so`, whose description is
`app/x:ext1,ext2:Desc`, and `/usr/lib/flash.so`, whose description ends with a
semicolon. -/
def example_libraries : Libraries :=
  { dlopen := fun path =>
      if path = "/usr/lib/pdf.so".toList then some 1
      else if path = "/usr/lib/flash.so".toList then some 2
      else none,
    get_mime_description := fun handle =>
      if handle = 1 then some (some "app/x:ext1,ext2:Desc".toList)
      else if handle = 2 then some (some "app/flash:swf:Flash;".toList)
      else none }

/-- A configuration file with a `Global` section and two plugin sections. -/
def example_config : List Directive :=
  [⟨"Global".toList, "FriendlyWarning".toList, "Ask the help desk".toList⟩,
    ⟨"Flash".toList, "LoadPlugin".toList, "/usr/lib/flash.so".toList⟩,
    ⟨"Flash".toList, "AllowedDomains".toList, "*.google.com".toList⟩,
    ⟨"Viewer".toList, "LoadPlugin".toList, "/usr/lib/pdf.so".toList⟩,
    ⟨"Viewer".toList, "AllowInsecure".toList, "0".toList⟩,
    ⟨"Flash".toList, "AllowPort".toList, "1".toList⟩,
    ⟨"Broken".toList, "LoadPlugin".toList, "/usr/lib/missing.so".toList⟩]

/-! ## Vocabulary of the candidate properties -/

/-- The plugin declares the content type: its description has a
`;`-separated entry with a `:` whose content type (the text before its first
`:`) is the requested type, letter case ignored. -/
def declares (p : plugin) (pluginType : CStr) : Bool :=
  match p.mime_description with
  | none => false
  | some description =>
    (description.splitOn ';').any (fun entry =>
      entry.contains ':' && eq_ignoring_case (entry_type entry) pluginType)

/-- A plugin that declares the content type `application/p`, allowed on the
pages of `*.google.com`. -/
def short_plugin : plugin :=
  { section_name := some "Short".toList,
    allow_domains := some "*.google.com".toList,
    mime_description := some "application/p:p:Short".toList,
    plugin_funcs := some { newp := some NPERR_NO_ERROR } }

/-- Glob matching with the two wildcards alone: `*` stands for any run of
characters, `?` for any one character, and every other character, the
backslash included, for itself; the pattern has to match the whole string. -/
def glob_matches : CStr → CStr → Bool
  | [], s => s.isEmpty
  | c :: p, s =>
    if c = '*' then s.tails.any (fun t => glob_matches p t)
    else
      match s with
      | [] => false
      | x :: s1 => if c = '?' ∨ c = x then glob_matches p s1 else false

/-! ## Facts about the string routines -/

theorem strncmp_eq_zero_iff (p s : CStr) :
    strncmp s p (strlen p) = 0 ↔ p <+: s := by
  induction p generalizing s with
  | nil => simp [strlen, strncmp]
  | cons b bs ih =>
    cases s with
    | nil => simp [strlen, strncmp]
    | cons a as =>
      have h := ih as
      simp only [strlen] at h
      by_cases hab : a = b
      · subst hab
        simp [strlen, strncmp, h]
      · have hba : ¬ b = a := fun e => hab e.symm
        by_cases hlt : a < b <;> simp [strlen, strncmp, hab, hba, hlt]

theorem take_length_takeWhile (f : Char → Bool) (l : CStr) :
    l.take (l.takeWhile f).length = l.takeWhile f := by
  induction l with
  | nil => rfl
  | cons a l ih =>
    by_cases h : f a = true
    · simp [List.takeWhile_cons, h, ih]
    · simp [List.takeWhile_cons, h]

theorem drop_length_takeWhile (f : Char → Bool) (l : CStr) :
    l.drop (l.takeWhile f).length = l.dropWhile f := by
  induction l with
  | nil => rfl
  | cons a l ih =>
    by_cases h : f a = true
    · simp [List.takeWhile_cons, List.dropWhile_cons, h, ih]
    · simp [List.takeWhile_cons, List.dropWhile_cons, h]

theorem strspn_eq_strlen_iff (s accept : CStr) :
    strspn s accept = strlen s ↔ ∀ c ∈ s, c ∈ accept := by
  unfold strspn strlen
  constructor
  · intro h
    have h1 : s.takeWhile (fun c => accept.contains c) = s := by
      have := take_length_takeWhile (fun c => accept.contains c) s
      rw [h, List.take_length] at this
      exact this.symm
    intro c hc
    have := (List.takeWhile_eq_self_iff.mp h1) c hc
    simpa using this
  · intro h
    have h1 : s.takeWhile (fun c => accept.contains c) = s :=
      List.takeWhile_eq_self_iff.mpr (fun c hc => by simpa using h c hc)
    rw [h1]

theorem hostname_eq (rest : CStr) :
    strndupa rest (strcspn rest "/".toList) = rest.takeWhile (fun c => c ≠ '/') := by
  unfold strndupa strcspn
  rw [take_length_takeWhile]
  congr 1
  funext c
  simp

theorem splitOn_eq_takeWhile_cons (d : Char) (s : CStr) :
    s.splitOn d = s.takeWhile (fun c => c ≠ d) ::
      (match s.dropWhile (fun c => c ≠ d) with
        | [] => []
        | _ :: r => r.splitOn d) := by
  induction s with
  | nil => simp [List.splitOn, List.splitOnP_nil]
  | cons a s ih =>
    unfold List.splitOn at ih ⊢
    rw [List.splitOnP_cons]
    by_cases h : a = d
    · subst h
      simp [List.takeWhile_cons, List.dropWhile_cons]
    · rw [ih]
      simp [List.takeWhile_cons, List.dropWhile_cons, h]

theorem separated_nil (d : Char) : separated d [] = [] := by
  simp [separated, List.splitOn, List.splitOnP_nil]

theorem separated_cons_delim (d : Char) (s : CStr) :
    separated d (d :: s) = separated d s := by
  simp [separated, List.splitOn, List.splitOnP_cons]

theorem separated_dropWhile (d : Char) (s : CStr) :
    separated d (s.dropWhile (fun c => [d].contains c)) = separated d s := by
  induction s with
  | nil => rfl
  | cons a s ih =>
    by_cases h : a = d
    · subst h
      simp only [List.dropWhile_cons, List.contains_cons, List.contains_nil, beq_self_eq_true,
        Bool.or_false, if_true] 
      rw [separated_cons_delim]
      simpa using ih
    · simp [List.dropWhile_cons, h]

theorem separated_cons_of_ne (d c : Char) (cs : CStr) (h : c ≠ d) :
    separated d (c :: cs) = (c :: cs).takeWhile (fun x => x ≠ d) ::
      separated d (((c :: cs).dropWhile (fun x => x ≠ d)).drop 1) := by
  unfold separated
  rw [splitOn_eq_takeWhile_cons d (c :: cs)]
  have hne : ((c :: cs).takeWhile (fun x => x ≠ d)).isEmpty = false := by
    simp [List.takeWhile_cons, h]
  rw [List.filter_cons, hne]
  simp only [Bool.not_false, if_true]
  congr 1
  cases hd : (c :: cs).dropWhile (fun x => x ≠ d) with
  | nil => simp [List.splitOn, List.splitOnP_nil]
  | cons x r => simp

theorem head_dropWhile_false (f : Char → Bool) (s : CStr) (c : Char) (cs : CStr)
    (h : s.dropWhile f = c :: cs) : f c = false := by
  induction s with
  | nil => simp at h
  | cons a s ih =>
    by_cases ha : f a = true
    · rw [List.dropWhile_cons, if_pos ha] at h
      exact ih h
    · rw [List.dropWhile_cons, if_neg ha] at h
      injection h with h1 h2
      subst h1
      simpa using ha

theorem strtok_r_eq (d : Char) (s : CStr) :
    strtok_r s [d] =
      match s.dropWhile (fun c => [d].contains c) with
      | [] => none
      | c :: cs => some ((c :: cs).takeWhile (fun x => x ≠ d),
          ((c :: cs).dropWhile (fun x => x ≠ d)).drop 1) := by
  unfold strtok_r strspn
  rw [drop_length_takeWhile]
  cases hs : s.dropWhile (fun c => [d].contains c) with
  | nil => rfl
  | cons c cs =>
    simp only [strcspn]
    have hf : (fun c => !([d] : CStr).contains c) = (fun x => decide (x ≠ d)) := by
      funext x; simp
    rw [hf, take_length_takeWhile, ← List.drop_drop, drop_length_takeWhile]
    
theorem strtok_loop_eq (d : Char) (fuel : Nat) (s : CStr) (h : s.length < fuel) :
    strtok_loop [d] fuel s = separated d s := by
  induction fuel generalizing s with
  | zero => omega
  | succ fuel ih =>
    rw [strtok_loop, strtok_r_eq, ← separated_dropWhile]
    have hlen : (s.dropWhile (fun c => [d].contains c)).length ≤ s.length :=
      (List.dropWhile_sublist _).length_le
    cases hs : s.dropWhile (fun c => [d].contains c) with
    | nil => simp [separated_nil]
    | cons c cs =>
      have hc : c ≠ d := by
        have := head_dropWhile_false (fun c => [d].contains c) s c cs hs
        simpa using this
      rw [separated_cons_of_ne d c cs hc]
      simp only
      congr 1
      apply ih
      rw [hs] at hlen
      have h2 : ((c :: cs).dropWhile (fun x => decide (x ≠ d))).length ≤ (c :: cs).length :=
        (List.dropWhile_sublist _).length_le
      have h3 : ((c :: cs).dropWhile (fun x => decide (x ≠ d))).length ≠ (c :: cs).length := by
        simp [List.dropWhile_cons, hc]
        have := (List.dropWhile_sublist (fun x => !decide (x = d)) (l := cs)).length_le
        omega
      simp only [List.length_drop, List.length_cons] at *
      omega

/-- The tokens `strtok_r` hands out for the one delimiter `d` are the
non-empty pieces of the string between the occurrences of `d`. -/
theorem strtok_all_eq_separated (d : Char) (s : CStr) :
    strtok_all s [d] = separated d s :=
  strtok_loop_eq d _ s (Nat.lt_succ_self _)

theorem mem_strtok_all (d : Char) (s t : CStr) :
    t ∈ strtok_all s [d] ↔ t ∈ s.splitOn d ∧ t ≠ [] := by
  rw [strtok_all_eq_separated]
  simp [separated]

/-! ## Facts about the policy decisions -/

theorem http_not_https (rest : CStr) :
    ¬ "https://".toList <+: "http://".toList ++ rest := by
  intro h
  obtain ⟨t, ht⟩ := h
  simp at ht

theorem https_not_http (rest : CStr) :
    ¬ "http://".toList <+: "https://".toList ++ rest := by
  intro h
  obtain ⟨t, ht⟩ := h
  simp at ht

/-- After the host checks the domain decision is the search of a matching
glob among the tokens of the list. -/
theorem allowed_domain_of_host (p : plugin) (rest : CStr) (doms : CStr)
    (hd : p.allow_domains = some doms) :
    let host := rest.takeWhile (fun c => c ≠ '/')
    (policy_plugin_allowed_domain p ("http://".toList ++ rest) =
      (host_ok host && (strtok_all doms ",".toList).any (fun g => fnmatch g host = 0))) ∧
    (policy_plugin_allowed_domain p ("https://".toList ++ rest) =
      (host_ok host && (strtok_all doms ",".toList).any (fun g => fnmatch g host = 0))) := by
  intro host
  have h1 : strncmp ("http://".toList ++ rest) kHttpPrefix (strlen kHttpPrefix) = 0 :=
    (strncmp_eq_zero_iff _ _).mpr ⟨rest, rfl⟩
  have h2 : strncmp ("https://".toList ++ rest) kHttpsPrefix (strlen kHttpsPrefix) = 0 :=
    (strncmp_eq_zero_iff _ _).mpr ⟨rest, rfl⟩
  have h3 : ¬ strncmp ("https://".toList ++ rest) kHttpPrefix (strlen kHttpPrefix) = 0 :=
    fun h => https_not_http rest ((strncmp_eq_zero_iff _ _).mp h)
  have e1 : ("http://".toList ++ rest).drop (strlen kHttpPrefix) = rest := by
    simp [strlen, kHttpPrefix]
  have e2 : ("https://".toList ++ rest).drop (strlen kHttpsPrefix) = rest := by
    simp [strlen, kHttpsPrefix]
  have key : ∀ h : CStr,
      (if strspn h kDomainCharacterSet ≠ strlen h then false
        else if strlen h > kDomainMaxLen ∨ strlen h = 0 then false
        else (strtok_all doms ",".toList).any (fun g => decide (fnmatch g h = 0))) =
      (host_ok h && (strtok_all doms ",".toList).any (fun g => fnmatch g h = 0)) := by
    intro h
    unfold host_ok
    by_cases hc : ∀ c ∈ h, c ∈ kDomainCharacterSet
    · have hs : strspn h kDomainCharacterSet = strlen h := (strspn_eq_strlen_iff _ _).mpr hc
      by_cases hn : h = []
      · subst hn; simp [strlen, hs]
      · have hl : ¬ strlen h = 0 := by simpa [strlen] using hn
        by_cases hm : h.length ≤ 128
        · have hk : ¬ strlen h > kDomainMaxLen := by simp [strlen, kDomainMaxLen]; exact hm
          rw [if_neg (by simp [hs]), if_neg (by simp [hk, hl])]
          have d1 : decide (∀ c ∈ h, c ∈ kDomainCharacterSet) = true := decide_eq_true hc
          have d2 : decide (h ≠ []) = true := decide_eq_true hn
          have d3 : decide (h.length ≤ 128) = true := decide_eq_true hm
          rw [d1, d2, d3]
          rfl
        · have hk : strlen h > kDomainMaxLen := by simp [strlen, kDomainMaxLen]; omega
          rw [if_neg (by simp [hs]), if_pos (Or.inl hk)]
          simp [hm]
    · have : strspn h kDomainCharacterSet ≠ strlen h :=
        fun e => hc ((strspn_eq_strlen_iff _ _).mp e)
      simp [this, hc]
  constructor
  · unfold policy_plugin_allowed_domain
    simp only [hd, h1, if_true, e1, hostname_eq]
    exact key _
  · unfold policy_plugin_allowed_domain
    simp only [hd, h2, h3, if_true, if_false, e2, hostname_eq]
    exact key _

theorem allowed_domain_none (p : plugin) (url : CStr) (hd : p.allow_domains = none) :
    policy_plugin_allowed_domain p url = false := by
  unfold policy_plugin_allowed_domain
  simp [hd]

theorem allowed_domain_no_scheme (p : plugin) (url : CStr)
    (h1 : ¬ "http://".toList <+: url) (h2 : ¬ "https://".toList <+: url) :
    policy_plugin_allowed_domain p url = false := by
  have a1 : ¬ strncmp url kHttpPrefix (strlen kHttpPrefix) = 0 :=
    fun h => h1 ((strncmp_eq_zero_iff _ _).mp h)
  have a2 : ¬ strncmp url kHttpsPrefix (strlen kHttpsPrefix) = 0 :=
    fun h => h2 ((strncmp_eq_zero_iff _ _).mp h)
  unfold policy_plugin_allowed_domain
  cases hd : p.allow_domains <;> simp [a1, a2]

theorem allowed_protocol_iff (p : plugin) (url : CStr) :
    policy_plugin_allowed_protocol p url = true ↔
      (p.allow_insecure ≠ none ∨ "https://".toList <+: url) := by
  unfold policy_plugin_allowed_protocol
  have := strncmp_eq_zero_iff kHttpsPrefix url
  cases h : p.allow_insecure with
  | none => simpa using this
  | some v => simp

theorem allowed_domain_core (p : plugin) (url : CStr) :
    policy_plugin_allowed_domain p url = true ↔
      ∃ doms rest, p.allow_domains = some doms ∧
        (url = "http://".toList ++ rest ∨ url = "https://".toList ++ rest) ∧
        host_ok (rest.takeWhile (fun c => c ≠ '/')) = true ∧
        (strtok_all doms ",".toList).any
          (fun g => fnmatch g (rest.takeWhile (fun c => c ≠ '/')) = 0) = true := by
  constructor
  · intro h
    cases hd : p.allow_domains with
    | none => rw [allowed_domain_none p url hd] at h; exact absurd h (by simp)
    | some doms =>
      by_cases h1 : "http://".toList <+: url
      · obtain ⟨rest, rfl⟩ := h1
        rw [(allowed_domain_of_host p rest doms hd).1, Bool.and_eq_true] at h
        exact ⟨doms, rest, rfl, Or.inl rfl, h.1, h.2⟩
      · by_cases h2 : "https://".toList <+: url
        · obtain ⟨rest, rfl⟩ := h2
          rw [(allowed_domain_of_host p rest doms hd).2, Bool.and_eq_true] at h
          exact ⟨doms, rest, rfl, Or.inr rfl, h.1, h.2⟩
        · rw [allowed_domain_no_scheme p url h1 h2] at h
          exact absurd h (by simp)
  · rintro ⟨doms, rest, hd, hu, hh, ha⟩
    rcases hu with rfl | rfl
    · rw [(allowed_domain_of_host p rest doms hd).1, hh, ha]; rfl
    · rw [(allowed_domain_of_host p rest doms hd).2, hh, ha]; rfl

theorem host_ok_iff (host : CStr) :
    host_ok host = true ↔
      (∀ c ∈ host, c ∈ kDomainCharacterSet) ∧ host ≠ [] ∧ host.length ≤ 128 := by
  unfold host_ok
  simp [and_assoc]

theorem strtok_all_only_delims (d : Char) (s : CStr) (h : ∀ c ∈ s, c = d) :
    strtok_all s [d] = [] := by
  unfold strtok_all
  rw [strtok_loop, strtok_r_eq]
  have : s.dropWhile (fun c => [d].contains c) = [] :=
    List.dropWhile_eq_nil_iff.mpr (fun c hc => by simp [h c hc])
  rw [this]

theorem fnmatch_segment_star (p s : CStr) :
    fnmatch_segment 0 ('*' :: p) s = Segment.star p s := by
  conv => lhs; unfold fnmatch_segment
  simp

theorem fnmatch_segment_ordinary (c x : Char) (p s : CStr)
    (hc : c ≠ '*' ∧ c ≠ '?' ∧ c ≠ '[') :
    fnmatch_segment 0 (c :: p) (x :: s) =
      if x = c then fnmatch_segment 0 p s else Segment.no_match := by
  conv => lhs; unfold fnmatch_segment
  simp [hc.1, hc.2.1, hc.2.2]

theorem fnmatch_segment_ordinary_nil (c : Char) (p : CStr) (hc : c ≠ '*') :
    fnmatch_segment 0 (c :: p) [] = Segment.no_match := by
  conv => lhs; unfold fnmatch_segment
  simp [hc]

theorem fnmatch_segment_literal (lit s : CStr)
    (hl : ∀ c ∈ lit, c ≠ '*' ∧ c ≠ '?' ∧ c ≠ '[') :
    fnmatch_segment 0 lit s = if s = lit then Segment.matched else Segment.no_match := by
  induction lit generalizing s with
  | nil =>
    rw [fnmatch_segment]
    cases s <;> simp
  | cons c p ih =>
    have hc := hl c (List.mem_cons_self _ _)
    have hp : ∀ x ∈ p, x ≠ '*' ∧ x ≠ '?' ∧ x ≠ '[' :=
      fun x hx => hl x (List.mem_cons_of_mem _ hx)
    cases s with
    | nil => rw [fnmatch_segment_ordinary_nil c p hc.1]; simp
    | cons x s1 =>
      rw [fnmatch_segment_ordinary c x p s1 hc, ih s1 hp]
      by_cases hx : x = c
      · subst hx; simp
      · simp [hx]

theorem fnmatch_literal (lit s : CStr)
    (hl : ∀ c ∈ lit, c ≠ '*' ∧ c ≠ '?' ∧ c ≠ '[') :
    fnmatch lit s = 0 ↔ s = lit := by
  unfold fnmatch fnmatch_loop
  rw [fnmatch_segment_literal lit s hl]
  by_cases h : s = lit <;> simp [h, FNM_NOMATCH]

theorem skip_wildcards_ordinary (c : Char) (p s : CStr) (hc : c ≠ '*' ∧ c ≠ '?') :
    skip_wildcards (c :: p) s = some (c :: p, s) := by
  conv => lhs; unfold skip_wildcards
  simp [hc.1, hc.2]

theorem first_segment_literal (c : Char) (p s : CStr)
    (hl : ∀ x ∈ c :: p, x ≠ '*' ∧ x ≠ '?' ∧ x ≠ '[') :
    first_segment (c :: p) s =
      if (c :: p) <:+ s then Segment.matched else Segment.no_match := by
  have hc := hl c (List.mem_cons_self _ _)
  induction s with
  | nil => simp [first_segment]
  | cons x s1 ih =>
    rw [first_segment, fnmatch_segment_literal _ _ hl, ih]
    have hsuf : (c :: p) <:+ (x :: s1) ↔ c :: p = x :: s1 ∨ (c :: p) <:+ s1 :=
      List.suffix_cons_iff
    by_cases he : x :: s1 = c :: p
    · have hxc : x = c := (List.cons.inj he).1
      have hs : s1 = p := (List.cons.inj he).2
      subst hxc
      subst hs
      simp
    · have hne : ¬ (c :: p = x :: s1) := fun e => he e.symm
      by_cases h1 : (c :: p) <:+ s1
      · have : (c :: p) <:+ (x :: s1) := hsuf.mpr (Or.inr h1)
        simp [he, h1, this]
      · have : ¬ (c :: p) <:+ (x :: s1) := fun h => (hsuf.mp h).elim hne h1
        simp [he, h1, this]

theorem fnmatch_star_literal (lit s : CStr)
    (hl : ∀ c ∈ lit, c ≠ '*' ∧ c ≠ '?' ∧ c ≠ '[') :
    fnmatch ('*' :: lit) s = 0 ↔ lit <:+ s := by
  unfold fnmatch fnmatch_loop
  rw [fnmatch_segment_star]
  cases lit with
  | nil => simp [fnmatch_star_loop, skip_wildcards]
  | cons c p =>
    have hc := hl c (List.mem_cons_self _ _)
    simp only [fnmatch_star_loop, skip_wildcards_ordinary c p s ⟨hc.1, hc.2.1⟩,
      first_segment_literal c p s hl]
    by_cases h : (c :: p) <:+ s <;> simp [h, FNM_NOMATCH]

theorem class_skip_rest (c1 : Nat) (q str rest : CStr)
    (h : class_skip c1 q = ClassScan.name str rest) :
    rest <:+ q ∧ rest.length < q.length := by
  induction q generalizing c1 with
  | nil =>
    rw [class_skip] at h
    split at h <;> simp at h
  | cons c p ih =>
    rw [class_skip] at h
    split at h
    · simp at h
    · split at h
      · simp only [ClassScan.name.injEq] at h
        rw [← h.2]
        exact ⟨(List.drop_suffix 1 p).trans (List.suffix_cons c p),
          Nat.lt_succ_of_le (List.drop_suffix 1 p).length_le⟩
      · split at h
        · simp at h
        · obtain ⟨h1, h2⟩ := ih (c1 + 1) h
          exact ⟨h1.trans (List.suffix_cons c p), Nat.lt_succ_of_lt h2⟩

theorem class_scan_rest (c1 : Nat) (s0 q str rest : CStr)
    (h : class_scan c1 s0 q = ClassScan.name str rest) :
    rest <:+ q ∧ rest.length < q.length := by
  induction q generalizing c1 s0 with
  | nil =>
    rw [class_scan] at h
    split at h <;> simp at h
  | cons c p ih =>
    rw [class_scan] at h
    split at h
    · simp at h
    · split at h
      · simp only [ClassScan.name.injEq] at h
        rw [← h.2]
        exact ⟨(List.drop_suffix 1 p).trans (List.suffix_cons c p),
          Nat.lt_succ_of_le (List.drop_suffix 1 p).length_le⟩
      · split at h
        · simp at h
        · obtain ⟨h1, h2⟩ := ih (c1 + 1) _ h
          exact ⟨h1.trans (List.suffix_cons c p), Nat.lt_succ_of_lt h2⟩

theorem symbol_scan_rest (c1 : Nat) (q : CStr) (n : Nat) (rest : CStr)
    (h : symbol_scan c1 q = some (n, rest)) :
    rest <:+ q ∧ rest.length < q.length := by
  induction q generalizing c1 with
  | nil => simp [symbol_scan] at h
  | cons c p ih =>
    rw [symbol_scan] at h
    split at h
    · simp only [Option.some.injEq, Prod.mk.injEq] at h
      rw [← h.2]
      exact ⟨(List.drop_suffix 1 p).trans (List.suffix_cons c p),
        Nat.lt_succ_of_le (List.drop_suffix 1 p).length_le⟩
    · obtain ⟨h1, h2⟩ := ih (c1 + 1) h
      exact ⟨h1.trans (List.suffix_cons c p), Nat.lt_succ_of_lt h2⟩

/-- One round of the skip loop: its result, or the pattern at which the loop
goes on, which is shorter. -/
theorem bracket_skip_succ (neg : Bool) (c : Char) (p : CStr) :
    (∃ r, ∀ f, bracket_skip neg (f + 1) (c :: p) = r ∧
      ∀ rest, r = BracketResult.pass rest → rest <:+ p) ∨
    (∃ q, q <:+ p ∧ ∀ f, bracket_skip neg (f + 1) (c :: p) = bracket_skip neg f q) := by
  by_cases h1 : c = ']'
  · left
    refine ⟨if neg then .no_match else .pass p, fun f => ⟨?_, ?_⟩⟩
    · rw [bracket_skip, if_pos h1]
    · intro rest hr
      cases neg with
      | true => simp at hr
      | false =>
        simp only [Bool.false_eq_true, if_false, BracketResult.pass.injEq] at hr
        rw [← hr]
  · by_cases h2 : c = '[' ∧ p.head? = some ':'
    · cases hs : class_skip 0 (p.drop 1) with
      | too_long =>
        left
        exact ⟨.no_match, fun f => ⟨by rw [bracket_skip, if_neg h1, if_pos h2, hs],
          fun rest hr => by simp at hr⟩⟩
      | not_class =>
        right
        exact ⟨p, List.suffix_refl p, fun f => by rw [bracket_skip, if_neg h1, if_pos h2, hs]⟩
      | name str rest =>
        right
        exact ⟨rest, (class_skip_rest 0 _ str rest hs).1.trans (List.drop_suffix 1 p),
          fun f => by rw [bracket_skip, if_neg h1, if_pos h2, hs]⟩
    · by_cases h3 : c = '[' ∧ p.head? = some '='
      · by_cases h4 : ∃ e rest, p.drop 1 = e :: '=' :: ']' :: rest
        · obtain ⟨e, rest, hd⟩ := h4
          right
          refine ⟨rest, ?_, fun f => by rw [bracket_skip, if_neg h1, if_neg h2, if_pos h3, hd]; rfl⟩
          have : rest <:+ p.drop 1 := by
            rw [hd]
            exact ⟨[e, '=', ']'], rfl⟩
          exact this.trans (List.drop_suffix 1 p)
        · left
          refine ⟨.no_match, fun f => ⟨?_, fun rest hr => by simp at hr⟩⟩
          rw [bracket_skip, if_neg h1, if_neg h2, if_pos h3]
          split
          · rename_i e rest hd
            exact absurd ⟨e, rest, hd⟩ h4
          · rfl
      · by_cases h5 : c = '[' ∧ p.head? = some '.'
        · cases hs : symbol_scan 0 (p.drop 1) with
          | none =>
            left
            exact ⟨.no_match, fun f =>
              ⟨by rw [bracket_skip, if_neg h1, if_neg h2, if_neg h3, if_pos h5, hs],
                fun rest hr => by simp at hr⟩⟩
          | some r =>
            obtain ⟨n, rest⟩ := r
            right
            exact ⟨rest, (symbol_scan_rest 0 _ n rest hs).1.trans (List.drop_suffix 1 p),
              fun f => by rw [bracket_skip, if_neg h1, if_neg h2, if_neg h3, if_pos h5, hs]⟩
        · right
          exact ⟨p, List.suffix_refl p, fun f => by
            rw [bracket_skip, if_neg h1, if_neg h2, if_neg h3, if_neg h5]⟩

/-- The skip loop does not depend on the bound on its rounds, once that
exceeds the length of the pattern. -/
theorem bracket_skip_fuel (neg : Bool) (f1 f2 : Nat) (p : CStr)
    (h1 : p.length < f1) (h2 : p.length < f2) :
    bracket_skip neg f1 p = bracket_skip neg f2 p := by
  induction f1 generalizing f2 p with
  | zero => omega
  | succ f1 ih =>
    cases f2 with
    | zero => omega
    | succ f2 =>
      cases p with
      | nil => rw [bracket_skip, bracket_skip]
      | cons c p =>
        rw [List.length_cons] at h1 h2
        rcases bracket_skip_succ neg c p with ⟨r, hr⟩ | ⟨q, hq, hs⟩
        · rw [(hr f1).1, (hr f2).1]
        · rw [hs f1, hs f2]
          have := hq.length_le
          exact ih f2 q (by omega) (by omega)

/-- What the skip loop leaves of the pattern is an end of it. -/
theorem bracket_skip_rest (neg : Bool) (fuel : Nat) (p rest : CStr)
    (h : bracket_skip neg fuel p = BracketResult.pass rest) : rest <:+ p := by
  induction fuel generalizing p with
  | zero => simp [bracket_skip] at h
  | succ fuel ih =>
    cases p with
    | nil => simp [bracket_skip] at h
    | cons c p =>
      rcases bracket_skip_succ neg c p with ⟨r, hr⟩ | ⟨q, hq, hs⟩
      · rw [(hr fuel).1] at h
        exact ((hr fuel).2 rest h).trans (List.suffix_cons c p)
      · rw [hs fuel] at h
        exact ((ih q h).trans hq).trans (List.suffix_cons c p)

theorem round_within_mono (r : Round) (q p : CStr) (h : r.within q) (hq : q <:+ p) :
    r.within p := by
  cases r with
  | done res =>
    cases res with
    | pass rest => exact List.IsSuffix.trans h hq
    | no_match => trivial
    | literal => trivial
  | again q1 => exact List.IsSuffix.trans h hq

theorem round_within_skip (neg : Bool) (fuel : Nat) (q p : CStr) (hq : q <:+ p) :
    (Round.done (bracket_skip neg fuel q)).within p := by
  cases hs : bracket_skip neg fuel q with
  | pass rest => exact (bracket_skip_rest neg fuel q rest hs).trans hq
  | no_match => trivial
  | literal => trivial

theorem bracket_next_within (neg : Bool) (q : CStr) : (bracket_next neg q).within q := by
  unfold bracket_next
  split
  · rename_i rest
    cases neg with
    | true => exact List.suffix_cons _ rest
    | false => trivial
  · exact List.suffix_refl q

theorem bracket_range_within (fn : Char) (neg : Bool) (cold : Char) (q : CStr) :
    (bracket_range fn neg cold q).within q := by
  unfold bracket_range
  split
  · rename_i q1
    split
    · exact bracket_next_within neg _
    · split
      · trivial
      · rename_i cend q2 _
        have h2 : q2 <:+ '-' :: cend :: q2 := ⟨['-', cend], rfl⟩
        split
        · split
          · trivial
          · rename_i c1 rest hs
            have hr : rest <:+ '-' :: cend :: q2 :=
              ((symbol_scan_rest 0 _ c1 rest hs).1.trans (List.drop_suffix 1 q2)).trans h2
            split
            · trivial
            · split
              · exact round_within_skip neg _ rest _ hr
              · exact round_within_mono _ rest _ (bracket_next_within neg rest) hr
        · split
          · exact round_within_skip neg _ q2 _ h2
          · exact round_within_mono _ q2 _ (bracket_next_within neg q2) h2
  · exact bracket_next_within neg q

theorem bracket_normal_within (fn : Char) (neg : Bool) (c : Char) (q : CStr) :
    (bracket_normal fn neg c q).within q := by
  unfold bracket_normal
  dsimp only
  split
  · exact round_within_skip neg _ q q (List.suffix_refl q)
  · exact bracket_range_within fn neg c q

/-- A round of the item loop leaves an end of the pattern behind its first
character. -/
theorem bracket_item_within (fn : Char) (neg : Bool) (c : Char) (p : CStr) :
    (bracket_item fn neg c p).within p := by
  unfold bracket_item
  split
  · split
    · trivial
    · exact bracket_normal_within fn neg '[' p
    · rename_i str rest hs
      have hr : rest <:+ p :=
        (class_scan_rest 0 [] _ str rest hs).1.trans (List.drop_suffix 1 p)
      split
      · trivial
      · exact round_within_skip neg _ rest p hr
      · exact round_within_mono _ rest p (bracket_next_within neg rest) hr
  · split
    · split
      · rename_i str rest hd
        have hr : rest <:+ p := by
          have : rest <:+ p.drop 1 := by
            rw [hd]
            exact ⟨[str, '=', ']'], rfl⟩
          exact this.trans (List.drop_suffix 1 p)
        split
        · exact round_within_skip neg _ rest p hr
        · exact round_within_mono _ rest p (bracket_next_within neg rest) hr
      · exact bracket_normal_within fn neg '[' p
    · split
      · split
        · trivial
        · rename_i c1 rest hs
          have hr : rest <:+ p :=
            (symbol_scan_rest 0 _ c1 rest hs).1.trans (List.drop_suffix 1 p)
          dsimp only
          split
          · trivial
          · split
            · exact round_within_skip neg _ rest p hr
            · exact round_within_mono _ rest p (bracket_range_within fn neg _ rest) hr
      · exact bracket_normal_within fn neg c p

/-- The item loop does not depend on the bound on its rounds, once that
exceeds the length of the pattern. -/
theorem bracket_items_fuel (fn : Char) (neg : Bool) (f1 f2 : Nat) (p : CStr)
    (h1 : p.length < f1) (h2 : p.length < f2) :
    bracket_items fn neg f1 p = bracket_items fn neg f2 p := by
  induction f1 generalizing f2 p with
  | zero => omega
  | succ f1 ih =>
    cases f2 with
    | zero => omega
    | succ f2 =>
      cases p with
      | nil => rw [bracket_items, bracket_items]
      | cons c p =>
        rw [List.length_cons] at h1 h2
        rw [bracket_items, bracket_items]
        have hw := bracket_item_within fn neg c p
        cases hr : bracket_item fn neg c p with
        | done res => rfl
        | again q =>
          rw [hr] at hw
          have := List.IsSuffix.length_le hw
          exact ih f2 q (by omega) (by omega)

/-- What the item loop leaves of the pattern is an end of it. -/
theorem bracket_items_rest (fn : Char) (neg : Bool) (fuel : Nat) (p rest : CStr)
    (h : bracket_items fn neg fuel p = BracketResult.pass rest) : rest <:+ p := by
  induction fuel generalizing p with
  | zero => simp [bracket_items] at h
  | succ fuel ih =>
    cases p with
    | nil => simp [bracket_items] at h
    | cons c p =>
      rw [bracket_items] at h
      have hw := bracket_item_within fn neg c p
      cases hr : bracket_item fn neg c p with
      | done res =>
        rw [hr] at h hw
        dsimp only at h
        subst h
        exact List.IsSuffix.trans hw (List.suffix_cons c p)
      | again q =>
        rw [hr] at h hw
        dsimp only at h
        exact ((ih q h).trans hw).trans (List.suffix_cons c p)

/-- The pattern behind a bracket expression is an end of the pattern behind
its `[`. -/
theorem bracket_rest (fn : Char) (p rest : CStr)
    (h : bracket fn p = BracketResult.pass rest) : rest <:+ p := by
  unfold bracket at h
  split at h
  · rename_i c q
    split at h
    · exact (bracket_items_rest fn true _ q rest h).trans (List.suffix_cons c q)
    · exact bracket_items_rest fn false _ _ rest h
  · simp at h

theorem fnmatch_segment_skip (k : Nat) (p s : CStr) (hk : k ≤ p.length) :
    fnmatch_segment k p s = fnmatch_segment 0 (p.drop k) s := by
  induction k generalizing p with
  | zero => rfl
  | succ k ih =>
    cases p with
    | nil => simp at hk
    | cons c p =>
      rw [fnmatch_segment, List.drop_succ_cons]
      exact ih p (Nat.le_of_succ_le_succ hk)

/-- Case `[` of the matcher: on a match the pattern goes on behind the
bracket expression, the count of characters to step over being that of the
expression. -/
theorem fnmatch_segment_bracket (x : Char) (p s : CStr) :
    fnmatch_segment 0 ('[' :: p) (x :: s) =
      match bracket x p with
      | BracketResult.no_match => Segment.no_match
      | BracketResult.literal =>
        if x = '[' then fnmatch_segment 0 p s else Segment.no_match
      | BracketResult.pass rest => fnmatch_segment 0 rest s := by
  conv => lhs; unfold fnmatch_segment
  simp only [Char.reduceEq, if_false, if_true]
  cases hb : bracket x p with
  | no_match => rfl
  | literal => rfl
  | pass rest =>
    dsimp only
    have hs := bracket_rest x p rest hb
    rw [fnmatch_segment_skip _ p s (Nat.sub_le _ _)]
    obtain ⟨u, rfl⟩ := hs
    simp

/-- A call of the matcher that ends at a `*` leaves less of the pattern than
it was given. -/
theorem fnmatch_segment_star_rest (k : Nat) (p s p1 s1 : CStr)
    (h : fnmatch_segment k p s = Segment.star p1 s1) : p1.length < p.length := by
  induction p generalizing k s with
  | nil =>
    cases k with
    | zero =>
      rw [fnmatch_segment] at h
      split at h <;> simp at h
    | succ k => simp [fnmatch_segment] at h
  | cons c q ih =>
    cases k with
    | succ k =>
      rw [fnmatch_segment] at h
      exact Nat.lt_succ_of_lt (ih k s h)
    | zero =>
      unfold fnmatch_segment at h
      split at h
      · simp only [Segment.star.injEq] at h
        rw [← h.1]
        simp
      · split at h
        · simp at h
        · split at h
          · exact Nat.lt_succ_of_lt (ih _ _ h)
          · split at h
            · split at h
              · simp at h
              · split at h
                · exact Nat.lt_succ_of_lt (ih _ _ h)
                · simp at h
              · exact Nat.lt_succ_of_lt (ih _ _ h)
            · split at h
              · exact Nat.lt_succ_of_lt (ih _ _ h)
              · simp at h

theorem skip_wildcards_rest (p s p1 s1 : CStr)
    (h : skip_wildcards p s = some (p1, s1)) : p1.length ≤ p.length := by
  induction p generalizing s with
  | nil =>
    unfold skip_wildcards at h
    simp only [Option.some.injEq, Prod.mk.injEq] at h
    rw [← h.1]
  | cons c q ih =>
    unfold skip_wildcards at h
    split at h
    · exact Nat.le_succ_of_le (ih s h)
    · split at h
      · split at h
        · simp at h
        · exact Nat.le_succ_of_le (ih _ h)
      · simp only [Option.some.injEq, Prod.mk.injEq] at h
        rw [← h.1]

theorem first_segment_rest (p s p1 s1 : CStr)
    (h : first_segment p s = Segment.star p1 s1) : p1.length < p.length := by
  induction s with
  | nil => simp [first_segment] at h
  | cons x s ih =>
    rw [first_segment] at h
    split at h
    · cases hr : fnmatch_segment 0 p (x :: s) with
      | no_match => rw [hr] at h; exact ih h
      | matched => rw [hr] at h; simp at h
      | star p2 s2 =>
        rw [hr] at h
        simp only [Segment.star.injEq] at h
        rw [← h.1]
        exact fnmatch_segment_star_rest 0 p (x :: s) p2 s2 hr
    · exact ih h

/-- Case `*` of the matcher does not depend on the bound on its rounds, once
that exceeds the length of the pattern. -/
theorem fnmatch_star_loop_fuel (f1 f2 : Nat) (p s : CStr)
    (h1 : p.length < f1) (h2 : p.length < f2) :
    fnmatch_star_loop f1 p s = fnmatch_star_loop f2 p s := by
  induction f1 generalizing f2 p s with
  | zero => omega
  | succ f1 ih =>
    cases f2 with
    | zero => omega
    | succ f2 =>
      rw [fnmatch_star_loop, fnmatch_star_loop]
      cases hr : skip_wildcards p s with
      | none => rfl
      | some r =>
        obtain ⟨p1, s1⟩ := r
        have hl := skip_wildcards_rest p s p1 s1 hr
        cases p1 with
        | nil => rfl
        | cons c q =>
          dsimp only
          cases hs : first_segment (c :: q) s1 with
          | no_match => rfl
          | matched => rfl
          | star p2 s2 =>
            dsimp only
            have := first_segment_rest (c :: q) s1 p2 s2 hs
            exact ih f2 p2 s2 (by omega) (by omega)

/-- The bracket expressions of the matcher at work: a named class, an
equivalence class, a collating symbol and a range match one character of
their set; a negated expression matches a character outside it; a bracket
that is not terminated stands for itself; an unknown class name and a
collating symbol of two characters make the call fail. -/
theorem fnmatch_bracket_examples :
    fnmatch "[[:alpha:]]oogle.com".toList "google.com".toList = 0 ∧
    fnmatch "[[:alpha:]".toList "a".toList = FNM_NOMATCH ∧
    fnmatch "[[:alpha:][!]]".toList "aa".toList = FNM_NOMATCH ∧
    fnmatch "[[:digit:]]x".toList "gx".toList = FNM_NOMATCH ∧
    fnmatch "[[=g=]]oogle.com".toList "google.com".toList = 0 ∧
    fnmatch "[[.g.]]oogle.com".toList "google.com".toList = 0 ∧
    fnmatch "[a-[.z.]]oogle.com".toList "google.com".toList = 0 ∧
    fnmatch "[!a-f]oogle.com".toList "google.com".toList = 0 ∧
    fnmatch "[^g]oogle.com".toList "google.com".toList = FNM_NOMATCH ∧
    fnmatch "[g".toList "[g".toList = 0 ∧
    fnmatch "[g".toList "g".toList = FNM_NOMATCH ∧
    fnmatch "[[:host:]]".toList "g".toList = FNM_NOMATCH ∧
    fnmatch "[[.go.]]".toList "g".toList = FNM_NOMATCH ∧
    fnmatch "*[.]google.com".toList "www.google.com".toList = 0 := by
  decide

theorem glob_matches_nil (s : CStr) : glob_matches [] s = s.isEmpty := by
  rw [glob_matches]

theorem glob_matches_star (p s : CStr) :
    glob_matches ('*' :: p) s = s.tails.any (fun t => glob_matches p t) := by
  conv => lhs; unfold glob_matches
  simp

theorem glob_matches_cons_nil (c : Char) (p : CStr) (hc : c ≠ '*') :
    glob_matches (c :: p) [] = false := by
  conv => lhs; unfold glob_matches
  simp [hc]

theorem glob_matches_any (p : CStr) (x : Char) (s : CStr) :
    glob_matches ('?' :: p) (x :: s) = glob_matches p s := by
  conv => lhs; unfold glob_matches
  simp

theorem glob_matches_same (c : Char) (p s : CStr) (hc : c ≠ '*') :
    glob_matches (c :: p) (c :: s) = glob_matches p s := by
  conv => lhs; unfold glob_matches
  simp [hc]

theorem glob_matches_other (c x : Char) (p s : CStr)
    (hc : c ≠ '*' ∧ c ≠ '?') (hx : x ≠ c) :
    glob_matches (c :: p) (x :: s) = false := by
  conv => lhs; unfold glob_matches
  have : ¬ c = x := fun e => hx e.symm
  simp [hc.1, hc.2, this]

theorem glob_matches_star_cons (p : CStr) (x : Char) (s : CStr) :
    glob_matches ('*' :: p) (x :: s) =
      (glob_matches p (x :: s) || glob_matches ('*' :: p) s) := by
  rw [glob_matches_star, glob_matches_star, List.tails_cons, List.any_cons]

theorem glob_matches_star_nil (p : CStr) :
    glob_matches ('*' :: p) [] = glob_matches p [] := by
  rw [glob_matches_star]
  simp

/-- A `*` that matches an end of a string matches the string. -/
theorem glob_matches_star_suffix (p t s : CStr) (hts : t <:+ s)
    (h : glob_matches ('*' :: p) t = true) : glob_matches ('*' :: p) s = true := by
  rw [glob_matches_star] at h ⊢
  obtain ⟨u, hu, hm⟩ := List.any_eq_true.mp h
  exact List.any_eq_true.mpr
    ⟨u, (List.mem_tails _ _).mpr (((List.mem_tails _ _).mp hu).trans hts), hm⟩

theorem glob_matches_star_star (p s : CStr) :
    glob_matches ('*' :: '*' :: p) s = glob_matches ('*' :: p) s := by
  induction s with
  | nil => rw [glob_matches_star_nil]
  | cons x s ih =>
    rw [glob_matches_star_cons, ih, glob_matches_star_cons p x s]
    cases glob_matches p (x :: s) <;> cases glob_matches ('*' :: p) s <;> rfl

theorem glob_matches_star_any (p : CStr) (x : Char) (s : CStr) :
    glob_matches ('*' :: '?' :: p) (x :: s) = glob_matches ('*' :: p) s := by
  induction s generalizing x with
  | nil =>
    rw [glob_matches_star_cons, glob_matches_any, glob_matches_star_nil,
      glob_matches_cons_nil '?' p (by decide), glob_matches_star_nil]
    simp
  | cons y s ih =>
    rw [glob_matches_star_cons, glob_matches_any, ih y, glob_matches_star_cons p y s]

theorem drop_suffix_drop (t s : CStr) (k : Nat) (h : t <:+ s) : t.drop k <:+ s.drop k := by
  obtain ⟨u, rfl⟩ := h
  rw [List.drop_append_eq_append_drop]
  have h1 : t.drop k <:+ t.drop (k - u.length) := by
    have : t.drop k = (t.drop (k - u.length)).drop (k - (k - u.length)) := by
      rw [List.drop_drop]
      congr 1
      omega
    rw [this]
    exact List.drop_suffix _ _
  exact h1.trans (List.suffix_append _ _)

/-- What a call of the matcher up to the next `*` says of the glob match, for
a pattern without brackets. -/
theorem fnmatch_segment_glob (p : CStr) (hp : '[' ∉ p) (s : CStr) :
    match fnmatch_segment 0 p s with
    | Segment.no_match => glob_matches p s = false
    | Segment.matched => glob_matches p s = true
    | Segment.star p1 s1 =>
      glob_matches p s = glob_matches ('*' :: p1) s1 ∧ p1.length < p.length ∧ '[' ∉ p1 ∧
        ∃ k, s1 = s.drop k ∧
          ∀ t, glob_matches p t = true → glob_matches ('*' :: p1) (t.drop k) = true := by
  induction p generalizing s with
  | nil =>
    rw [fnmatch_segment, glob_matches_nil]
    cases s <;> simp
  | cons c q ih =>
    have hq : '[' ∉ q := fun h => hp (List.mem_cons_of_mem _ h)
    have hcb : c ≠ '[' := fun e => hp (e ▸ List.mem_cons_self _ _)
    by_cases hstar : c = '*'
    · subst hstar
      rw [fnmatch_segment_star]
      exact ⟨rfl, by simp, hq, 0, rfl, fun t ht => ht⟩
    · cases s with
      | nil =>
        rw [fnmatch_segment_ordinary_nil c q hstar]
        exact glob_matches_cons_nil c q hstar
      | cons x s1 =>
        have step : ∀ (hg : glob_matches (c :: q) (x :: s1) = glob_matches q s1)
            (hall : ∀ t, glob_matches (c :: q) t = true →
              ∃ y t1, t = y :: t1 ∧ glob_matches q t1 = true),
            match fnmatch_segment 0 q s1 with
            | Segment.no_match => glob_matches (c :: q) (x :: s1) = false
            | Segment.matched => glob_matches (c :: q) (x :: s1) = true
            | Segment.star p1 s2 =>
              glob_matches (c :: q) (x :: s1) = glob_matches ('*' :: p1) s2 ∧
                p1.length < (c :: q).length ∧ '[' ∉ p1 ∧
                ∃ k, s2 = (x :: s1).drop k ∧
                  ∀ t, glob_matches (c :: q) t = true →
                    glob_matches ('*' :: p1) (t.drop k) = true := by
          intro hg hall
          have := ih hq s1
          cases hr : fnmatch_segment 0 q s1 with
          | no_match => rw [hr] at this; dsimp only at this ⊢; rw [hg]; exact this
          | matched => rw [hr] at this; dsimp only at this ⊢; rw [hg]; exact this
          | star p1 s2 =>
            rw [hr] at this
            dsimp only at this ⊢
            obtain ⟨h1, h2, h3, k, h4, h5⟩ := this
            refine ⟨hg.trans h1, ?_, h3, k + 1, ?_, ?_⟩
            · rw [List.length_cons]; omega
            · rw [List.drop_succ_cons]; exact h4
            · intro t ht
              obtain ⟨y, t1, rfl, ht1⟩ := hall t ht
              rw [List.drop_succ_cons]
              exact h5 t1 ht1
        have hall_of : ∀ t, glob_matches (c :: q) t = true →
            ∃ y t1, t = y :: t1 ∧ glob_matches q t1 = true := by
          intro t ht
          cases t with
          | nil => rw [glob_matches_cons_nil c q hstar] at ht; exact absurd ht (by simp)
          | cons y t1 =>
            refine ⟨y, t1, rfl, ?_⟩
            by_cases hqm : c = '?'
            · subst hqm; rw [glob_matches_any] at ht; exact ht
            · by_cases hy : y = c
              · subst hy; rw [glob_matches_same _ _ _ hstar] at ht; exact ht
              · rw [glob_matches_other c y q t1 ⟨hstar, hqm⟩ hy] at ht
                exact absurd ht (by simp)
        by_cases hqm : c = '?'
        · have hseg : fnmatch_segment 0 (c :: q) (x :: s1) = fnmatch_segment 0 q s1 := by
            subst hqm
            conv => lhs; unfold fnmatch_segment
            simp
          rw [hseg]
          exact step (by subst hqm; exact glob_matches_any q x s1) hall_of
        · rw [fnmatch_segment_ordinary c x q s1 ⟨hstar, hqm, hcb⟩]
          by_cases hx : x = c
          · rw [if_pos hx]
            exact step (by subst hx; exact glob_matches_same x q s1 hstar) hall_of
          · rw [if_neg hx]
            exact glob_matches_other c x q s1 ⟨hstar, hqm⟩ hx

/-- What the run of wildcards behind a `*` says of the glob match. -/
theorem skip_wildcards_glob (p : CStr) (hp : '[' ∉ p) (s : CStr) :
    match skip_wildcards p s with
    | none => glob_matches ('*' :: p) s = false
    | some (p1, s1) =>
      glob_matches ('*' :: p) s = glob_matches ('*' :: p1) s1 ∧ p1.length ≤ p.length ∧
        '[' ∉ p1 ∧ ∀ c ∈ p1.head?, c ≠ '*' ∧ c ≠ '?' := by
  induction p generalizing s with
  | nil =>
    rw [skip_wildcards]
    exact ⟨rfl, Nat.le_refl _, hp, by simp⟩
  | cons c q ih =>
    have hq : '[' ∉ q := fun h => hp (List.mem_cons_of_mem _ h)
    by_cases hstar : c = '*'
    · subst hstar
      have hs : skip_wildcards ('*' :: q) s = skip_wildcards q s := by
        conv => lhs; unfold skip_wildcards
        simp
      rw [hs, glob_matches_star_star]
      have := ih hq s
      cases hr : skip_wildcards q s with
      | none => rw [hr] at this; exact this
      | some r =>
        rw [hr] at this
        obtain ⟨p1, s1⟩ := r
        dsimp only at this ⊢
        exact ⟨this.1, Nat.le_succ_of_le this.2.1, this.2.2⟩
    · by_cases hqm : c = '?'
      · subst hqm
        cases s with
        | nil =>
          have hs : skip_wildcards ('?' :: q) [] = none := by
            conv => lhs; unfold skip_wildcards
            simp
          rw [hs]
          dsimp only
          rw [glob_matches_star_nil]
          exact glob_matches_cons_nil '?' q (by decide)
        | cons x s1 =>
          have hs : skip_wildcards ('?' :: q) (x :: s1) = skip_wildcards q s1 := by
            conv => lhs; unfold skip_wildcards
            simp
          rw [hs, glob_matches_star_any]
          have := ih hq s1
          cases hr : skip_wildcards q s1 with
          | none => rw [hr] at this; exact this
          | some r =>
            rw [hr] at this
            obtain ⟨p1, s2⟩ := r
            dsimp only at this ⊢
            exact ⟨this.1, Nat.le_succ_of_le this.2.1, this.2.2⟩
      · rw [skip_wildcards_ordinary c q s ⟨hstar, hqm⟩]
        exact ⟨rfl, Nat.le_refl _, hp, by simp [hstar, hqm]⟩

/-- What the search loop behind a `*` says of the glob match: the first
position that fits is as good as any. -/
theorem first_segment_glob (c : Char) (q : CStr) (hp : '[' ∉ c :: q)
    (hc : c ≠ '*' ∧ c ≠ '?') (s : CStr) :
    match first_segment (c :: q) s with
    | Segment.no_match => glob_matches ('*' :: c :: q) s = false
    | Segment.matched => glob_matches ('*' :: c :: q) s = true
    | Segment.star p1 s1 =>
      glob_matches ('*' :: c :: q) s = glob_matches ('*' :: p1) s1 ∧
        p1.length < (c :: q).length ∧ '[' ∉ p1 := by
  have hcb : c ≠ '[' := fun e => hp (e ▸ List.mem_cons_self _ _)
  induction s with
  | nil =>
    rw [first_segment]
    dsimp only
    rw [glob_matches_star_nil]
    exact glob_matches_cons_nil c q hc.1
  | cons x s ih =>
    rw [first_segment, glob_matches_star_cons]
    by_cases hx : x = c
    · have hhead : (c :: q).head? = some '[' ∨ (c :: q).head? = some x := by
        right; simp [hx]
      rw [if_pos hhead]
      have hseg := fnmatch_segment_glob (c :: q) hp (x :: s)
      cases hr : fnmatch_segment 0 (c :: q) (x :: s) with
      | no_match =>
        rw [hr] at hseg
        dsimp only at hseg ⊢
        rw [hseg, Bool.false_or]
        exact ih
      | matched =>
        rw [hr] at hseg
        dsimp only at hseg ⊢
        rw [hseg, Bool.true_or]
      | star p1 s1 =>
        rw [hr] at hseg
        dsimp only at hseg ⊢
        obtain ⟨h1, h2, h3, k, h4, h5⟩ := hseg
        refine ⟨?_, h2, h3⟩
        rw [h1]
        cases hb : glob_matches ('*' :: c :: q) s with
        | false => rw [Bool.or_false]
        | true =>
          rw [Bool.or_true]
          rw [glob_matches_star] at hb
          obtain ⟨t, ht, hm⟩ := List.any_eq_true.mp hb
          have hts : t <:+ x :: s :=
            ((List.mem_tails _ _).mp ht).trans (List.suffix_cons x s)
          have := drop_suffix_drop t (x :: s) k hts
          rw [← h4] at this
          exact (glob_matches_star_suffix p1 _ s1 this (h5 t hm)).symm
    · have hhead : ¬ ((c :: q).head? = some '[' ∨ (c :: q).head? = some x) := by
        intro h
        rcases h with h | h
        · simp at h; exact hcb h
        · simp at h; exact hx h.symm
      rw [if_neg hhead, glob_matches_other c x q s hc hx, Bool.false_or]
      exact ih

/-- Case `*` of the matcher is the glob match of `*` and what follows it, for
a pattern without brackets. -/
theorem fnmatch_star_loop_glob (fuel : Nat) (p s : CStr) (hp : '[' ∉ p)
    (hf : p.length < fuel) :
    fnmatch_star_loop fuel p s = glob_matches ('*' :: p) s := by
  induction fuel generalizing p s with
  | zero => omega
  | succ fuel ih =>
    rw [fnmatch_star_loop]
    have hskip := skip_wildcards_glob p hp s
    cases hr : skip_wildcards p s with
    | none =>
      rw [hr] at hskip
      dsimp only at hskip ⊢
      exact hskip.symm
    | some r =>
      rw [hr] at hskip
      obtain ⟨p1, s1⟩ := r
      dsimp only at hskip ⊢
      obtain ⟨h1, h2, h3, h4⟩ := hskip
      rw [h1]
      cases p1 with
      | nil =>
        dsimp only
        rw [glob_matches_star]
        exact (List.any_eq_true.mpr
          ⟨[], (List.mem_tails _ _).mpr List.nil_suffix, by rw [glob_matches_nil]; rfl⟩).symm
      | cons c q =>
        dsimp only
        have hc := h4 c (by simp)
        have hfirst := first_segment_glob c q h3 hc s1
        cases hs : first_segment (c :: q) s1 with
        | no_match => rw [hs] at hfirst; dsimp only at hfirst ⊢; exact hfirst.symm
        | matched => rw [hs] at hfirst; dsimp only at hfirst ⊢; exact hfirst.symm
        | star p2 s2 =>
          rw [hs] at hfirst
          dsimp only at hfirst ⊢
          obtain ⟨g1, g2, g3⟩ := hfirst
          rw [g1]
          exact ih p2 s2 g3 (by omega)

/-- On a pattern without `[`, `fnmatch` with `FNM_NOESCAPE` is the glob match
with the wildcards `*` and `?` alone, the backslash standing for itself. -/
theorem fnmatch_eq_glob_matches (pattern string : CStr) (hp : '[' ∉ pattern) :
    fnmatch pattern string = 0 ↔ glob_matches pattern string = true := by
  unfold fnmatch fnmatch_loop
  have hseg := fnmatch_segment_glob pattern hp string
  cases hr : fnmatch_segment 0 pattern string with
  | no_match =>
    rw [hr] at hseg
    dsimp only at hseg ⊢
    simp [hseg, FNM_NOMATCH]
  | matched =>
    rw [hr] at hseg
    dsimp only at hseg ⊢
    simp [hseg]
  | star p1 s1 =>
    rw [hr] at hseg
    dsimp only at hseg ⊢
    obtain ⟨h1, _, h3, _⟩ := hseg
    rw [fnmatch_star_loop_glob _ p1 s1 h3 (Nat.lt_succ_self _), h1]
    cases glob_matches ('*' :: p1) s1 <;> simp [FNM_NOMATCH]

theorem takeWhile_host_path (H path : CStr) (hset : ∀ c ∈ H, c ∈ kDomainCharacterSet)
    (hpath : path = [] ∨ ∃ q, path = '/' :: q) :
    (H ++ path).takeWhile (fun c => c ≠ '/') = H := by
  have hH : ∀ c ∈ H, (fun c => decide (c ≠ '/')) c = true := by
    intro c hc
    have := hset c hc
    have hne : c ≠ '/' := by
      intro e
      subst e
      revert this
      decide
    simpa using hne
  rw [List.takeWhile_append_of_pos hH]
  rcases hpath with rfl | ⟨q, rfl⟩
  · simp
  · simp [List.takeWhile_cons]

/-! ## The policy engine: claims C3 to C8 -/

/-- C4: whatever the policy, a URL whose host part (between the scheme prefix
and the first `/`) holds `@` or `:` is denied by
`policy_plugin_allowed_domain`. -/
theorem policy_domain_denies_userinfo_and_port (p : plugin) (rest : CStr)
    (h : '@' ∈ rest.takeWhile (fun c => c ≠ '/') ∨
      ':' ∈ rest.takeWhile (fun c => c ≠ '/')) :
    policy_plugin_allowed_domain p ("http://".toList ++ rest) = false ∧
      policy_plugin_allowed_domain p ("https://".toList ++ rest) = false := by
  have hbad : host_ok (rest.takeWhile (fun c => c ≠ '/')) = false := by
    cases hb : host_ok (rest.takeWhile (fun c => c ≠ '/')) with
    | false => rfl
    | true =>
      have hset := ((host_ok_iff _).mp hb).1
      rcases h with h | h
      · exact absurd (hset _ h) (by decide)
      · exact absurd (hset _ h) (by decide)
  cases hd : p.allow_domains with
  | none => exact ⟨allowed_domain_none p _ hd, allowed_domain_none p _ hd⟩
  | some doms =>
    have := allowed_domain_of_host p rest doms hd
    simp only [hbad, Bool.false_and] at this
    exact this

/-- The witness of C4: under a policy that allows every host, the URLs of the
runtime test with user information or a port in front of the host are
denied. -/
theorem policy_domain_denies_userinfo_and_port_witness :
    ('@' ∈ "www.google.com@evil.com/".toList.takeWhile (fun c => c ≠ '/') ∨
      ':' ∈ "www.google.com@evil.com/".toList.takeWhile (fun c => c ≠ '/')) ∧
    policy_plugin_allowed_domain { allow_domains := some "*".toList }
      ("https://".toList ++ "www.google.com@evil.com/".toList) = false ∧
    policy_plugin_allowed_domain { allow_domains := some "*".toList }
      ("https://".toList ++ "www.google.com:@evil.com".toList) = false :=
  ⟨by decide,
    (policy_domain_denies_userinfo_and_port { allow_domains := some "*".toList }
      "www.google.com@evil.com/".toList (by decide)).2,
    (policy_domain_denies_userinfo_and_port { allow_domains := some "*".toList }
      "www.google.com:@evil.com".toList (by decide)).2⟩

/-- C6: `policy_plugin_allowed_url` allows a URL only if it starts with
`https://`, or `allow_insecure` is set and it starts with `http://`; so with
`allow_insecure` unset a URL that does not start with `https://` is rejected,
and a URL of any other scheme is rejected under every policy. -/
theorem policy_url_requires_scheme (p : plugin) (url : CStr) :
    (policy_plugin_allowed_url p url = true →
      "https://".toList <+: url ∨
        (p.allow_insecure ≠ none ∧ "http://".toList <+: url)) ∧
    (p.allow_insecure = none → ¬ "https://".toList <+: url →
      policy_plugin_allowed_url p url = false) ∧
    (¬ "https://".toList <+: url → ¬ "http://".toList <+: url →
      policy_plugin_allowed_url p url = false) := by
  have main : policy_plugin_allowed_url p url = true →
      "https://".toList <+: url ∨
        (p.allow_insecure ≠ none ∧ "http://".toList <+: url) := by
    intro h
    unfold policy_plugin_allowed_url at h
    rw [Bool.and_eq_true] at h
    obtain ⟨hp, hd⟩ := h
    obtain ⟨doms, rest, _, hu, _⟩ := (allowed_domain_core p url).mp hd
    rcases hu with rfl | rfl
    · rcases (allowed_protocol_iff p _).mp hp with hi | hs
      · exact Or.inr ⟨hi, ⟨rest, rfl⟩⟩
      · exact Or.inl hs
    · exact Or.inl ⟨rest, rfl⟩
  refine ⟨main, ?_, ?_⟩
  · intro hi hs
    cases hb : policy_plugin_allowed_url p url with
    | false => rfl
    | true =>
      rcases main hb with h | h
      · exact absurd h hs
      · exact absurd hi h.1
  · intro hs hh
    cases hb : policy_plugin_allowed_url p url with
    | false => rfl
    | true =>
      rcases main hb with h | h
      · exact absurd h hs
      · exact absurd h.2 hh

/-- The witness of C6: the allowed URL of the runtime test starts with
`https://`, and `ftp://` and `data://` URLs are rejected. -/
theorem policy_url_requires_scheme_witness :
    (policy_plugin_allowed_url testplugin1 "https://www.google.com/safepage.html".toList = true ∧
      ("https://".toList <+: "https://www.google.com/safepage.html".toList ∨
        (testplugin1.allow_insecure ≠ none ∧
          "http://".toList <+: "https://www.google.com/safepage.html".toList))) ∧
    policy_plugin_allowed_url testplugin1 "http://www.google.com/".toList = false ∧
    policy_plugin_allowed_url
      { allow_insecure := some "1".toList, allow_domains := some "*".toList }
      "ftp://www.google.com/".toList = false :=
  ⟨⟨by decide,
    (policy_url_requires_scheme testplugin1 "https://www.google.com/safepage.html".toList).1
      (by decide)⟩,
    (policy_url_requires_scheme testplugin1 "http://www.google.com/".toList).2.1
      (by decide) (by decide),
    (policy_url_requires_scheme
      { allow_insecure := some "1".toList, allow_domains := some "*".toList }
      "ftp://www.google.com/".toList).2.2 (by decide) (by decide)⟩

/-- C7: `policy_plugin_allowed_protocol` is true exactly when `allow_insecure`
is set or the URL starts with `https://`; with `allow_insecure` unset
`https://x/` is allowed, `ftp://x/` and `http://x/` are denied. -/
theorem policy_plugin_allowed_protocol_iff :
    (∀ (p : plugin) (url : CStr),
      policy_plugin_allowed_protocol p url = true ↔
        (p.allow_insecure ≠ none ∨ "https://".toList <+: url)) ∧
    policy_plugin_allowed_protocol testplugin1 "https://x/".toList = true ∧
    policy_plugin_allowed_protocol testplugin1 "ftp://x/".toList = false ∧
    policy_plugin_allowed_protocol testplugin1 "http://x/".toList = false :=
  ⟨allowed_protocol_iff, by decide, by decide, by decide⟩

/-- The witness of C7: with `allow_insecure` set, to whatever value, an
`ftp://` URL passes the protocol check. -/
theorem policy_plugin_allowed_protocol_iff_witness :
    policy_plugin_allowed_protocol { allow_insecure := some "0".toList }
      "ftp://x/".toList = true :=
  (policy_plugin_allowed_protocol_iff.1 { allow_insecure := some "0".toList }
    "ftp://x/".toList).mpr (Or.inl (by decide))

/-- C8: a policy whose allowed-domain list is absent, empty or made only of
commas denies every URL. -/
theorem policy_domain_default_deny (p : plugin) (url : CStr)
    (h : p.allow_domains = none ∨
      ∃ s, p.allow_domains = some s ∧ ∀ c ∈ s, c = ',') :
    policy_plugin_allowed_domain p url = false := by
  cases hb : policy_plugin_allowed_domain p url with
  | false => rfl
  | true =>
    obtain ⟨doms, rest, hd, _, _, ha⟩ := (allowed_domain_core p url).mp hb
    rcases h with h | ⟨s, hs, hc⟩
    · rw [h] at hd; exact absurd hd (by simp)
    · rw [hs] at hd
      injection hd with hd
      subst hd
      rw [show ",".toList = [','] from rfl, strtok_all_only_delims ',' s hc] at ha
      exact absurd ha (by simp)

/-- The witness of C8: the empty list of the runtime test, a list of commas
and an absent list deny URLs that a wildcard list would allow. -/
theorem policy_domain_default_deny_witness :
    policy_plugin_allowed_domain testplugin2 "https://www.google.com/".toList = false ∧
    policy_plugin_allowed_domain { allow_domains := some ",,,".toList }
      "https://www.google.com/".toList = false ∧
    policy_plugin_allowed_domain { } "http://localhost/".toList = false :=
  ⟨policy_domain_default_deny testplugin2 "https://www.google.com/".toList
      (Or.inr ⟨[], rfl, by simp⟩),
    policy_domain_default_deny { allow_domains := some ",,,".toList }
      "https://www.google.com/".toList (Or.inr ⟨",,,".toList, rfl, by decide⟩),
    policy_domain_default_deny { } "http://localhost/".toList (Or.inl rfl)⟩

/-- C5: under the allowed-domain list `*.google.com,google.com,*.safe.com`, a
URL `https://` + `H` + path (no path, or one that starts with `/`), with `H`
non-empty, of at most 128 characters, all of the domain character set, is
allowed by `policy_plugin_allowed_domain` exactly when `H` is `google.com`,
or ends with `.google.com`, or ends with `.safe.com`. -/
theorem policy_domain_google_safe (p : plugin) (H path : CStr)
    (hp : p.allow_domains = some "*.google.com,google.com,*.safe.com".toList)
    (hne : H ≠ []) (hlen : H.length ≤ 128)
    (hset : ∀ c ∈ H, c ∈ kDomainCharacterSet)
    (hpath : path = [] ∨ ∃ q, path = '/' :: q) :
    policy_plugin_allowed_domain p ("https://".toList ++ (H ++ path)) = true ↔
      (H = "google.com".toList ∨ ".google.com".toList <:+ H ∨
        ".safe.com".toList <:+ H) := by
  rw [(allowed_domain_of_host p (H ++ path) _ hp).2, takeWhile_host_path H path hset hpath,
    (host_ok_iff H).mpr ⟨hset, hne, hlen⟩, Bool.true_and]
  have htok : strtok_all "*.google.com,google.com,*.safe.com".toList ",".toList =
      ['*' :: ".google.com".toList, "google.com".toList, '*' :: ".safe.com".toList] := by
    decide
  rw [htok]
  simp only [List.any_cons, List.any_nil, Bool.or_false, Bool.or_eq_true, decide_eq_true_eq]
  rw [fnmatch_star_literal _ H (by decide), fnmatch_literal _ H (by decide),
    fnmatch_star_literal _ H (by decide)]
  tauto

/-- The witness of C5: `subdomain.google.com` is allowed with and without a
path, `www.google.com.evil.com` is denied. -/
theorem policy_domain_google_safe_witness :
    policy_plugin_allowed_domain testplugin1
      ("https://".toList ++ ("subdomain.google.com".toList ++ "/safepage.html".toList)) = true ∧
    policy_plugin_allowed_domain testplugin1
      ("https://".toList ++ ("subdomain.google.com".toList ++ [])) = true ∧
    ¬ policy_plugin_allowed_domain testplugin1
      ("https://".toList ++ ("www.google.com.evil.com".toList ++ "/".toList)) = true :=
  ⟨(policy_domain_google_safe testplugin1 "subdomain.google.com".toList
      "/safepage.html".toList rfl (by decide) (by decide) (by decide)
      (Or.inr ⟨"safepage.html".toList, rfl⟩)).mpr (by decide),
    (policy_domain_google_safe testplugin1 "subdomain.google.com".toList
      [] rfl (by decide) (by decide) (by decide) (Or.inl rfl)).mpr (by decide),
    fun h => absurd
      ((policy_domain_google_safe testplugin1 "www.google.com.evil.com".toList
        "/".toList rfl (by decide) (by decide) (by decide)
        (Or.inr ⟨[], rfl⟩)).mp h) (by decide)⟩

/-! ## Facts about the search of `netscape_plugin_new` -/

theorem try_field_of_not_matches (reg : registry) (geturl : NPP → Option CStr)
    (ty : CStr) (inst : NPP) (cur : plugin) (field : CStr)
    (h : field_matches field ty = false) :
    try_field reg geturl ty inst cur field = ([], Scan.next) := by
  unfold field_matches at h
  unfold try_field
  cases hc : strchr field ':' with
  | none => rfl
  | some colon =>
    rw [hc] at h
    have : strncasecmp field ty colon ≠ 0 := by simpa using h
    simp [this]

theorem try_field_of_matches (reg : registry) (geturl : NPP → Option CStr)
    (ty : CStr) (inst : NPP) (cur : plugin) (field : CStr)
    (h : field_matches field ty = true) :
    try_field reg geturl ty inst cur field =
      match geturl inst with
      | none => ([Event.geturl inst], Scan.next)
      | some pageurl =>
        if policy_plugin_allowed_url cur pageurl = false then
          match cur.warning with
          | some w =>
            ([Event.geturl inst, Event.display_message inst (some w)], Scan.next)
          | none =>
            match reg.global with
            | none => ([Event.geturl inst], Scan.fault)
            | some g =>
              ([Event.geturl inst, Event.display_message inst g.warning], Scan.next)
        else ([Event.geturl inst], Scan.found) := by
  unfold field_matches at h
  unfold try_field
  cases hc : strchr field ':' with
  | none => rw [hc] at h; exact absurd h (by simp)
  | some colon =>
    rw [hc] at h
    have : strncasecmp field ty colon = 0 := by simpa using h
    simp [this]

theorem try_field_no_newp (reg : registry) (geturl : NPP → Option CStr)
    (ty : CStr) (inst : NPP) (cur : plugin) (field : CStr) :
    ∀ e ∈ (try_field reg geturl ty inst cur field).1, e.is_newp = false := by
  cases hm : field_matches field ty with
  | false => rw [try_field_of_not_matches _ _ _ _ _ _ hm]; simp
  | true =>
    rw [try_field_of_matches _ _ _ _ _ _ hm]
    cases geturl inst with
    | none => simp [Event.is_newp]
    | some url =>
      dsimp only
      by_cases ha : policy_plugin_allowed_url cur url = false
      · rw [if_pos ha]
        cases cur.warning with
        | some w => simp [Event.is_newp]
        | none =>
          cases reg.global with
          | none => simp [Event.is_newp]
          | some g => simp [Event.is_newp]
      · rw [if_neg ha]; simp [Event.is_newp]

theorem scan_fields_no_newp (reg : registry) (geturl : NPP → Option CStr)
    (ty : CStr) (inst : NPP) (cur : plugin) (fields : List CStr) :
    ∀ e ∈ (scan_fields reg geturl ty inst cur fields).1, e.is_newp = false := by
  induction fields with
  | nil => simp [scan_fields]
  | cons f rest ih =>
    have h1 := try_field_no_newp reg geturl ty inst cur f
    rw [scan_fields]
    rcases hr : try_field reg geturl ty inst cur f with ⟨ev, r⟩
    rw [hr] at h1
    cases r with
    | next =>
      simp only
      intro e he
      rcases List.mem_append.mp he with h | h
      · exact h1 e h
      · exact ih e h
    | found => exact h1
    | fault => exact h1

/-- The field loop ends on `found` only at a matching field, with the page
known and allowed by the policy of the plugin. -/
theorem scan_fields_found (reg : registry) (geturl : NPP → Option CStr)
    (ty : CStr) (inst : NPP) (cur : plugin) (fields : List CStr)
    (h : (scan_fields reg geturl ty inst cur fields).2 = Scan.found) :
    (∃ f ∈ fields, field_matches f ty = true) ∧
      ∃ url, geturl inst = some url ∧ policy_plugin_allowed_url cur url = true := by
  induction fields with
  | nil => simp [scan_fields] at h
  | cons f rest ih =>
    rw [scan_fields] at h
    cases hm : field_matches f ty with
    | false =>
      rw [try_field_of_not_matches _ _ _ _ _ _ hm] at h
      obtain ⟨⟨g, hg, hgm⟩, hu⟩ := ih h
      exact ⟨⟨g, List.mem_cons_of_mem _ hg, hgm⟩, hu⟩
    | true =>
      rw [try_field_of_matches _ _ _ _ _ _ hm] at h
      cases hu : geturl inst with
      | none =>
        rw [hu] at h
        obtain ⟨_, url, hu2, _⟩ := ih h
        rw [hu] at hu2
        exact absurd hu2 (by simp)
      | some url =>
        refine ⟨⟨f, List.mem_cons_self _ _, hm⟩, url, rfl, ?_⟩
        cases ha : policy_plugin_allowed_url cur url with
        | true => rfl
        | false =>
          rw [hu] at h
          simp only [ha, if_true] at h
          have hrest := ih
          cases hw : cur.warning with
          | some w =>
            rw [hw] at h
            obtain ⟨_, url2, hu2, ha2⟩ := ih h
            rw [hu] at hu2
            injection hu2 with hu2
            rw [← hu2, ha] at ha2
            exact ha2
          | none =>
            rw [hw] at h
            cases hg : reg.global with
            | none => rw [hg] at h; exact absurd h (by simp)
            | some g =>
              rw [hg] at h
              obtain ⟨_, url2, hu2, ha2⟩ := ih h
              rw [hu] at hu2
              injection hu2 with hu2
              rw [← hu2, ha] at ha2
              exact ha2

/-- The field loop runs to its end when no field matches, or the page is not
known, or the policy denies it and there is a warning text to show. -/
theorem scan_fields_next (reg : registry) (geturl : NPP → Option CStr)
    (ty : CStr) (inst : NPP) (cur : plugin) (fields : List CStr)
    (h : (∀ f ∈ fields, field_matches f ty = false) ∨ geturl inst = none ∨
      (∃ url, geturl inst = some url ∧ policy_plugin_allowed_url cur url = false ∧
        (cur.warning = none → reg.global ≠ none))) :
    (scan_fields reg geturl ty inst cur fields).2 = Scan.next := by
  induction fields with
  | nil => simp [scan_fields]
  | cons f rest ih =>
    have ih2 : (scan_fields reg geturl ty inst cur rest).2 = Scan.next := by
      apply ih
      rcases h with h | h | h
      · exact Or.inl (fun g hg => h g (List.mem_cons_of_mem _ hg))
      · exact Or.inr (Or.inl h)
      · exact Or.inr (Or.inr h)
    rw [scan_fields]
    cases hm : field_matches f ty with
    | false =>
      rw [try_field_of_not_matches _ _ _ _ _ _ hm]
      exact ih2
    | true =>
      rw [try_field_of_matches _ _ _ _ _ _ hm]
      rcases h with h | h | ⟨url, hu, ha, hw⟩
      · have := h f (List.mem_cons_self _ _)
        rw [hm] at this
        exact absurd this (by simp)
      · rw [h]; exact ih2
      · rw [hu]
        simp only [ha, if_true]
        cases hwn : cur.warning with
        | some w => exact ih2
        | none =>
          cases hg : reg.global with
          | none => exact absurd hg (hw hwn)
          | some g => exact ih2

theorem find_plugin_no_newp (reg : registry) (geturl : NPP → Option CStr)
    (ty : CStr) (inst : NPP) (l : List plugin) :
    ∀ e ∈ (find_plugin reg geturl ty inst l).1, e.is_newp = false := by
  induction l with
  | nil => simp [find_plugin]
  | cons cur next ih =>
    rw [find_plugin]
    cases hm : cur.mime_description with
    | none => exact ih
    | some m =>
      have h1 := scan_fields_no_newp reg geturl ty inst cur (strtok_all m ";".toList)
      dsimp only
      rcases hr : scan_fields reg geturl ty inst cur (strtok_all m ";".toList) with ⟨ev, r⟩
      rw [hr] at h1
      cases r with
      | next =>
        intro e he
        rcases List.mem_append.mp he with h | h
        · exact h1 e h
        · exact ih e h
      | found => exact h1
      | fault => exact h1

/-- The plugin at which the search stops is in the list, is a candidate for
the requested type and has a policy that allows the page. -/
theorem find_plugin_found (reg : registry) (geturl : NPP → Option CStr)
    (ty : CStr) (inst : NPP) (l : List plugin) (P : plugin)
    (h : (find_plugin reg geturl ty inst l).2 = Search.found P) :
    P ∈ l ∧ wants_type P ty = true ∧
      ∃ url, geturl inst = some url ∧ policy_plugin_allowed_url P url = true := by
  induction l with
  | nil => simp [find_plugin] at h
  | cons cur next ih =>
    rw [find_plugin] at h
    cases hm : cur.mime_description with
    | none =>
      rw [hm] at h
      obtain ⟨h1, h2⟩ := ih h
      exact ⟨List.mem_cons_of_mem _ h1, h2⟩
    | some m =>
      rw [hm] at h
      dsimp only at h
      have hf := scan_fields_found reg geturl ty inst cur (strtok_all m ";".toList)
      rcases hr : scan_fields reg geturl ty inst cur (strtok_all m ";".toList) with ⟨ev, r⟩
      rw [hr] at h hf
      cases r with
      | next =>
        obtain ⟨h1, h2⟩ := ih h
        exact ⟨List.mem_cons_of_mem _ h1, h2⟩
      | fault => simp at h
      | found =>
        simp only [Search.found.injEq] at h
        subst h
        obtain ⟨⟨f, hfm, hfmt⟩, hu⟩ := hf rfl
        refine ⟨List.mem_cons_self _ _, ?_, hu⟩
        unfold wants_type
        rw [hm]
        exact List.any_eq_true.mpr ⟨f, hfm, hfmt⟩

/-- The search passes over a plugin that is not eligible, provided a warning
text exists for it when it passes the type test. -/
theorem scan_fields_of_not_eligible (reg : registry) (geturl : NPP → Option CStr)
    (ty : CStr) (inst : NPP) (cur : plugin) (m : CStr)
    (hm : cur.mime_description = some m)
    (he : eligible geturl inst ty cur = false)
    (hw : wants_type cur ty = true → cur.warning = none → reg.global ≠ none) :
    (scan_fields reg geturl ty inst cur (strtok_all m ";".toList)).2 = Scan.next := by
  apply scan_fields_next
  unfold eligible wants_type at he
  rw [hm] at he
  dsimp only at he
  cases hany : (strtok_all m ";".toList).any (fun field => field_matches field ty) with
  | false =>
    left
    intro f hf
    cases hfm : field_matches f ty with
    | false => rfl
    | true =>
      have : (strtok_all m ";".toList).any (fun field => field_matches field ty) = true :=
        List.any_eq_true.mpr ⟨f, hf, hfm⟩
      rw [hany] at this
      exact absurd this (by simp)
  | true =>
    right
    have hwt : wants_type cur ty = true := by
      unfold wants_type
      rw [hm]
      exact hany
    rw [hany] at he
    cases hu : geturl inst with
    | none => exact Or.inl rfl
    | some url =>
      rw [hu] at he
      exact Or.inr ⟨url, rfl, by simpa using he, hw hwt⟩

/-- The search runs off the end of a list without an eligible plugin. -/
theorem find_plugin_exhausted (reg : registry) (geturl : NPP → Option CStr)
    (ty : CStr) (inst : NPP) (l : List plugin)
    (hl : ∀ Q ∈ l, eligible geturl inst ty Q = false)
    (hwarn : ∀ Q ∈ l, Q.warning = none → reg.global ≠ none) :
    (find_plugin reg geturl ty inst l).2 = Search.exhausted := by
  induction l with
  | nil => rfl
  | cons Q l ih =>
    have ih2 := ih (fun R hR => hl R (List.mem_cons_of_mem _ hR))
      (fun R hR => hwarn R (List.mem_cons_of_mem _ hR))
    rw [find_plugin]
    cases hm : Q.mime_description with
    | none => exact ih2
    | some m =>
      have := scan_fields_of_not_eligible reg geturl ty inst Q m hm
        (hl Q (List.mem_cons_self _ _)) (fun _ => hwarn Q (List.mem_cons_self _ _))
      dsimp only
      rcases hr : scan_fields reg geturl ty inst Q (strtok_all m ";".toList) with ⟨ev, r⟩
      rw [hr] at this
      simp only at this
      subst this
      exact ih2

theorem strncasecmp_congr (f t1 t2 : CStr) (n : Nat)
    (h : t1.map Char.toLower = t2.map Char.toLower) :
    strncasecmp f t1 n = strncasecmp f t2 n := by
  induction n generalizing f t1 t2 with
  | zero => simp [strncasecmp]
  | succ n ih =>
    cases t1 with
    | nil =>
      cases t2 with
      | nil => rfl
      | cons b bs => simp at h
    | cons a as =>
      cases t2 with
      | nil => simp at h
      | cons b bs =>
        simp only [List.map_cons, List.cons.injEq] at h
        cases f with
        | nil => simp [strncasecmp]
        | cons x xs =>
          simp only [strncasecmp, h.1]
          rw [ih xs as bs h.2]

theorem field_matches_congr (f t1 t2 : CStr)
    (h : t1.map Char.toLower = t2.map Char.toLower) :
    field_matches f t1 = field_matches f t2 := by
  unfold field_matches
  cases strchr f ':' with
  | none => rfl
  | some n => simp only [strncasecmp_congr f t1 t2 n h]

theorem try_field_congr (reg : registry) (geturl : NPP → Option CStr)
    (t1 t2 : CStr) (inst : NPP) (cur : plugin) (f : CStr)
    (h : t1.map Char.toLower = t2.map Char.toLower) :
    try_field reg geturl t1 inst cur f = try_field reg geturl t2 inst cur f := by
  have hm := field_matches_congr f t1 t2 h
  cases h1 : field_matches f t1 with
  | false =>
    rw [try_field_of_not_matches _ _ _ _ _ _ h1,
      try_field_of_not_matches _ _ _ _ _ _ (hm ▸ h1)]
  | true =>
    rw [try_field_of_matches _ _ _ _ _ _ h1,
      try_field_of_matches _ _ _ _ _ _ (hm ▸ h1)]

theorem scan_fields_congr (reg : registry) (geturl : NPP → Option CStr)
    (t1 t2 : CStr) (inst : NPP) (cur : plugin) (fields : List CStr)
    (h : t1.map Char.toLower = t2.map Char.toLower) :
    scan_fields reg geturl t1 inst cur fields =
      scan_fields reg geturl t2 inst cur fields := by
  induction fields with
  | nil => rfl
  | cons f rest ih =>
    rw [scan_fields, scan_fields, try_field_congr reg geturl t1 t2 inst cur f h, ih]

/-- The search itself ignores the letter case of the requested type: two
types that differ in case only end it in the same way. -/
theorem find_plugin_congr (reg : registry) (geturl : NPP → Option CStr)
    (t1 t2 : CStr) (inst : NPP) (l : List plugin)
    (h : t1.map Char.toLower = t2.map Char.toLower) :
    find_plugin reg geturl t1 inst l = find_plugin reg geturl t2 inst l := by
  induction l with
  | nil => rfl
  | cons cur next ih =>
    rw [find_plugin, find_plugin, ih]
    cases cur.mime_description with
    | none => rfl
    | some m =>
      dsimp only
      rw [scan_fields_congr reg geturl t1 t2 inst cur _ h]

/-! ## Dispatch: claims C1, C2, C9 and C10 -/

/-- A call of a plugin's `newp` in the trace of `netscape_plugin_new` is the
last step of a search that stopped at that plugin, after the instance was
mapped to it. -/
theorem netscape_plugin_new_newp (reg : registry) (geturl : NPP → Option CStr)
    (table : List instance_entry) (pluginType : CStr) (inst : NPP)
    (P : plugin) (ty : CStr) (i : NPP)
    (h : Event.newp P ty i ∈ (netscape_plugin_new reg geturl table pluginType inst).trace) :
    (find_plugin reg geturl pluginType inst reg.plugins).2 = Search.found P ∧
      ty = pluginType ∧ i = inst ∧
      netscape_instance_map table inst (some P) =
        (true, (netscape_plugin_new reg geturl table pluginType inst).table) := by
  have hno := find_plugin_no_newp reg geturl pluginType inst reg.plugins
  have hnot : ∀ ev : List Event, (∀ e ∈ ev, e.is_newp = false) →
      Event.newp P ty i ∈ ev → False := by
    intro ev hev hmem
    have := hev _ hmem
    simp [Event.is_newp] at this
  unfold netscape_plugin_new at h ⊢
  by_cases h1 : strspn pluginType kMimeCharacterSet ≠ strlen pluginType
  · rw [if_pos h1] at h; simp at h
  · rw [if_neg h1] at h ⊢
    by_cases h2 : strlen pluginType > kMaxMimeLength
    · rw [if_pos h2] at h; simp at h
    · rw [if_neg h2] at h ⊢
      rcases hr : find_plugin reg geturl pluginType inst reg.plugins with ⟨ev, r⟩
      rw [hr] at h hno
      cases r with
      | fault => exact absurd h (fun hh => hnot ev hno hh)
      | exhausted => exact absurd h (fun hh => hnot ev hno hh)
      | found cur =>
        dsimp only at h ⊢
        rcases hmap : netscape_instance_map table inst (some cur) with ⟨ok, table1⟩
        rw [hmap] at h
        cases ok with
        | false => exact absurd h (fun hh => hnot ev hno hh)
        | true =>
          dsimp only at h ⊢
          cases hpf : cur.plugin_funcs with
          | none => rw [hpf] at h; exact absurd h (fun hh => hnot ev hno hh)
          | some funcs =>
            rw [hpf] at h
            dsimp only at h ⊢
            cases hn : funcs.newp with
            | none => rw [hn] at h; exact absurd h (fun hh => hnot ev hno hh)
            | some handler =>
              rw [hn] at h
              dsimp only at h ⊢
              rcases List.mem_append.mp h with hh | hh
              · exact absurd hh (fun hh => hnot ev hno hh)
              · simp only [List.mem_singleton, Event.newp.injEq] at hh
                obtain ⟨rfl, rfl, rfl⟩ := hh
                exact ⟨rfl, rfl, rfl, hmap⟩

theorem strchr_eq (f : CStr) (c : Char) :
    strchr f c =
      if c ∈ f then some (f.takeWhile (fun x => x ≠ c)).length else none := by
  induction f with
  | nil => simp [strchr]
  | cons a f ih =>
    rw [strchr]
    by_cases h : a = c
    · subst h
      simp [List.takeWhile_cons]
    · have hc : ¬ c = a := fun e => h e.symm
      rw [if_neg h, ih]
      by_cases hm : c ∈ f
      · simp [hm, List.takeWhile_cons, h]
      · simp [hm, hc]

theorem strncasecmp_eq_zero_iff (n : Nat) (f ty : CStr) (hn : n ≤ f.length) :
    strncasecmp f ty n = 0 ↔
      (f.take n).map Char.toLower <+: ty.map Char.toLower := by
  induction n generalizing f ty with
  | zero => simp [strncasecmp]
  | succ n ih =>
    cases f with
    | nil => simp at hn
    | cons a as =>
      have hn2 : n ≤ as.length := by simpa using hn
      cases ty with
      | nil => simp [strncasecmp]
      | cons b bs =>
        by_cases hab : a.toLower = b.toLower
        · simp only [strncasecmp, hab, if_true, List.take_succ_cons, List.map_cons]
          rw [ih as bs hn2]
          constructor
          · rintro ⟨t, ht⟩
            exact ⟨t, by rw [List.cons_append, ht]⟩
          · rintro ⟨t, ht⟩
            simp only [List.cons_append, List.cons.injEq, true_and] at ht
            exact ⟨t, ht⟩
        · have : ¬ (a.toLower :: List.map Char.toLower (List.take n as)) <+:
              (b.toLower :: List.map Char.toLower bs) := by
            rintro ⟨t, ht⟩
            simp only [List.cons_append, List.cons.injEq] at ht
            exact hab ht.1
          by_cases hlt : a.toLower < b.toLower <;>
            simp [strncasecmp, hab, hlt, List.take_succ_cons, this]

/-- What the two tests of the field loop come to: the field has a `:` and
its content type is, letter case ignored, the beginning of the requested
type. -/
theorem field_matches_iff (f ty : CStr) :
    field_matches f ty = true ↔
      (':' ∈ f ∧ (entry_type f).map Char.toLower <+: ty.map Char.toLower) := by
  unfold field_matches entry_type
  rw [strchr_eq]
  by_cases hm : ':' ∈ f
  · rw [if_pos hm]
    have hle : (f.takeWhile (fun x => x ≠ ':')).length ≤ f.length :=
      (List.takeWhile_sublist _).length_le
    have := strncasecmp_eq_zero_iff _ f ty hle
    rw [take_length_takeWhile] at this
    simp only [decide_eq_true_eq, this, hm, true_and]
  · rw [if_neg hm]
    simp [hm]

/-- The plugin to whose `newp` a request goes has, among the `;`-separated
entries of its description, one with a `:` whose content type is, letter case
ignored, the beginning of the requested type. -/
theorem netscape_plugin_new_selected_entry (reg : registry)
    (geturl : NPP → Option CStr) (table : List instance_entry)
    (pluginType : CStr) (inst : NPP) (P : plugin) (ty : CStr) (i : NPP)
    (h : Event.newp P ty i ∈ (netscape_plugin_new reg geturl table pluginType inst).trace) :
    ∃ description entry, P.mime_description = some description ∧
      entry ∈ description.splitOn ';' ∧ ':' ∈ entry ∧
      (entry_type entry).map Char.toLower <+: pluginType.map Char.toLower := by
  obtain ⟨hf, _, _, _⟩ := netscape_plugin_new_newp reg geturl table pluginType inst P ty i h
  obtain ⟨_, hw, _⟩ := find_plugin_found reg geturl pluginType inst reg.plugins P hf
  unfold wants_type at hw
  cases hm : P.mime_description with
  | none => rw [hm] at hw; simp at hw
  | some m =>
    rw [hm] at hw
    obtain ⟨f, hfm, hfmt⟩ := List.any_eq_true.mp hw
    obtain ⟨hc, hp⟩ := (field_matches_iff f pluginType).mp hfmt
    exact ⟨m, f, rfl, ((mem_strtok_all ';' m f).mp hfm).1, hc, hp⟩

/-- What the code guarantees of a call of `newp`: whenever
`netscape_plugin_new` hands a request on to the `newp` of a plugin `P`, `P` is
a registered plugin to which the instance handle was just bound, and
`policy_plugin_allowed_url(P, page URL)` holds; and when every plugin that
passes the type test of the field loop fails its policy check, no `newp` is
called at all. -/
theorem netscape_plugin_new_newp_allowed (reg : registry) (geturl : NPP → Option CStr)
    (table : List instance_entry) (pluginType : CStr) (inst : NPP) :
    (∀ P ty i,
      Event.newp P ty i ∈ (netscape_plugin_new reg geturl table pluginType inst).trace →
        P ∈ reg.plugins ∧ i = inst ∧
        netscape_instance_map table inst (some P) =
          (true, (netscape_plugin_new reg geturl table pluginType inst).table) ∧
        ∃ url, geturl inst = some url ∧ policy_plugin_allowed_url P url = true) ∧
    ((∀ P ∈ reg.plugins, wants_type P pluginType = true →
        ∀ url, geturl inst = some url → policy_plugin_allowed_url P url = false) →
      ∀ e ∈ (netscape_plugin_new reg geturl table pluginType inst).trace,
        e.is_newp = false) := by
  constructor
  · intro P ty i h
    obtain ⟨hf, _, hi, hmap⟩ := netscape_plugin_new_newp reg geturl table pluginType inst P ty i h
    obtain ⟨hmem, _, hu⟩ := find_plugin_found reg geturl pluginType inst reg.plugins P hf
    exact ⟨hmem, hi, hmap, hu⟩
  · intro hall e he
    cases e with
    | geturl _ => rfl
    | display_message _ _ => rfl
    | newp P ty i =>
      exfalso
      obtain ⟨hf, _, _, _⟩ := netscape_plugin_new_newp reg geturl table pluginType inst P ty i he
      obtain ⟨hmem, hw, url, hu, ha⟩ :=
        find_plugin_found reg geturl pluginType inst reg.plugins P hf
      rw [hall P hmem hw url hu] at ha
      exact absurd ha (by simp)

/-- C1 fails on the code: `short_plugin`, registered before `intranet_plugin`,
declares the content type `application/p` and is allowed on Google pages;
`intranet_plugin` declares `application/pdf` and is not. For the request of
`application/pdf` from a Google page, which passes the checks on the type, no
registered plugin both declares the requested type and has a policy that
allows the page, yet `netscape_plugin_new` binds the handle to `short_plugin`
and calls its `newp`: the type comparison runs over the length of the entry's
type only. -/
theorem netscape_plugin_new_calls_shorter_type :
    ("application/pdf".toList.all (fun c => kMimeCharacterSet.contains c) = true ∧
      "application/pdf".toList.length ≤ kMaxMimeLength) ∧
    (declares short_plugin "application/pdf".toList = false ∧
      declares intranet_plugin "application/pdf".toList = true ∧
      policy_plugin_allowed_url intranet_plugin "https://www.google.com/".toList = false) ∧
    [short_plugin, intranet_plugin].all (fun P =>
      !(declares P "application/pdf".toList &&
        policy_plugin_allowed_url P "https://www.google.com/".toList)) = true ∧
    netscape_plugin_new { plugins := [short_plugin, intranet_plugin] } google_page []
        "application/pdf".toList 7 =
      ⟨some NPERR_NO_ERROR, [⟨7, some short_plugin⟩],
        [Event.geturl 7, Event.newp short_plugin "application/pdf".toList 7]⟩ := by
  refine ⟨by decide, ⟨by decide, by decide, by decide⟩, by decide, by decide⟩

theorem netscape_instance_map_full (table : List instance_entry) (inst : NPP)
    (p : Option plugin) (h : table.length ≥ kMaxInstances) :
    netscape_instance_map table inst p = (false, table) := by
  unfold netscape_instance_map
  rw [if_pos h]

theorem netscape_instance_map_room (table : List instance_entry) (inst : NPP)
    (p : Option plugin) (h : table.length < kMaxInstances) :
    netscape_instance_map table inst p = (true, qsort (table ++ [⟨inst, p⟩])) := by
  unfold netscape_instance_map
  rw [if_neg (by omega)]

theorem mem_qsort (e : instance_entry) (table : List instance_entry) :
    e ∈ qsort table ↔ e ∈ table := by
  unfold qsort
  exact (List.perm_insertionSort _ table).mem_iff

/-- The outcome of `netscape_plugin_new` once the search result is known, for
a requested type that passes the two checks on it. -/
theorem netscape_plugin_new_of_valid (reg : registry) (geturl : NPP → Option CStr)
    (table : List instance_entry) (pluginType : CStr) (inst : NPP)
    (hvalid : ∀ c ∈ pluginType, c ∈ kMimeCharacterSet)
    (hlen : pluginType.length ≤ 128) :
    netscape_plugin_new reg geturl table pluginType inst =
      match find_plugin reg geturl pluginType inst reg.plugins with
      | (ev, Search.fault) => ⟨none, table, ev⟩
      | (ev, Search.exhausted) => ⟨some NPERR_INVALID_PARAM, table, ev⟩
      | (ev, Search.found current) =>
        match netscape_instance_map table inst (some current) with
        | (false, _) => ⟨some NPERR_GENERIC_ERROR, table, ev⟩
        | (true, table1) =>
          match current.plugin_funcs with
          | none => ⟨none, table1, ev⟩
          | some funcs =>
            match funcs.newp with
            | none => ⟨none, table1, ev⟩
            | some handler =>
              ⟨some handler, table1, ev ++ [Event.newp current pluginType inst]⟩ := by
  have h1 : ¬ strspn pluginType kMimeCharacterSet ≠ strlen pluginType :=
    fun h => h ((strspn_eq_strlen_iff _ _).mpr hvalid)
  have h2 : ¬ strlen pluginType > kMaxMimeLength := by
    simp [strlen, kMaxMimeLength]; exact hlen
  unfold netscape_plugin_new
  rw [if_neg h1, if_neg h2]

/-- C9 fails on the code: the requested type `application/pdfx` passes the
checks on it and `netscape_plugin_new` selects `pdf_plugin`, binds the handle
to it and calls its `newp`, although the one entry of its description has the
content type `application/pdf`, which is not the requested type: the
comparison runs over the length of the entry's type only. -/
theorem netscape_plugin_new_matches_prefix :
    ("application/pdfx".toList.all (fun c => kMimeCharacterSet.contains c) = true ∧
      "application/pdfx".toList.length ≤ kMaxMimeLength) ∧
    netscape_plugin_new { plugins := [pdf_plugin] } google_page []
        "application/pdfx".toList 7 =
      ⟨some NPERR_NO_ERROR, [⟨7, some pdf_plugin⟩],
        [Event.geturl 7, Event.newp pdf_plugin "application/pdfx".toList 7]⟩ ∧
    pdf_plugin.mime_description = some "application/pdf:pdf:PDF".toList ∧
    ("application/pdf:pdf:PDF".toList.splitOn ';').all
      (fun entry => !eq_ignoring_case (entry_type entry) "application/pdfx".toList) = true := by
  refine ⟨by decide, by decide, rfl, ?_⟩
  decide

/-- C10 fails on the code: `application/pdf` and `APPLICATION/PDF` differ in
letter case only, yet under the same registry and page the first is handed to
`pdf_plugin` and the second is refused with `NPERR_INVALID_PARAM`: the
character set of the type check has every capital letter but `N`. -/
theorem netscape_plugin_new_case_sensitive :
    eq_ignoring_case "application/pdf".toList "APPLICATION/PDF".toList = true ∧
    netscape_plugin_new { plugins := [pdf_plugin] } google_page []
        "application/pdf".toList 7 =
      ⟨some NPERR_NO_ERROR, [⟨7, some pdf_plugin⟩],
        [Event.geturl 7, Event.newp pdf_plugin "application/pdf".toList 7]⟩ ∧
    netscape_plugin_new { plugins := [pdf_plugin] } google_page []
        "APPLICATION/PDF".toList 7 =
      ⟨some NPERR_INVALID_PARAM, [], []⟩ ∧
    kMimeCharacterSet.contains 'N' = false ∧
    "ABCDEFGHIJKLMOPQRSTUVWXYZ".toList.all (fun c => kMimeCharacterSet.contains c) = true ∧
    "abcdefghijklmnopqrstuvwxyz".toList.all (fun c => kMimeCharacterSet.contains c) = true := by
  refine ⟨by decide, by decide, by decide, by decide, by decide, by decide⟩

/-! ## Facts about the instance table -/

theorem compare_nat (a b : Nat) :
    ((if a < b then (-1 : Int) else if a > b then 1 else 0) < 0 ↔ a < b) ∧
    ((if a < b then (-1 : Int) else if a > b then 1 else 0) > 0 ↔ b < a) ∧
    ((if a < b then (-1 : Int) else if a > b then 1 else 0) ≤ 0 ↔ a ≤ b) := by
  split_ifs with h1 h2
  · refine ⟨?_, ?_, ?_⟩ <;> constructor <;> intro h <;> omega
  · refine ⟨?_, ?_, ?_⟩ <;> constructor <;> intro h <;> omega
  · refine ⟨?_, ?_, ?_⟩ <;> constructor <;> intro h <;> omega

theorem instance_compare_neg (x y : instance_entry) :
    instance_compare x y < 0 ↔ x.npp < y.npp :=
  (compare_nat x.npp y.npp).1

theorem instance_compare_pos (x y : instance_entry) :
    instance_compare x y > 0 ↔ y.npp < x.npp :=
  (compare_nat x.npp y.npp).2.1

theorem instance_compare_le (x y : instance_entry) :
    instance_compare x y ≤ 0 ↔ x.npp ≤ y.npp :=
  (compare_nat x.npp y.npp).2.2

theorem nat_eq_of_not_lt (a b : Nat) (h1 : ¬ a < b) (h2 : ¬ b < a) : b = a := by
  omega

theorem nat_ne_of_lt_le (a b c : Nat) (h1 : a < b) (h2 : b ≤ c) : c ≠ a := by
  omega

theorem nat_ne_of_le_lt (a b c : Nat) (h1 : c ≤ b) (h2 : b < a) : c ≠ a := by
  omega

/-- The rows are in non-decreasing order of their handles. -/
theorem sorted_qsort (table : List instance_entry) :
    (qsort table).Sorted (fun x y => instance_compare x y ≤ 0) := by
  unfold qsort
  haveI : IsTotal instance_entry (fun x y => instance_compare x y ≤ 0) :=
    ⟨fun x y => by
      simp only [instance_compare_le]
      exact Nat.le_total _ _⟩
  haveI : IsTrans instance_entry (fun x y => instance_compare x y ≤ 0) :=
    ⟨fun x y z hxy hyz => by
      simp only [instance_compare_le] at *
      exact Nat.le_trans hxy hyz⟩
  exact List.sorted_insertionSort _ _

theorem perm_qsort (table : List instance_entry) : (qsort table).Perm table := by
  unfold qsort
  exact List.perm_insertionSort _ _

theorem length_qsort (table : List instance_entry) : (qsort table).length = table.length :=
  (perm_qsort table).length_eq

/-- A sorted table, by positions: a row further on has a handle at least as
large. -/
theorem sorted_getElem (table : List instance_entry)
    (hs : table.Sorted (fun x y => instance_compare x y ≤ 0))
    (i j : Nat) (ri rj : instance_entry) (hij : i ≤ j)
    (hi : table[i]? = some ri) (hj : table[j]? = some rj) : ri.npp ≤ rj.npp := by
  rcases Nat.eq_or_lt_of_le hij with rfl | hlt
  · rw [hi] at hj
    injection hj with hj
    rw [hj]
  · obtain ⟨hi1, hi2⟩ := List.getElem?_eq_some.mp hi
    obtain ⟨hj1, hj2⟩ := List.getElem?_eq_some.mp hj
    have := (List.pairwise_iff_getElem.mp hs) i j hi1 hj1 hlt
    rw [hi2, hj2] at this
    exact (instance_compare_le _ _).mp this

/-- A position that the search gives holds a row with the handle of the
key. -/
theorem bsearch_loop_some (key : instance_entry) (table : List instance_entry)
    (fuel l u i : Nat) (h : bsearch_loop key table fuel l u = some i) :
    ∃ row, table[i]? = some row ∧ row.npp = key.npp := by
  induction fuel generalizing l u with
  | zero => simp [bsearch_loop] at h
  | succ fuel ih =>
    rw [bsearch_loop] at h
    by_cases hlu : l < u
    · rw [if_pos hlu] at h
      cases hrow : table[(l + u) / 2]? with
      | none => rw [hrow] at h; simp at h
      | some row =>
        rw [hrow] at h
        dsimp only at h
        by_cases h1 : instance_compare key row < 0
        · rw [if_pos h1] at h
          exact ih _ _ h
        · rw [if_neg h1] at h
          by_cases h2 : instance_compare key row > 0
          · rw [if_pos h2] at h
            exact ih _ _ h
          · rw [if_neg h2] at h
            injection h with h
            subst h
            refine ⟨row, hrow, ?_⟩
            exact nat_eq_of_not_lt _ _ (mt (instance_compare_neg key row).mpr h1)
              (mt (instance_compare_pos key row).mpr h2)
    · rw [if_neg hlu] at h
      simp at h

/-- On a sorted table a search that finds nothing has passed over no row
with the handle of the key. -/
theorem bsearch_loop_none (key : instance_entry) (table : List instance_entry)
    (hs : table.Sorted (fun x y => instance_compare x y ≤ 0))
    (fuel l u : Nat) (hu : u ≤ table.length) (hf : u - l ≤ fuel)
    (h : bsearch_loop key table fuel l u = none) :
    ∀ i row, l ≤ i → i < u → table[i]? = some row → row.npp ≠ key.npp := by
  induction fuel generalizing l u with
  | zero =>
    intro i row h1 h2
    omega
  | succ fuel ih =>
    intro i row hli hiu hrow
    rw [bsearch_loop] at h
    have hlu : l < u := by omega
    rw [if_pos hlu] at h
    have hmid : (l + u) / 2 < table.length := by omega
    have hm1 : l ≤ (l + u) / 2 := by omega
    have hm2 : (l + u) / 2 < u := by omega
    have hget : table[(l + u) / 2]? = some table[(l + u) / 2] :=
      List.getElem?_eq_getElem hmid
    rw [hget] at h
    dsimp only at h
    by_cases h1 : instance_compare key table[(l + u) / 2] < 0
    · rw [if_pos h1] at h
      have hk := (instance_compare_neg _ _).mp h1
      by_cases hi : i < (l + u) / 2
      · exact ih l _ (by omega) (by omega) h i row hli hi hrow
      · exact nat_ne_of_lt_le _ _ _ hk
          (sorted_getElem table hs _ i _ row (by omega) hget hrow)
    · rw [if_neg h1] at h
      by_cases h2 : instance_compare key table[(l + u) / 2] > 0
      · rw [if_pos h2] at h
        have hk := (instance_compare_pos _ _).mp h2
        by_cases hi : (l + u) / 2 < i
        · exact ih _ u hu (by omega) h i row (by omega) hiu hrow
        · exact nat_ne_of_le_lt _ _ _
            (sorted_getElem table hs i _ row _ (by omega) hrow hget) hk
      · rw [if_neg h2] at h
        simp at h

theorem bsearch_some (key : instance_entry) (table : List instance_entry) (i : Nat)
    (h : bsearch key table = some i) :
    ∃ row, table[i]? = some row ∧ row.npp = key.npp :=
  bsearch_loop_some key table _ _ _ i h

theorem bsearch_none (key : instance_entry) (table : List instance_entry)
    (hs : table.Sorted (fun x y => instance_compare x y ≤ 0))
    (h : bsearch key table = none) :
    ∀ row ∈ table, row.npp ≠ key.npp := by
  intro row hrow
  obtain ⟨i, hi, hget⟩ := List.getElem_of_mem hrow
  exact bsearch_loop_none key table hs _ 0 table.length (Nat.le_refl _) (by omega) h i row
    (Nat.zero_le _) hi (by rw [List.getElem?_eq_getElem hi, hget])

theorem sorted_eraseIdx (table : List instance_entry) (i : Nat)
    (hs : table.Sorted (fun x y => instance_compare x y ≤ 0)) :
    (table.eraseIdx i).Sorted (fun x y => instance_compare x y ≤ 0) :=
  List.Pairwise.sublist (List.eraseIdx_sublist table i) hs

theorem netscape_instance_destroy_length_le (table : List instance_entry) (inst : NPP) :
    (netscape_instance_destroy table inst).2.length ≤ table.length := by
  unfold netscape_instance_destroy
  cases bsearch ⟨inst, none⟩ table with
  | none => exact Nat.le_refl _
  | some i => exact List.length_eraseIdx_le table i

theorem reachable_sorted_destroy (table : List instance_entry) (inst : NPP)
    (hs : table.Sorted (fun x y => instance_compare x y ≤ 0)) :
    (netscape_instance_destroy table inst).2.Sorted (fun x y => instance_compare x y ≤ 0) := by
  unfold netscape_instance_destroy
  cases bsearch ⟨inst, none⟩ table with
  | none => exact hs
  | some i => exact sorted_eraseIdx table i hs

/-- Every reachable table is sorted by handle and holds at most
`kMaxInstances` rows. -/
theorem reachable_sorted (table : List instance_entry) (h : Reachable table) :
    table.Sorted (fun x y => instance_compare x y ≤ 0) ∧ table.length ≤ kMaxInstances := by
  induction h with
  | empty => exact ⟨List.sorted_nil, Nat.zero_le _⟩
  | map t inst p _ ih =>
    unfold netscape_instance_map
    by_cases hfull : t.length ≥ kMaxInstances
    · rw [if_pos hfull]; exact ih
    · rw [if_neg hfull]
      refine ⟨sorted_qsort _, ?_⟩
      rw [length_qsort, List.length_append, List.length_singleton]
      omega
  | destroy t inst _ ih =>
    refine ⟨?_, Nat.le_trans (netscape_instance_destroy_length_le t inst) ih.2⟩
    unfold netscape_instance_destroy
    cases bsearch ⟨inst, none⟩ t with
    | none => exact ih.1
    | some i => exact sorted_eraseIdx t i ih.1

theorem is_bound_iff (table : List instance_entry) (inst : NPP) :
    is_bound table inst = true ↔ ∃ row ∈ table, row.npp = inst := by
  unfold is_bound
  simp

theorem is_bound_false_iff (table : List instance_entry) (inst : NPP) :
    is_bound table inst = false ↔ ∀ row ∈ table, row.npp ≠ inst := by
  unfold is_bound
  simp

theorem rows_of_eq_nil_iff (table : List instance_entry) (inst : NPP) :
    rows_of table inst = [] ↔ is_bound table inst = false := by
  rw [is_bound_false_iff]
  unfold rows_of
  simp [List.filter_eq_nil_iff]

theorem mem_rows_of (table : List instance_entry) (inst : NPP) (row : instance_entry) :
    row ∈ rows_of table inst ↔ row ∈ table ∧ row.npp = inst := by
  unfold rows_of
  simp

/-- The search finds nothing for a handle without a row. -/
theorem bsearch_of_unbound (table : List instance_entry) (inst : NPP)
    (p : Option plugin) (hb : is_bound table inst = false) :
    bsearch ⟨inst, p⟩ table = none := by
  cases h : bsearch ⟨inst, p⟩ table with
  | none => rfl
  | some i =>
    obtain ⟨row, hget, hnpp⟩ := bsearch_some _ _ _ h
    have hmem : row ∈ table := List.getElem?_mem hget
    exact absurd hnpp ((is_bound_false_iff _ _).mp hb row hmem)

/-- On a sorted table the search finds a row for a handle that has one. -/
theorem bsearch_of_bound (table : List instance_entry) (inst : NPP)
    (p : Option plugin) (hs : table.Sorted (fun x y => instance_compare x y ≤ 0))
    (hb : is_bound table inst = true) :
    ∃ i row, bsearch ⟨inst, p⟩ table = some i ∧ table[i]? = some row ∧ row.npp = inst := by
  cases h : bsearch ⟨inst, p⟩ table with
  | none =>
    obtain ⟨row, hmem, hnpp⟩ := (is_bound_iff _ _).mp hb
    exact absurd hnpp (bsearch_none _ _ hs h row hmem)
  | some i =>
    obtain ⟨row, hget, hnpp⟩ := bsearch_some _ _ _ h
    exact ⟨i, row, rfl, hget, hnpp⟩

theorem resolve_of_unbound (table : List instance_entry) (inst : NPP)
    (hb : is_bound table inst = false) :
    netscape_instance_resolve table inst = (false, none) := by
  unfold netscape_instance_resolve
  rw [bsearch_of_unbound table inst none hb]
  rfl

/-- On a sorted table a handle with one row resolves to the owner in that
row. -/
theorem resolve_of_single (table : List instance_entry) (inst : NPP)
    (row : instance_entry)
    (hs : table.Sorted (fun x y => instance_compare x y ≤ 0))
    (hr : rows_of table inst = [row]) :
    netscape_instance_resolve table inst = (row.plugin.isSome, row.plugin) := by
  have hrow : row ∈ rows_of table inst := by rw [hr]; exact List.mem_singleton_self _
  have hb : is_bound table inst = true :=
    (is_bound_iff _ _).mpr ⟨row, ((mem_rows_of _ _ _).mp hrow).1, ((mem_rows_of _ _ _).mp hrow).2⟩
  obtain ⟨i, r, hi, hget, hnpp⟩ := bsearch_of_bound table inst none hs hb
  have hr2 : r ∈ rows_of table inst :=
    (mem_rows_of _ _ _).mpr ⟨List.getElem?_mem hget, hnpp⟩
  rw [hr] at hr2
  have : r = row := List.mem_singleton.mp hr2
  subst this
  unfold netscape_instance_resolve
  rw [hi]
  simp only [hget]
  rfl

theorem destroy_of_unbound (table : List instance_entry) (inst : NPP)
    (hb : is_bound table inst = false) :
    netscape_instance_destroy table inst = (false, table) := by
  unfold netscape_instance_destroy
  rw [bsearch_of_unbound table inst none hb]

theorem destroy_of_bound (table : List instance_entry) (inst : NPP)
    (hs : table.Sorted (fun x y => instance_compare x y ≤ 0))
    (hb : is_bound table inst = true) :
    ∃ i row, table[i]? = some row ∧ row.npp = inst ∧
      netscape_instance_destroy table inst = (true, table.eraseIdx i) := by
  obtain ⟨i, r, hi, hget, hnpp⟩ := bsearch_of_bound table inst none hs hb
  refine ⟨i, r, hget, hnpp, ?_⟩
  unfold netscape_instance_destroy
  rw [hi]

/-- Taking the row at a position out of the table takes it out of the rows
of its handle and leaves the rows of the other handles as they were. -/
theorem rows_of_eraseIdx (table : List instance_entry) (i : Nat) (row : instance_entry)
    (hget : table[i]? = some row) (inst : NPP) :
    (row.npp ≠ inst → rows_of (table.eraseIdx i) inst = rows_of table inst) ∧
    (row.npp = inst →
      (rows_of (table.eraseIdx i) inst).length + 1 = (rows_of table inst).length) := by
  obtain ⟨hi, hrow⟩ := List.getElem?_eq_some.mp hget
  have hsplit : table = table.take i ++ row :: table.drop (i + 1) := by
    rw [← hrow]
    exact (List.take_append_drop i table).symm.trans
      (by rw [List.drop_eq_getElem_cons hi])
  have herase : table.eraseIdx i = table.take i ++ table.drop (i + 1) :=
    List.eraseIdx_eq_take_drop_succ table i
  unfold rows_of
  constructor
  · intro hne
    rw [herase]
    conv => rhs; rw [hsplit]
    simp [List.filter_append, List.filter_cons, hne]
  · intro heq
    rw [herase]
    conv => rhs; rw [hsplit]
    simp [List.filter_append, List.filter_cons, heq]
    omega

/-- The rows of a handle after a call of `netscape_instance_map` that found
room: those before the call, and the new row when it is for that handle. -/
theorem rows_of_map (table : List instance_entry) (inst : NPP) (p : Option plugin)
    (hroom : table.length < kMaxInstances) (h : NPP) :
    (rows_of (netscape_instance_map table inst p).2 h).Perm
      (rows_of table h ++ if inst = h then [⟨inst, p⟩] else []) := by
  unfold netscape_instance_map
  rw [if_neg (by omega)]
  unfold rows_of
  refine ((perm_qsort _).filter _).trans ?_
  rw [List.filter_append]
  by_cases hh : inst = h
  · simp [hh]
  · simp [hh]

theorem reachable_twice_bound_table : Reachable twice_bound_table :=
  Reachable.map _ 5 (some pdf_plugin) (Reachable.map [] 5 (some intranet_plugin) Reachable.empty)

/-- Between two sorted tables a handle with at most one row resolves alike
when its rows are the same. -/
theorem resolve_congr (t1 t2 : List instance_entry) (inst : NPP)
    (hs1 : t1.Sorted (fun x y => instance_compare x y ≤ 0))
    (hs2 : t2.Sorted (fun x y => instance_compare x y ≤ 0))
    (hperm : (rows_of t2 inst).Perm (rows_of t1 inst))
    (hone : (rows_of t1 inst).length ≤ 1) :
    netscape_instance_resolve t2 inst = netscape_instance_resolve t1 inst := by
  cases hr : rows_of t1 inst with
  | nil =>
    rw [hr] at hperm
    have h2 : rows_of t2 inst = [] := List.Perm.eq_nil hperm
    rw [resolve_of_unbound t1 inst ((rows_of_eq_nil_iff _ _).mp hr),
      resolve_of_unbound t2 inst ((rows_of_eq_nil_iff _ _).mp h2)]
  | cons row rest =>
    rw [hr] at hone hperm
    have hrest : rest = [] := by
      cases rest with
      | nil => rfl
      | cons a b => simp at hone
    subst hrest
    have h2 : rows_of t2 inst = [row] := List.perm_singleton.mp hperm
    rw [resolve_of_single t1 inst row hs1 hr, resolve_of_single t2 inst row hs2 h2]

/-- C13, as the code has it: on a reachable table with room in which the
handle `h` has no row, after `netscape_instance_map(h, p)` with `p` not
`NULL`, `netscape_instance_resolve(h)` returns true and yields `p`, and every
other handle that has at most one row resolves as before the call. -/
theorem netscape_instance_map_then_resolve (table : List instance_entry) (h : NPP)
    (p : plugin) (hreach : Reachable table) (hfree : is_bound table h = false)
    (hroom : table.length < kMaxInstances) :
    (netscape_instance_map table h (some p)).1 = true ∧
    netscape_instance_resolve (netscape_instance_map table h (some p)).2 h =
      (true, some p) ∧
    ∀ other, other ≠ h → (rows_of table other).length ≤ 1 →
      netscape_instance_resolve (netscape_instance_map table h (some p)).2 other =
        netscape_instance_resolve table other := by
  have hs := (reachable_sorted table hreach).1
  have hs2 := (reachable_sorted _ (Reachable.map table h (some p) hreach)).1
  refine ⟨?_, ?_, ?_⟩
  · rw [netscape_instance_map_room table h (some p) hroom]
  · have hperm := rows_of_map table h (some p) hroom h
    rw [(rows_of_eq_nil_iff _ _).mpr hfree, if_pos rfl, List.nil_append] at hperm
    exact resolve_of_single _ h ⟨h, some p⟩ hs2 (List.perm_singleton.mp hperm)
  · intro other hne hone
    have hperm := rows_of_map table h (some p) hroom other
    rw [if_neg (fun e => hne e.symm), List.append_nil] at hperm
    exact resolve_congr table _ other hs hs2 hperm hone

/-- The witness of C13 as amended: with the handle `3` bound, binding the
handle `7` to `pdf_plugin` makes `7` resolve to it and leaves `3` as it
was. -/
theorem netscape_instance_map_then_resolve_witness :
    netscape_instance_resolve
        (netscape_instance_map [⟨3, some intranet_plugin⟩] 7 (some pdf_plugin)).2 7 =
      (true, some pdf_plugin) ∧
    netscape_instance_resolve
        (netscape_instance_map [⟨3, some intranet_plugin⟩] 7 (some pdf_plugin)).2 3 =
      netscape_instance_resolve [⟨3, some intranet_plugin⟩] 3 :=
  ⟨(netscape_instance_map_then_resolve [⟨3, some intranet_plugin⟩] 7 pdf_plugin
      (Reachable.map [] 3 (some intranet_plugin) Reachable.empty) (by decide) (by decide)).2.1,
    (netscape_instance_map_then_resolve [⟨3, some intranet_plugin⟩] 7 pdf_plugin
      (Reachable.map [] 3 (some intranet_plugin) Reachable.empty) (by decide) (by decide)).2.2
      3 (by decide) (by decide)⟩

/-- C13 fails as stated: `twice_bound_table` is reachable, holds two rows and
none for the handle `3`; before `netscape_instance_map(3, pdf_plugin)` the
handle `5` resolves to `pdf_plugin`, after it to `intranet_plugin`. -/
theorem netscape_instance_map_then_resolve_counterexample :
    Reachable twice_bound_table ∧ is_bound twice_bound_table 3 = false ∧
    twice_bound_table.length < kMaxInstances ∧
    netscape_instance_resolve twice_bound_table 5 = (true, some pdf_plugin) ∧
    netscape_instance_resolve
      (netscape_instance_map twice_bound_table 3 (some pdf_plugin)).2 5 =
      (true, some intranet_plugin) :=
  ⟨reachable_twice_bound_table, by decide, by decide, by decide, by decide⟩

/-- What a call of `netscape_instance_destroy` does on a sorted table: with no
row for the handle it returns false and changes nothing; with one, it returns
true, the rows of the handle are one fewer and the rows of every other handle
are as before. -/
theorem netscape_instance_destroy_rows (table : List instance_entry) (inst : NPP)
    (hs : table.Sorted (fun x y => instance_compare x y ≤ 0)) :
    (is_bound table inst = false →
      netscape_instance_destroy table inst = (false, table)) ∧
    (is_bound table inst = true →
      (netscape_instance_destroy table inst).1 = true ∧
      (rows_of (netscape_instance_destroy table inst).2 inst).length + 1 =
        (rows_of table inst).length ∧
      (netscape_instance_destroy table inst).2.length + 1 = table.length) ∧
    ∀ other, other ≠ inst →
      rows_of (netscape_instance_destroy table inst).2 other = rows_of table other := by
  refine ⟨destroy_of_unbound table inst, ?_, ?_⟩
  · intro hb
    obtain ⟨i, row, hget, hnpp, hd⟩ := destroy_of_bound table inst hs hb
    rw [hd]
    refine ⟨rfl, (rows_of_eraseIdx table i row hget inst).2 hnpp, ?_⟩
    exact List.length_eraseIdx_add_one (List.getElem?_eq_some.mp hget).1
  · intro other hne
    cases hb : is_bound table inst with
    | false => rw [destroy_of_unbound table inst hb]
    | true =>
      obtain ⟨i, row, hget, hnpp, hd⟩ := destroy_of_bound table inst hs hb
      rw [hd]
      exact (rows_of_eraseIdx table i row hget other).1 (fun e => hne (e.symm.trans hnpp))

/-- C14, as the code has it: on a reachable table with room for two rows and
none for `h1` and `h2`, after `h1` and `h2` are bound and `h1` is destroyed,
`h2` still resolves to its plugin, `h1` resolves to nothing, and every other
handle that had at most one row resolves as before the removal. -/
theorem netscape_instance_destroy_frame (table : List instance_entry) (h1 h2 : NPP)
    (p1 p2 : Option plugin) (hreach : Reachable table) (hne : h1 ≠ h2)
    (hfree1 : is_bound table h1 = false) (hfree2 : is_bound table h2 = false)
    (hroom : table.length + 2 ≤ kMaxInstances) :
    (netscape_instance_destroy
      (netscape_instance_map (netscape_instance_map table h1 p1).2 h2 p2).2 h1).1 = true ∧
    netscape_instance_resolve (netscape_instance_destroy
      (netscape_instance_map (netscape_instance_map table h1 p1).2 h2 p2).2 h1).2 h2 =
      (p2.isSome, p2) ∧
    netscape_instance_resolve (netscape_instance_destroy
      (netscape_instance_map (netscape_instance_map table h1 p1).2 h2 p2).2 h1).2 h1 =
      (false, none) ∧
    ∀ other, other ≠ h1 →
      (rows_of (netscape_instance_map (netscape_instance_map table h1 p1).2 h2 p2).2
        other).length ≤ 1 →
      netscape_instance_resolve (netscape_instance_destroy
        (netscape_instance_map (netscape_instance_map table h1 p1).2 h2 p2).2 h1).2 other =
      netscape_instance_resolve
        (netscape_instance_map (netscape_instance_map table h1 p1).2 h2 p2).2 other := by
  have hr1 := Reachable.map table h1 p1 hreach
  have hr2 := Reachable.map _ h2 p2 hr1
  have hr3 := Reachable.destroy _ h1 hr2
  have hs2 := (reachable_sorted _ hr2).1
  have hs3 := (reachable_sorted _ hr3).1
  have hroom1 : table.length < kMaxInstances := by omega
  have hlen1 : (netscape_instance_map table h1 p1).2.length < kMaxInstances := by
    rw [netscape_instance_map_room table h1 p1 hroom1, length_qsort, List.length_append,
      List.length_singleton]
    omega
  -- the rows of h1 and h2 after the two calls
  have hrows1 : rows_of (netscape_instance_map (netscape_instance_map table h1 p1).2 h2 p2).2 h1 =
      [⟨h1, p1⟩] := by
    have a := rows_of_map _ h2 p2 hlen1 h1
    rw [if_neg (fun e => hne e.symm), List.append_nil] at a
    have b := rows_of_map table h1 p1 hroom1 h1
    rw [(rows_of_eq_nil_iff _ _).mpr hfree1, if_pos rfl, List.nil_append] at b
    exact List.perm_singleton.mp (a.trans b)
  have hrows2 : rows_of (netscape_instance_map (netscape_instance_map table h1 p1).2 h2 p2).2 h2 =
      [⟨h2, p2⟩] := by
    have a := rows_of_map _ h2 p2 hlen1 h2
    have b := rows_of_map table h1 p1 hroom1 h2
    rw [(rows_of_eq_nil_iff _ _).mpr hfree2, if_neg hne, List.append_nil] at b
    rw [List.Perm.eq_nil b, if_pos rfl, List.nil_append] at a
    exact List.perm_singleton.mp a
  have hb1 : is_bound (netscape_instance_map (netscape_instance_map table h1 p1).2 h2 p2).2 h1 =
      true := by
    cases hb : is_bound (netscape_instance_map (netscape_instance_map table h1 p1).2 h2 p2).2 h1 with
    | true => rfl
    | false =>
      rw [(rows_of_eq_nil_iff _ _).mpr hb] at hrows1
      exact absurd hrows1 (by simp)
  obtain ⟨_, hbound, hother⟩ := netscape_instance_destroy_rows _ h1 hs2
  obtain ⟨hret, hless, _⟩ := hbound hb1
  refine ⟨hret, ?_, ?_, ?_⟩
  · have := hother h2 (fun e => hne e.symm)
    rw [hrows2] at this
    exact resolve_of_single _ h2 ⟨h2, p2⟩ hs3 this
  · rw [hrows1] at hless
    have : rows_of (netscape_instance_destroy
        (netscape_instance_map (netscape_instance_map table h1 p1).2 h2 p2).2 h1).2 h1 = [] :=
      List.length_eq_zero.mp (by simpa using hless)
    exact resolve_of_unbound _ h1 ((rows_of_eq_nil_iff _ _).mp this)
  · intro other hno hone
    exact resolve_congr _ _ other hs2 hs3 (by rw [hother other hno]) hone

/-- The witness of C14 as amended: from the table with the handle `3`, the
handles `4` and `9` are bound and `4` is destroyed; `9` still resolves to
`pdf_plugin`, `4` to nothing, and `3` as before. -/
theorem netscape_instance_destroy_frame_witness :
    netscape_instance_resolve (netscape_instance_destroy
      (netscape_instance_map (netscape_instance_map [⟨3, some intranet_plugin⟩] 4
        (some intranet_plugin)).2 9 (some pdf_plugin)).2 4).2 9 = (true, some pdf_plugin) ∧
    netscape_instance_resolve (netscape_instance_destroy
      (netscape_instance_map (netscape_instance_map [⟨3, some intranet_plugin⟩] 4
        (some intranet_plugin)).2 9 (some pdf_plugin)).2 4).2 4 = (false, none) ∧
    netscape_instance_resolve (netscape_instance_destroy
      (netscape_instance_map (netscape_instance_map [⟨3, some intranet_plugin⟩] 4
        (some intranet_plugin)).2 9 (some pdf_plugin)).2 4).2 3 =
    netscape_instance_resolve
      (netscape_instance_map (netscape_instance_map [⟨3, some intranet_plugin⟩] 4
        (some intranet_plugin)).2 9 (some pdf_plugin)).2 3 :=
  ⟨(netscape_instance_destroy_frame [⟨3, some intranet_plugin⟩] 4 9 (some intranet_plugin)
      (some pdf_plugin) (Reachable.map [] 3 (some intranet_plugin) Reachable.empty)
      (by decide) (by decide) (by decide) (by decide)).2.1,
    (netscape_instance_destroy_frame [⟨3, some intranet_plugin⟩] 4 9 (some intranet_plugin)
      (some pdf_plugin) (Reachable.map [] 3 (some intranet_plugin) Reachable.empty)
      (by decide) (by decide) (by decide) (by decide)).2.2.1,
    (netscape_instance_destroy_frame [⟨3, some intranet_plugin⟩] 4 9 (some intranet_plugin)
      (some pdf_plugin) (Reachable.map [] 3 (some intranet_plugin) Reachable.empty)
      (by decide) (by decide) (by decide) (by decide)).2.2.2 3 (by decide) (by decide)⟩

/-- C14 fails as stated: from the reachable `twice_bound_table`, in which `9`
and `3` have no row, bind `9` and `3` and destroy `9`; the live handle `5`
resolves to `pdf_plugin` before the removal and to `intranet_plugin` after
it. -/
theorem netscape_instance_destroy_frame_counterexample :
    Reachable twice_bound_table ∧
    is_bound twice_bound_table 9 = false ∧ is_bound twice_bound_table 3 = false ∧
    netscape_instance_resolve
      (netscape_instance_map (netscape_instance_map twice_bound_table 9
        (some pdf_plugin)).2 3 (some pdf_plugin)).2 5 = (true, some pdf_plugin) ∧
    netscape_instance_resolve (netscape_instance_destroy
      (netscape_instance_map (netscape_instance_map twice_bound_table 9
        (some pdf_plugin)).2 3 (some pdf_plugin)).2 9).2 5 = (true, some intranet_plugin) :=
  ⟨reachable_twice_bound_table, by decide, by decide, by decide, by decide⟩

/-- C15, as the code has it: on a reachable table
`netscape_instance_destroy(h)` returns true exactly when the table has a row
for `h`; and when `h` had at most one row, a second call right after the
first returns false and leaves the table as the first call left it. -/
theorem netscape_instance_destroy_twice (table : List instance_entry) (h : NPP)
    (hreach : Reachable table) :
    ((netscape_instance_destroy table h).1 = true ↔ is_bound table h = true) ∧
    ((rows_of table h).length ≤ 1 →
      netscape_instance_destroy (netscape_instance_destroy table h).2 h =
        (false, (netscape_instance_destroy table h).2)) := by
  have hs := (reachable_sorted table hreach).1
  obtain ⟨hun, hbound, _⟩ := netscape_instance_destroy_rows table h hs
  constructor
  · cases hb : is_bound table h with
    | false => rw [hun hb]
    | true => simp [(hbound hb).1]
  · intro hone
    apply destroy_of_unbound
    cases hb : is_bound table h with
    | false => rw [hun hb]; exact hb
    | true =>
      have := (hbound hb).2.1
      have hz : (rows_of (netscape_instance_destroy table h).2 h).length = 0 := by omega
      exact (rows_of_eq_nil_iff _ _).mp (List.length_eq_zero.mp hz)

/-- The witness of C15 as amended: the runtime test's first removal returns
true and the second false, with the table left as it was. -/
theorem netscape_instance_destroy_twice_witness :
    (netscape_instance_destroy [⟨3, some intranet_plugin⟩, ⟨7, some pdf_plugin⟩] 7).1 = true ∧
    netscape_instance_destroy
        (netscape_instance_destroy [⟨3, some intranet_plugin⟩, ⟨7, some pdf_plugin⟩] 7).2 7 =
      (false, (netscape_instance_destroy
        [⟨3, some intranet_plugin⟩, ⟨7, some pdf_plugin⟩] 7).2) :=
  ⟨(netscape_instance_destroy_twice [⟨3, some intranet_plugin⟩, ⟨7, some pdf_plugin⟩] 7
      (Reachable.map _ 7 (some pdf_plugin)
        (Reachable.map [] 3 (some intranet_plugin) Reachable.empty))).1.mpr (by decide),
    (netscape_instance_destroy_twice [⟨3, some intranet_plugin⟩, ⟨7, some pdf_plugin⟩] 7
      (Reachable.map _ 7 (some pdf_plugin)
        (Reachable.map [] 3 (some intranet_plugin) Reachable.empty))).2 (by decide)⟩

/-- C15 fails as stated: on the reachable `twice_bound_table` the call
`netscape_instance_destroy(5)` returns true, and called a second time in a
row it returns true again and takes a second row out. -/
theorem netscape_instance_destroy_twice_counterexample :
    Reachable twice_bound_table ∧
    netscape_instance_destroy twice_bound_table 5 = (true, [⟨5, some intranet_plugin⟩]) ∧
    netscape_instance_destroy (netscape_instance_destroy twice_bound_table 5).2 5 =
      (true, []) :=
  ⟨reachable_twice_bound_table, by decide, by decide⟩

/-- C16, as the code has it: in every table reached from the empty one by
calls of `netscape_instance_map` and `netscape_instance_destroy` in which
`netscape_instance_map` is only called with a handle that has no row at that
moment, every handle has at most one row. -/
theorem reachable_unique_one_binding (table : List instance_entry)
    (hreach : ReachableUnique table) (h : NPP) :
    (rows_of table h).length ≤ 1 := by
  induction hreach with
  | empty => simp [rows_of]
  | map t inst p _ hfree ih =>
    by_cases hroom : t.length < kMaxInstances
    · have hperm := rows_of_map t inst p hroom h
      rw [hperm.length_eq, List.length_append]
      by_cases hh : inst = h
      · subst hh
        rw [(rows_of_eq_nil_iff _ _).mpr hfree]
        simp
      · rw [if_neg hh]
        simpa using ih
    · rw [netscape_instance_map_full t inst p (by omega)]
      exact ih
  | destroy t inst _ ih =>
    have hsub : (netscape_instance_destroy t inst).2.Sublist t := by
      unfold netscape_instance_destroy
      cases bsearch ⟨inst, none⟩ t with
      | none => exact List.Sublist.refl _
      | some i => exact List.eraseIdx_sublist t i
    exact Nat.le_trans (List.Sublist.length_le (List.Sublist.filter _ hsub)) ih

/-- The witness of C16 as amended: after two handles are bound, one of them
destroyed and bound again, each has one row. -/
theorem reachable_unique_one_binding_witness :
    (rows_of (netscape_instance_map (netscape_instance_destroy
      (netscape_instance_map (netscape_instance_map [] 7 (some pdf_plugin)).2 3
        (some intranet_plugin)).2 7).2 7 (some intranet_plugin)).2 7).length ≤ 1 :=
  reachable_unique_one_binding _
    (ReachableUnique.map _ 7 (some intranet_plugin)
      (ReachableUnique.destroy _ 7
        (ReachableUnique.map _ 3 (some intranet_plugin)
          (ReachableUnique.map [] 7 (some pdf_plugin) ReachableUnique.empty (by decide))
          (by decide)))
      (by decide)) 7

/-- C16 fails as stated: `netscape_instance_map` called twice with the handle
`5` gives a reachable table with two rows for that handle. -/
theorem reachable_unique_one_binding_counterexample :
    Reachable twice_bound_table ∧
    rows_of twice_bound_table 5 =
      [⟨5, some intranet_plugin⟩, ⟨5, some pdf_plugin⟩] :=
  ⟨reachable_twice_bound_table, by decide⟩

/-- C17: on a reachable table `netscape_instance_map` returns false exactly
when the table holds `kMaxInstances` (4096) rows, and then leaves the table
as it was; otherwise it returns true and the table has one row more. -/
theorem netscape_instance_map_capacity (table : List instance_entry) (h : NPP)
    (p : Option plugin) (hreach : Reachable table) :
    ((netscape_instance_map table h p).1 = false ↔ table.length = 4096) ∧
    ((netscape_instance_map table h p).1 = false →
      (netscape_instance_map table h p).2 = table) ∧
    ((netscape_instance_map table h p).1 = true →
      (netscape_instance_map table h p).2.length = table.length + 1) := by
  have hle := (reachable_sorted table hreach).2
  have hk : kMaxInstances = 4096 := rfl
  by_cases hroom : table.length < kMaxInstances
  · rw [netscape_instance_map_room table h p hroom]
    refine ⟨?_, ?_, ?_⟩
    · constructor
      · intro hf; simp at hf
      · intro he; omega
    · intro hf; simp at hf
    · intro _
      rw [length_qsort, List.length_append, List.length_singleton]
  · rw [netscape_instance_map_full table h p (by omega)]
    refine ⟨?_, ?_, ?_⟩
    · constructor
      · intro _; omega
      · intro _; rfl
    · intro _; rfl
    · intro hf; simp at hf

/-! ## Facts about sequences of calls on the instance table -/

theorem perm_short (l1 l2 : List instance_entry) (hp : l1.Perm l2) (hl : l2.length ≤ 1) :
    l1 = l2 := by
  cases l2 with
  | nil => exact List.Perm.eq_nil hp
  | cons a rest =>
    cases rest with
    | nil => exact List.perm_singleton.mp hp
    | cons b c => simp at hl

theorem represents_rows_le (table : List instance_entry) (m : NPP → Option plugin)
    (n : Nat) (hrep : represents table m n) (h : NPP) : (rows_of table h).length ≤ 1 := by
  rw [hrep.2.2 h]
  cases m h <;> simp

/-- One call keeps the table in step with the owners of the handles, and
gives back what these owners call for. -/
theorem run_op_represents (table : List instance_entry) (m : NPP → Option plugin)
    (n : Nat) (op : TableOp) (hrep : represents table m n)
    (hfresh : ∀ inst p, op = TableOp.bind inst p → m inst = none ∧ n < kMaxInstances) :
    (run_op table op).1 = expected m op ∧
      represents (run_op table op).2 (owners_step m op) (live_step m n op) := by
  obtain ⟨hs, hlen, hrows⟩ := hrep
  cases op with
  | bind inst p =>
    obtain ⟨hnone, hroom⟩ := hfresh inst p rfl
    have hroom2 : table.length < kMaxInstances := by rw [hlen]; exact hroom
    have hmap := netscape_instance_map_room table inst (some p) hroom2
    refine ⟨?_, ?_, ?_, ?_⟩
    · simp only [run_op, expected, hmap]
    · simp only [run_op, hmap]
      exact sorted_qsort _
    · simp only [run_op, hmap, live_step]
      rw [length_qsort, List.length_append, List.length_singleton, hlen]
    · intro h
      have hperm := rows_of_map table inst (some p) hroom2 h
      simp only [run_op, owners_step]
      by_cases hh : h = inst
      · subst hh
        rw [if_pos rfl]
        have h0 := hrows h
        rw [hnone] at h0
        rw [h0, if_pos rfl, List.nil_append] at hperm
        exact List.perm_singleton.mp hperm
      · rw [if_neg hh]
        rw [if_neg (fun e => hh e.symm), List.append_nil] at hperm
        rw [perm_short _ _ hperm (represents_rows_le table m n ⟨hs, hlen, hrows⟩ h)]
        exact hrows h
  | unbind inst =>
    obtain ⟨hun, hbound, hother⟩ := netscape_instance_destroy_rows table inst hs
    cases hm : m inst with
    | none =>
      have h0 := hrows inst
      rw [hm] at h0
      have hb := (rows_of_eq_nil_iff _ _).mp h0
      have hd := hun hb
      refine ⟨?_, ?_, ?_, ?_⟩
      · simp only [run_op, expected, hd, hm]
        rfl
      · simp only [run_op, hd]
        exact hs
      · simp only [run_op, hd, live_step, hm]
        exact hlen
      · intro h
        simp only [run_op, hd, owners_step]
        by_cases hh : h = inst
        · subst hh
          rw [if_pos rfl, h0]
        · rw [if_neg hh]
          exact hrows h
    | some p =>
      have h0 := hrows inst
      rw [hm] at h0
      have hb : is_bound table inst = true := by
        cases hb : is_bound table inst with
        | true => rfl
        | false =>
          rw [(rows_of_eq_nil_iff _ _).mpr hb] at h0
          exact absurd h0 (by simp)
      obtain ⟨hret, hless, hlen2⟩ := hbound hb
      refine ⟨?_, ?_, ?_, ?_⟩
      · simp only [run_op, expected, hret, hm]
        rfl
      · simp only [run_op]
        exact (reachable_sorted_destroy table inst hs)
      · simp only [run_op, live_step, hm]
        simp only [Option.isSome_some, if_true]
        omega
      · intro h
        simp only [run_op, owners_step]
        by_cases hh : h = inst
        · subst hh
          rw [if_pos rfl]
          rw [h0] at hless
          exact List.length_eq_zero.mp (by simpa using hless)
        · rw [if_neg hh, hother h hh]
          exact hrows h
  | resolve inst =>
    refine ⟨?_, hs, hlen, hrows⟩
    simp only [run_op, expected]
    have h0 := hrows inst
    cases hm : m inst with
    | none =>
      rw [hm] at h0
      rw [resolve_of_unbound table inst ((rows_of_eq_nil_iff _ _).mp h0)]
      rfl
    | some p =>
      rw [hm] at h0
      rw [resolve_of_single table inst ⟨inst, some p⟩ hs h0]

/-- A sequence of calls with fresh bindings keeps the table in step with the
owners of the handles, and every call gives back what these owners call
for. -/
theorem run_ops_represents (ops : List TableOp) (table : List instance_entry)
    (m : NPP → Option plugin) (n : Nat) (hrep : represents table m n)
    (hfresh : fresh_binds m n ops) :
    (run_ops table ops).1 = expected_all m ops ∧
      represents (run_ops table ops).2 (owners_after m ops) (live_after m n ops) := by
  induction ops generalizing table m n with
  | nil => exact ⟨rfl, hrep⟩
  | cons op ops ih =>
    have hstep : (∀ inst p, op = TableOp.bind inst p → m inst = none ∧ n < kMaxInstances) ∧
        fresh_binds (owners_step m op) (live_step m n op) ops := by
      cases op with
      | bind inst p =>
        exact ⟨fun i q e => by injection e with e1 e2; subst e1; exact hfresh.1, hfresh.2⟩
      | unbind inst => exact ⟨fun i q e => by injection e, hfresh⟩
      | resolve inst => exact ⟨fun i q e => by injection e, hfresh⟩
    obtain ⟨h1, h2⟩ := run_op_represents table m n op hrep hstep.1
    obtain ⟨h3, h4⟩ := ih (run_op table op).2 _ _ h2 hstep.2
    refine ⟨?_, h4⟩
    simp only [run_ops, expected_all, h1, h3]

theorem expected_all_getElem (ops : List TableOp) (m : NPP → Option plugin) (i : Nat) :
    (expected_all m ops)[i]? =
      ops[i]?.map (expected (owners_after m (ops.take i))) := by
  induction ops generalizing m i with
  | nil => simp [expected_all]
  | cons op ops ih =>
    cases i with
    | zero => simp [expected_all, owners_after]
    | succ i => simp [expected_all, owners_after, ih]

theorem owners_after_append (a b : List TableOp) (m : NPP → Option plugin) :
    owners_after m (a ++ b) = owners_after (owners_after m a) b := by
  induction a generalizing m with
  | nil => rfl
  | cons op a ih => exact ih _

theorem live_after_append (a b : List TableOp) (m : NPP → Option plugin) (n : Nat) :
    live_after m n (a ++ b) = live_after (owners_after m a) (live_after m n a) b := by
  induction a generalizing m n with
  | nil => rfl
  | cons op a ih => exact ih _ _

theorem fresh_binds_cons (op : TableOp) (ops : List TableOp) (m : NPP → Option plugin)
    (n : Nat) :
    fresh_binds m n (op :: ops) ↔
      (∀ inst p, op = TableOp.bind inst p → m inst = none ∧ n < kMaxInstances) ∧
        fresh_binds (owners_step m op) (live_step m n op) ops := by
  cases op with
  | bind inst p =>
    constructor
    · intro h
      exact ⟨fun i q e => by injection e with e1 e2; subst e1; exact h.1, h.2⟩
    · intro h
      exact ⟨h.1 inst p rfl, h.2⟩
  | unbind inst =>
    constructor
    · intro h; exact ⟨fun i q e => by injection e, h⟩
    · intro h; exact h.2
  | resolve inst =>
    constructor
    · intro h; exact ⟨fun i q e => by injection e, h⟩
    · intro h; exact h.2

theorem fresh_binds_append (a b : List TableOp) (m : NPP → Option plugin) (n : Nat) :
    fresh_binds m n (a ++ b) ↔
      fresh_binds m n a ∧ fresh_binds (owners_after m a) (live_after m n a) b := by
  induction a generalizing m n with
  | nil => simp [fresh_binds, owners_after, live_after]
  | cons op a ih =>
    rw [List.cons_append, fresh_binds_cons, fresh_binds_cons, ih]
    simp only [owners_after, live_after, and_assoc]

/-- The calls of `netscape_instance_resolve` change neither the owners nor
the number of bound handles, and do not bear on the freshness of the
bindings. -/
theorem resolves_do_not_count (ops : List TableOp) (m : NPP → Option plugin) (n : Nat) :
    owners_after m (ops.filter (fun op => !op.is_resolve)) = owners_after m ops ∧
    live_after m n (ops.filter (fun op => !op.is_resolve)) = live_after m n ops ∧
    (fresh_binds m n (ops.filter (fun op => !op.is_resolve)) ↔ fresh_binds m n ops) := by
  induction ops generalizing m n with
  | nil => exact ⟨rfl, rfl, Iff.rfl⟩
  | cons op ops ih =>
    cases op with
    | bind inst p =>
      have := ih (owners_step m (TableOp.bind inst p)) (live_step m n (TableOp.bind inst p))
      rw [List.filter_cons_of_pos (by rfl), fresh_binds_cons, fresh_binds_cons]
      exact ⟨this.1, this.2.1, by rw [this.2.2]⟩
    | unbind inst =>
      have := ih (owners_step m (TableOp.unbind inst)) (live_step m n (TableOp.unbind inst))
      rw [List.filter_cons_of_pos (by rfl), fresh_binds_cons, fresh_binds_cons]
      exact ⟨this.1, this.2.1, by rw [this.2.2]⟩
    | resolve inst =>
      have := ih m n
      rw [List.filter_cons_of_neg (by simp [TableOp.is_resolve]), fresh_binds_cons]
      refine ⟨this.1, this.2.1, ?_⟩
      rw [this.2.2]
      constructor
      · intro h; exact ⟨fun i q e => by injection e, h⟩
      · intro h; exact h.2

/-- A run of bindings of distinct handles without owner: each is fresh, the
number of bound handles grows by their number, each handle gets its plugin as
owner and the other handles keep theirs. -/
theorem binds_phase (B : List (NPP × plugin)) (m : NPP → Option plugin) (n : Nat)
    (hnodup : (B.map Prod.fst).Nodup) (hfree : ∀ b ∈ B, m b.1 = none)
    (hroom : n + B.length ≤ kMaxInstances) :
    fresh_binds m n (B.map (fun b => TableOp.bind b.1 b.2)) ∧
    live_after m n (B.map (fun b => TableOp.bind b.1 b.2)) = n + B.length ∧
    (∀ b ∈ B, owners_after m (B.map (fun b => TableOp.bind b.1 b.2)) b.1 = some b.2) ∧
    (∀ h, h ∉ B.map Prod.fst →
      owners_after m (B.map (fun b => TableOp.bind b.1 b.2)) h = m h) := by
  induction B generalizing m n with
  | nil => exact ⟨trivial, rfl, fun b hb => absurd hb (List.not_mem_nil _), fun h _ => rfl⟩
  | cons b B ih =>
    rw [List.map_cons, List.nodup_cons] at hnodup
    have hfree2 : ∀ c ∈ B, owners_step m (TableOp.bind b.1 b.2) c.1 = none := by
      intro c hc
      have hne : c.1 ≠ b.1 := fun e => hnodup.1 (e ▸ List.mem_map_of_mem Prod.fst hc)
      simp only [owners_step, if_neg hne]
      exact hfree c (List.mem_cons_of_mem _ hc)
    have hlen : (b :: B).length = B.length + 1 := rfl
    obtain ⟨i1, i2, i3, i4⟩ := ih (owners_step m (TableOp.bind b.1 b.2))
      (live_step m n (TableOp.bind b.1 b.2)) hnodup.2 hfree2
      (by simp only [live_step]; omega)
    refine ⟨?_, ?_, ?_, ?_⟩
    · exact ⟨⟨hfree b (List.mem_cons_self _ _), by omega⟩, i1⟩
    · show live_after _ _ (B.map _) = _
      rw [i2]
      simp only [live_step]
      omega
    · intro c hc
      show owners_after _ (B.map _) c.1 = _
      rcases List.mem_cons.mp hc with rfl | hc
      · rw [i4 c.1 hnodup.1]
        simp only [owners_step, if_pos]
      · exact i3 c hc
    · intro h hh
      show owners_after _ (B.map _) h = _
      rw [List.map_cons, List.mem_cons, not_or] at hh
      rw [i4 h hh.2]
      simp only [owners_step, if_neg hh.1]

/-- A run of unbindings clears the owners of its handles and leaves the other
owners as they were; no binding in it, so nothing to be fresh. -/
theorem unbinds_phase (U : List NPP) (m : NPP → Option plugin) (n : Nat) :
    fresh_binds m n (U.map TableOp.unbind) ∧
    ∀ h, owners_after m (U.map TableOp.unbind) h = if h ∈ U then none else m h := by
  induction U generalizing m n with
  | nil => exact ⟨trivial, fun h => by simp [owners_after]⟩
  | cons u U ih =>
    obtain ⟨i1, i2⟩ := ih (owners_step m (TableOp.unbind u)) (live_step m n (TableOp.unbind u))
    refine ⟨i1, ?_⟩
    intro h
    show owners_after _ (U.map _) h = _
    rw [i2 h]
    by_cases hu : h ∈ U
    · simp [hu]
    · by_cases he : h = u
      · simp [owners_step, he]
      · simp [owners_step, hu, he]

/-- A run of unbindings of distinct bound handles lowers the number of bound
handles by their number. -/
theorem unbinds_phase_live (U : List NPP) (m : NPP → Option plugin) (n : Nat)
    (hnodup : U.Nodup) (hbound : ∀ h ∈ U, (m h).isSome = true) :
    live_after m n (U.map TableOp.unbind) = n - U.length := by
  induction U generalizing m n with
  | nil => rfl
  | cons u U ih =>
    rw [List.nodup_cons] at hnodup
    have hb2 : ∀ h ∈ U, (owners_step m (TableOp.unbind u) h).isSome = true := by
      intro h hh
      have hne : h ≠ u := fun e => hnodup.1 (e ▸ hh)
      simp only [owners_step, if_neg hne]
      exact hbound h (List.mem_cons_of_mem _ hh)
    show live_after _ _ (U.map _) = _
    rw [ih _ _ hnodup.2 hb2]
    simp only [live_step, hbound u (List.mem_cons_self _ _), if_true, List.length_cons]
    omega


/-- The owners after bindings of distinct handles followed by unbindings, from
no owner at all: a handle bound and not unbound is owned by its plugin, a
handle never bound or unbound since has no owner. -/
theorem owners_bind_unbind (B : List (NPP × plugin)) (U : List NPP)
    (hnodup : (B.map Prod.fst).Nodup) (hlen : B.length ≤ kMaxInstances) (h : NPP) :
    (∀ p, (h, p) ∈ B → h ∉ U →
      owners_after (fun _ => none)
        (B.map (fun b => TableOp.bind b.1 b.2) ++ U.map TableOp.unbind) h = some p) ∧
    ((h ∉ B.map Prod.fst ∨ h ∈ U) →
      owners_after (fun _ => none)
        (B.map (fun b => TableOp.bind b.1 b.2) ++ U.map TableOp.unbind) h = none) := by
  obtain ⟨-, -, i3, i4⟩ := binds_phase B (fun _ => none) 0 hnodup (fun _ _ => rfl) (by omega)
  rw [owners_after_append, (unbinds_phase U _ 0).2 h]
  constructor
  · intro p hp hU
    rw [if_neg hU]
    exact i3 (h, p) hp
  · intro hcase
    by_cases hU : h ∈ U
    · rw [if_pos hU]
    · rw [if_neg hU]
      rcases hcase with hB | hU2
      · exact i4 h hB
      · exact absurd hU2 hU

/-- The calls kept by a filter among the first `i` are the first ones of the
calls kept in the whole sequence. -/
theorem filter_take_eq (f : TableOp → Bool) (ops : List TableOp) (i : Nat) :
    (ops.take i).filter f = (ops.filter f).take ((ops.take i).filter f).length := by
  have e : ops.filter f = (ops.take i).filter f ++ (ops.drop i).filter f := by
    rw [← List.filter_append, List.take_append_drop]
  rw [e, List.take_left]

/-- A call kept by a filter stands, among the calls kept, right after those
kept before it. -/
theorem filter_getElem_at (f : TableOp → Bool) (ops : List TableOp) (i : Nat) (x : TableOp)
    (hx : ops[i]? = some x) (hf : f x = true) :
    (ops.filter f)[((ops.take i).filter f).length]? = some x := by
  obtain ⟨hi, hxi⟩ := List.getElem?_eq_some.mp hx
  have e : ops.filter f = (ops.take i).filter f ++ (ops.drop i).filter f := by
    rw [← List.filter_append, List.take_append_drop]
  rw [e, List.getElem?_append_right (Nat.le_refl _), Nat.sub_self,
    List.drop_eq_getElem_cons hi, hxi, List.filter_cons_of_pos hf, List.getElem?_cons_zero]

/-- An element of a list without repetition is not among those before it. -/
theorem not_mem_take_of_nodup (l : List NPP) (j : Nat) (h : NPP) (hnodup : l.Nodup)
    (hj : l[j]? = some h) : h ∉ l.take j := by
  induction l generalizing j with
  | nil => simp
  | cons a l ih =>
    rw [List.nodup_cons] at hnodup
    cases j with
    | zero => simp
    | succ j =>
      rw [List.getElem?_cons_succ] at hj
      rw [List.take_succ_cons, List.mem_cons, not_or]
      refine ⟨?_, ih j hnodup.2 hj⟩
      intro e
      exact hnodup.1 (e ▸ List.getElem?_mem hj)

/-- In a sequence whose bindings and unbindings are the bindings `binds`
followed by the unbindings of `order`, those among the first `i` calls are the
first bindings followed by the first unbindings. -/
theorem shape_take (binds : List (NPP × plugin)) (order : List NPP) (ops : List TableOp)
    (hshape : ops.filter (fun op => !op.is_resolve) =
      binds.map (fun b => TableOp.bind b.1 b.2) ++ order.map TableOp.unbind) (i : Nat) :
    (ops.take i).filter (fun op => !op.is_resolve) =
      (binds.take ((ops.take i).filter (fun op => !op.is_resolve)).length).map
          (fun b => TableOp.bind b.1 b.2) ++
        (order.take (((ops.take i).filter (fun op => !op.is_resolve)).length -
          binds.length)).map TableOp.unbind := by
  conv => lhs; rw [filter_take_eq, hshape]
  rw [List.take_append_eq_append_take, List.map_take, List.map_take, List.length_map]

/-- Membership of a binding or an unbinding among bindings followed by
unbindings. -/
theorem mem_bind_unbind (B : List (NPP × plugin)) (U : List NPP) (h : NPP) :
    (∀ p, TableOp.bind h p ∈
        B.map (fun b => TableOp.bind b.1 b.2) ++ U.map TableOp.unbind ↔ (h, p) ∈ B) ∧
    (TableOp.unbind h ∈
        B.map (fun b => TableOp.bind b.1 b.2) ++ U.map TableOp.unbind ↔ h ∈ U) := by
  constructor
  · intro p
    constructor
    · intro hm
      rcases List.mem_append.mp hm with hm | hm
      · obtain ⟨b, hb, e⟩ := List.mem_map.mp hm
        injection e with e1 e2
        have : b = (h, p) := Prod.ext e1 e2
        exact this ▸ hb
      · obtain ⟨u, -, e⟩ := List.mem_map.mp hm
        exact TableOp.noConfusion e
    · intro hm
      exact List.mem_append_left _ (List.mem_map.mpr ⟨(h, p), hm, rfl⟩)
  · constructor
    · intro hm
      rcases List.mem_append.mp hm with hm | hm
      · obtain ⟨b, -, e⟩ := List.mem_map.mp hm
        exact TableOp.noConfusion e
      · obtain ⟨u, hu, e⟩ := List.mem_map.mp hm
        injection e with e1
        exact e1 ▸ hu
    · intro hm
      exact List.mem_append_right _ (List.mem_map_of_mem _ hm)

/-- The owners after the first `i` calls of a sequence of distinct bindings
followed by unbindings, with resolves anywhere: a handle bound and not unbound
among these calls is owned by its plugin, a handle not bound among them, or
unbound among them, has no owner. -/
theorem owners_at (binds : List (NPP × plugin)) (order : List NPP) (ops : List TableOp)
    (hN : binds.length ≤ kMaxInstances) (hdistinct : (binds.map Prod.fst).Nodup)
    (hshape : ops.filter (fun op => !op.is_resolve) =
      binds.map (fun b => TableOp.bind b.1 b.2) ++ order.map TableOp.unbind)
    (i : Nat) (h : NPP) :
    (∀ p, TableOp.bind h p ∈ ops.take i → TableOp.unbind h ∉ ops.take i →
      owners_after (fun _ => none) (ops.take i) h = some p) ∧
    (((∀ p, TableOp.bind h p ∉ ops.take i) ∨ TableOp.unbind h ∈ ops.take i) →
      owners_after (fun _ => none) (ops.take i) h = none) := by
  have hq := shape_take binds order ops hshape i
  have hsub : ((binds.take ((ops.take i).filter
      (fun op => !op.is_resolve)).length).map Prod.fst).Nodup :=
    hdistinct.sublist ((List.take_sublist _ _).map _)
  have hlen : (binds.take ((ops.take i).filter
      (fun op => !op.is_resolve)).length).length ≤ kMaxInstances :=
    Nat.le_trans (List.take_sublist _ _).length_le hN
  obtain ⟨o1, o2⟩ := owners_bind_unbind _ (order.take
    (((ops.take i).filter (fun op => !op.is_resolve)).length - binds.length)) hsub hlen h
  obtain ⟨m1, m2⟩ := mem_bind_unbind (binds.take ((ops.take i).filter
      (fun op => !op.is_resolve)).length) (order.take
    (((ops.take i).filter (fun op => !op.is_resolve)).length - binds.length)) h
  rw [← hq] at o1 o2 m1 m2
  rw [(resolves_do_not_count (ops.take i) (fun _ => none) 0).1] at o1 o2
  have hb : ∀ p, TableOp.bind h p ∈ ops.take i ↔
      TableOp.bind h p ∈ (ops.take i).filter (fun op => !op.is_resolve) := by
    intro p
    rw [List.mem_filter]
    exact ⟨fun hm => ⟨hm, rfl⟩, fun hm => hm.1⟩
  have hu : TableOp.unbind h ∈ ops.take i ↔
      TableOp.unbind h ∈ (ops.take i).filter (fun op => !op.is_resolve) := by
    rw [List.mem_filter]
    exact ⟨fun hm => ⟨hm, rfl⟩, fun hm => hm.1⟩
  constructor
  · intro p hp hnu
    exact o1 p ((m1 p).mp ((hb p).mp hp)) (fun hm => hnu (hu.mpr (m2.mpr hm)))
  · intro hcase
    apply o2
    rcases hcase with hnb | hub
    · left
      intro hm
      obtain ⟨b, hbm, e⟩ := List.mem_map.mp hm
      apply hnb b.2
      rw [hb, m1]
      exact e ▸ hbm
    · right
      exact m2.mp (hu.mp hub)

/-- In a sequence of distinct bindings followed by the unbindings of the same
handles, with resolves anywhere, the handle of an unbinding is owned at that
moment. -/
theorem owner_at_unbind (binds : List (NPP × plugin)) (order : List NPP) (ops : List TableOp)
    (hN : binds.length ≤ kMaxInstances) (hdistinct : (binds.map Prod.fst).Nodup)
    (horder : order.Perm (binds.map Prod.fst))
    (hshape : ops.filter (fun op => !op.is_resolve) =
      binds.map (fun b => TableOp.bind b.1 b.2) ++ order.map TableOp.unbind)
    (i : Nat) (h : NPP) (hi : ops[i]? = some (TableOp.unbind h)) :
    (owners_after (fun _ => none) (ops.take i) h).isSome = true := by
  have hpos := filter_getElem_at (fun op => !op.is_resolve) ops i _ hi rfl
  have hq := shape_take binds order ops hshape i
  rw [hshape] at hpos
  generalize ((ops.take i).filter (fun op => !op.is_resolve)).length = k at hpos hq
  have hk : binds.length ≤ k := by
    by_contra hlt
    rw [List.getElem?_append_left (by rw [List.length_map]; omega), List.getElem?_map] at hpos
    rcases hb : binds[k]? with _ | b
    · rw [hb] at hpos
      exact Option.noConfusion hpos
    · rw [hb] at hpos
      injection hpos with e
      exact TableOp.noConfusion e
  rw [List.getElem?_append_right (by rw [List.length_map]; exact hk), List.length_map,
    List.getElem?_map] at hpos
  have hj : order[k - binds.length]? = some h := by
    rcases hb : order[k - binds.length]? with _ | u
    · rw [hb] at hpos
      exact Option.noConfusion hpos
    · rw [hb] at hpos
      injection hpos with e
      injection e with e
      rw [e]
  rw [List.take_of_length_le hk] at hq
  have hnot : h ∉ order.take (k - binds.length) :=
    not_mem_take_of_nodup order _ h (horder.nodup_iff.mpr hdistinct) hj
  have hin : h ∈ binds.map Prod.fst := horder.mem_iff.mp (List.getElem?_mem hj)
  obtain ⟨b, hb, e⟩ := List.mem_map.mp hin
  have hb2 : (h, b.2) ∈ binds := by
    rw [← e]
    exact hb
  rw [← (resolves_do_not_count (ops.take i) (fun _ => none) 0).1, hq,
    (owners_bind_unbind binds _ hdistinct hN h).1 b.2 hb2 hnot]
  rfl

/-- C18: from the empty table, bind at most `kMaxInstances` (4096) distinct
handles to plugins, then unbind them in any order, with resolves anywhere in
between. Every unbind returns true; a resolve of a handle bound earlier and
not yet unbound returns true with the plugin it was bound to; a resolve of a
handle not yet bound, or unbound earlier, returns false with no plugin; and
the table is empty at the end. -/
theorem instance_table_bind_unbind (binds : List (NPP × plugin)) (order : List NPP)
    (ops : List TableOp) (hN : binds.length ≤ kMaxInstances)
    (hdistinct : (binds.map Prod.fst).Nodup) (horder : order.Perm (binds.map Prod.fst))
    (hshape : ops.filter (fun op => !op.is_resolve) =
      binds.map (fun b => TableOp.bind b.1 b.2) ++ order.map TableOp.unbind) :
    (run_ops [] ops).2 = [] ∧
    (∀ (i : Nat) (h : NPP), ops[i]? = some (TableOp.unbind h) →
      (run_ops [] ops).1[i]? = some (OpResult.destroyed true)) ∧
    (∀ (i : Nat) (h : NPP), ops[i]? = some (TableOp.resolve h) →
      (∀ p, TableOp.bind h p ∈ ops.take i → TableOp.unbind h ∉ ops.take i →
        (run_ops [] ops).1[i]? = some (OpResult.resolved true (some p))) ∧
      (((∀ p, TableOp.bind h p ∉ ops.take i) ∨ TableOp.unbind h ∈ ops.take i) →
        (run_ops [] ops).1[i]? = some (OpResult.resolved false none))) := by
  obtain ⟨hB1, hB2, hB3, -⟩ :=
    binds_phase binds (fun _ => none) 0 hdistinct (fun _ _ => rfl) (by omega)
  have hfresh : fresh_binds (fun _ => none) 0 ops := by
    rw [← (resolves_do_not_count ops _ 0).2.2, hshape, fresh_binds_append]
    exact ⟨hB1, (unbinds_phase order _ _).1⟩
  have hrep : represents [] (fun _ => none) 0 := ⟨List.sorted_nil, rfl, fun h => rfl⟩
  obtain ⟨hres, hfin⟩ := run_ops_represents ops [] _ 0 hrep hfresh
  have hbound : ∀ h ∈ order, (owners_after (fun _ => none)
      (binds.map (fun b => TableOp.bind b.1 b.2)) h).isSome = true := by
    intro h hh
    obtain ⟨b, hb, e⟩ := List.mem_map.mp (horder.mem_iff.mp hh)
    rw [← e, hB3 b hb]
    rfl
  have hlive : live_after (fun _ => none) 0 ops = 0 := by
    rw [← (resolves_do_not_count ops _ 0).2.1, hshape, live_after_append, hB2,
      unbinds_phase_live order _ _ (horder.nodup_iff.mpr hdistinct) hbound,
      horder.length_eq, List.length_map]
    omega
  refine ⟨?_, ?_, ?_⟩
  · apply List.eq_nil_of_length_eq_zero
    rw [hfin.2.1, hlive]
  · intro i h hi
    have ho := owner_at_unbind binds order ops hN hdistinct horder hshape i h hi
    rw [hres, expected_all_getElem, hi]
    simp only [Option.map_some', expected, ho]
  · intro i h hi
    obtain ⟨o1, o2⟩ := owners_at binds order ops hN hdistinct hshape i h
    rw [hres, expected_all_getElem, hi]
    constructor
    · intro p hp hnu
      simp only [Option.map_some', expected, o1 p hp hnu]
      rfl
    · intro hcase
      simp only [Option.map_some', expected, o2 hcase]
      rfl

/-- The table with the handles `1` to `n`, all owned by `pdf_plugin`, is
reachable as long as `n` is at most `kMaxInstances`. -/
theorem reachable_range (n : Nat) (hn : n ≤ kMaxInstances) :
    Reachable ((List.range n).map (fun i => (⟨i + 1, some pdf_plugin⟩ : instance_entry))) := by
  induction n with
  | zero => exact Reachable.empty
  | succ n ih =>
    have hprev := Reachable.map _ (n + 1) (some pdf_plugin) (ih (by omega))
    rw [netscape_instance_map_room _ _ _ (by rw [List.length_map, List.length_range]; omega)]
      at hprev
    have hsorted : ((List.range (n + 1)).map
        (fun i => (⟨i + 1, some pdf_plugin⟩ : instance_entry))).Sorted
        (fun x y => instance_compare x y ≤ 0) := by
      apply List.pairwise_map.mpr
      refine (List.pairwise_lt_range (n + 1)).imp ?_
      intro a b hab
      exact (instance_compare_le _ _).mpr (by show a + 1 ≤ b + 1; omega)
    rw [List.range_succ, List.map_append, List.map_singleton] at hsorted ⊢
    rw [qsort, List.Sorted.insertionSort_eq hsorted] at hprev
    exact hprev

/-- The table `full_table` is reachable: its handles are bound one after the
other. -/
theorem reachable_full_table : Reachable full_table :=
  reachable_range 4096 (Nat.le_refl _)

/-- The witness of C17: `full_table` is reachable and holds 4096 rows; one
more `netscape_instance_map` returns false and leaves it as it was. -/
theorem netscape_instance_map_capacity_witness :
    Reachable full_table ∧
    (((netscape_instance_map full_table 5000 (some intranet_plugin)).1 = false ↔
      full_table.length = 4096) ∧
    ((netscape_instance_map full_table 5000 (some intranet_plugin)).1 = false →
      (netscape_instance_map full_table 5000 (some intranet_plugin)).2 = full_table) ∧
    ((netscape_instance_map full_table 5000 (some intranet_plugin)).1 = true →
      (netscape_instance_map full_table 5000 (some intranet_plugin)).2.length =
        full_table.length + 1)) :=
  ⟨reachable_full_table,
    netscape_instance_map_capacity full_table 5000 (some intranet_plugin) reachable_full_table⟩

/-- The witness of C18: the handles `1` and `2` are bound, then unbound in
the other order, with resolves before, between and after; both removals
return true, each resolve gives the plugin of a bound handle and nothing
otherwise, and the table is empty at the end. -/
theorem instance_table_bind_unbind_witness :
    example_binds.length ≤ kMaxInstances ∧ (example_binds.map Prod.fst).Nodup ∧
    [2, 1].Perm (example_binds.map Prod.fst) ∧
    example_calls.filter (fun op => !op.is_resolve) =
      example_binds.map (fun b => TableOp.bind b.1 b.2) ++ [2, 1].map TableOp.unbind ∧
    (run_ops [] example_calls).2 = [] ∧
    (run_ops [] example_calls).1[5]? = some (OpResult.destroyed true) ∧
    (run_ops [] example_calls).1[8]? = some (OpResult.destroyed true) ∧
    (run_ops [] example_calls).1[0]? = some (OpResult.resolved false none) ∧
    (run_ops [] example_calls).1[2]? = some (OpResult.resolved true (some pdf_plugin)) ∧
    (run_ops [] example_calls).1[4]? = some (OpResult.resolved true (some intranet_plugin)) ∧
    (run_ops [] example_calls).1[6]? = some (OpResult.resolved false none) ∧
    (run_ops [] example_calls).1[7]? = some (OpResult.resolved true (some pdf_plugin)) ∧
    (run_ops [] example_calls).1[9]? = some (OpResult.resolved false none) :=
  have hN : example_binds.length ≤ kMaxInstances := by decide
  have hdistinct : (example_binds.map Prod.fst).Nodup := by decide
  have horder : [2, 1].Perm (example_binds.map Prod.fst) := by decide
  have hshape : example_calls.filter (fun op => !op.is_resolve) =
      example_binds.map (fun b => TableOp.bind b.1 b.2) ++ [2, 1].map TableOp.unbind := rfl
  have hall := instance_table_bind_unbind example_binds [2, 1] example_calls hN hdistinct
    horder hshape
  ⟨hN, hdistinct, horder, hshape, hall.1,
    hall.2.1 5 2 rfl, hall.2.1 8 1 rfl,
    (hall.2.2 0 1 rfl).2 (Or.inl (fun _ hm => List.not_mem_nil _ hm)),
    (hall.2.2 2 1 rfl).1 pdf_plugin (by decide) (by decide),
    (hall.2.2 4 2 rfl).1 intranet_plugin (by decide) (by decide),
    (hall.2.2 6 2 rfl).2 (Or.inr (by decide)),
    (hall.2.2 7 1 rfl).1 pdf_plugin (by decide) (by decide),
    (hall.2.2 9 1 rfl).2 (Or.inr (by decide))⟩

/-! ## Validation of the requested type and of the host: claims C11, C12, C19 and C20 -/

/-- C11: when the requested type holds a character outside
`kMimeCharacterSet` or has more than 128 characters, `netscape_plugin_new`
returns `NPERR_INVALID_PARAM` with the instance table as it was and with
nothing done: no query of the page URL, no message, no call of a plugin, and
this whatever the registry holds, so that no MIME description is looked at. A
requested type of exactly 128 characters of the set passes the two checks:
the outcome is that of the search over the plugins. -/
theorem netscape_plugin_new_validates_type (reg : registry) (geturl : NPP → Option CStr)
    (table : List instance_entry) (pluginType : CStr) (inst : NPP) :
    (((∃ c ∈ pluginType, c ∉ kMimeCharacterSet) ∨ 128 < pluginType.length) →
      netscape_plugin_new reg geturl table pluginType inst =
        ⟨some NPERR_INVALID_PARAM, table, []⟩) ∧
    ((∀ c ∈ pluginType, c ∈ kMimeCharacterSet) → pluginType.length = 128 →
      netscape_plugin_new reg geturl table pluginType inst =
        match find_plugin reg geturl pluginType inst reg.plugins with
        | (ev, Search.fault) => ⟨none, table, ev⟩
        | (ev, Search.exhausted) => ⟨some NPERR_INVALID_PARAM, table, ev⟩
        | (ev, Search.found current) =>
          match netscape_instance_map table inst (some current) with
          | (false, _) => ⟨some NPERR_GENERIC_ERROR, table, ev⟩
          | (true, table1) =>
            match current.plugin_funcs with
            | none => ⟨none, table1, ev⟩
            | some funcs =>
              match funcs.newp with
              | none => ⟨none, table1, ev⟩
              | some handler =>
                ⟨some handler, table1, ev ++ [Event.newp current pluginType inst]⟩) := by
  constructor
  · intro hbad
    unfold netscape_plugin_new
    by_cases h1 : strspn pluginType kMimeCharacterSet ≠ strlen pluginType
    · rw [if_pos h1]
    · rw [if_neg h1]
      have hall := (strspn_eq_strlen_iff _ _).mp (not_not.mp h1)
      have hlong : strlen pluginType > kMaxMimeLength := by
        rcases hbad with ⟨c, hc, hn⟩ | hlen
        · exact absurd (hall c hc) hn
        · exact hlen
      rw [if_pos hlong]
  · intro hvalid hlen
    exact netscape_plugin_new_of_valid reg geturl table pluginType inst hvalid (by omega)

set_option maxRecDepth 100000 in
/-- The witness of C11: the type `text/<html>` holds `<`, which is not in the
set, and is refused although `default_plugin` is registered; the type of 128
letters `a` is handed to the plugin that declares it. -/
theorem netscape_plugin_new_validates_type_witness :
    netscape_plugin_new { plugins := [default_plugin] } google_page []
        "text/<html>".toList 7 = ⟨some NPERR_INVALID_PARAM, [], []⟩ ∧
    long_type.length = 128 ∧
    netscape_plugin_new { plugins := [long_plugin] } google_page [] long_type 7 =
      ⟨some NPERR_NO_ERROR, [⟨7, some long_plugin⟩],
        [Event.geturl 7, Event.newp long_plugin long_type 7]⟩ :=
  ⟨(netscape_plugin_new_validates_type { plugins := [default_plugin] } google_page []
      "text/<html>".toList 7).1 (Or.inl ⟨'<', by decide, by decide⟩),
    by decide,
    ((netscape_plugin_new_validates_type { plugins := [long_plugin] } google_page []
      long_type 7).2 (by decide) (by decide)).trans (by decide)⟩

/-- When no registered plugin is eligible, and the registry has a `Global`
section or every plugin has a warning of its own, `netscape_plugin_new`
returns `NPERR_INVALID_PARAM`, leaves the instance table as it was and calls
no `newp`. -/
theorem netscape_plugin_new_of_none_eligible (reg : registry) (geturl : NPP → Option CStr)
    (table : List instance_entry) (pluginType : CStr) (inst : NPP)
    (hnone : ∀ Q ∈ reg.plugins, eligible geturl inst pluginType Q = false)
    (hwarn : ∀ Q ∈ reg.plugins, Q.warning = none → reg.global ≠ none) :
    (netscape_plugin_new reg geturl table pluginType inst).ret = some NPERR_INVALID_PARAM ∧
    (netscape_plugin_new reg geturl table pluginType inst).table = table ∧
    ∀ e ∈ (netscape_plugin_new reg geturl table pluginType inst).trace,
      e.is_newp = false := by
  have hex := find_plugin_exhausted reg geturl pluginType inst reg.plugins hnone hwarn
  have hno := find_plugin_no_newp reg geturl pluginType inst reg.plugins
  unfold netscape_plugin_new
  by_cases h1 : strspn pluginType kMimeCharacterSet ≠ strlen pluginType
  · rw [if_pos h1]
    exact ⟨rfl, rfl, fun e he => absurd he (List.not_mem_nil _)⟩
  · rw [if_neg h1]
    by_cases h2 : strlen pluginType > kMaxMimeLength
    · rw [if_pos h2]
      exact ⟨rfl, rfl, fun e he => absurd he (List.not_mem_nil _)⟩
    · rw [if_neg h2]
      rcases hr : find_plugin reg geturl pluginType inst reg.plugins with ⟨ev, r⟩
      rw [hr] at hex hno
      simp only at hex hno
      subst hex
      exact ⟨rfl, rfl, hno⟩

/-- C12 fails on the code: in a registry without `Global` section whose one
plugin, `silent_plugin`, declares `application/pdf`, is not allowed on a
Google page and has no warning text, no plugin is eligible for the request,
yet `netscape_plugin_new` does not return `NPERR_INVALID_PARAM`: after the
query of the page URL it reads the warning of the absent `Global` record, a
`NULL` dereference. The instance table is left as it was and no `newp` is
called. With a `Global` section in the registry the same request returns
`NPERR_INVALID_PARAM`. -/
theorem netscape_plugin_new_unhandled_faults :
    eligible google_page 7 "application/pdf".toList silent_plugin = false ∧
    netscape_plugin_new { plugins := [silent_plugin] } google_page []
        "application/pdf".toList 7 = ⟨none, [], [Event.geturl 7]⟩ ∧
    netscape_plugin_new { global := some {}, plugins := [silent_plugin] } google_page []
        "application/pdf".toList 7 =
      ⟨some NPERR_INVALID_PARAM, [], [Event.geturl 7, Event.display_message 7 none]⟩ := by
  refine ⟨by decide, by decide, by decide⟩

theorem mem_kDomainCharacterSet_iff (c : Char) :
    c ∈ kDomainCharacterSet ↔ host_char c = true := by
  constructor
  · intro h
    have hall : kDomainCharacterSet.all (fun c => host_char c) = true := by decide
    exact List.all_eq_true.mp hall c h
  · intro h
    have hc : c = Char.ofNat c.toNat := (Char.ofNat_toNat c).symm
    unfold host_char at h
    simp only [Bool.or_eq_true, Char.isLower, Char.isDigit, Bool.and_eq_true, decide_eq_true_eq,
      beq_iff_eq] at h
    rcases h with (((h | h) | h) | h) | h
    · have h1 : 97 ≤ c.toNat := h.1
      have h2 : c.toNat ≤ 122 := h.2
      rw [hc]
      generalize c.toNat = n at h1 h2
      interval_cases n <;> decide
    · have h1 : 48 ≤ c.toNat := h.1
      have h2 : c.toNat ≤ 57 := h.2
      rw [hc]
      generalize c.toNat = n at h1 h2
      interval_cases n <;> decide
    · subst h; decide
    · subst h; decide
    · subst h; decide

theorem fnmatch_star (s : CStr) : fnmatch "*".toList s = 0 :=
  (fnmatch_star_literal [] s (fun _ hc => absurd hc (List.not_mem_nil _))).mpr
    List.nil_suffix

/-- C19, amended: the character check of `policy_plugin_allowed_domain`
(`strspn(hostname, kDomainCharacterSet) != strlen(hostname)`) rejects the host
exactly when it holds a character other than a lower-case ASCII letter, a
digit, `-`, `.` or `_`. A URL with such a host is denied whatever the policy,
and a host of 1 to 128 characters of that kind is allowed by a policy whose
list of domains is `*`. -/
theorem policy_domain_character_check (p : plugin) (rest : CStr) :
    (strspn (rest.takeWhile (fun c => c ≠ '/')) kDomainCharacterSet ≠
        strlen (rest.takeWhile (fun c => c ≠ '/')) ↔
      ∃ c ∈ rest.takeWhile (fun c => c ≠ '/'), host_char c = false) ∧
    ((∃ c ∈ rest.takeWhile (fun c => c ≠ '/'), host_char c = false) →
      policy_plugin_allowed_domain p ("http://".toList ++ rest) = false ∧
      policy_plugin_allowed_domain p ("https://".toList ++ rest) = false) ∧
    ((∀ c ∈ rest.takeWhile (fun c => c ≠ '/'), host_char c = true) →
      rest.takeWhile (fun c => c ≠ '/') ≠ [] →
      (rest.takeWhile (fun c => c ≠ '/')).length ≤ 128 →
      p.allow_domains = some "*".toList →
      policy_plugin_allowed_domain p ("http://".toList ++ rest) = true ∧
      policy_plugin_allowed_domain p ("https://".toList ++ rest) = true) := by
  refine ⟨?_, ?_, ?_⟩
  · rw [Ne, strspn_eq_strlen_iff]
    constructor
    · intro h
      by_contra hno
      apply h
      intro c hc
      rw [mem_kDomainCharacterSet_iff]
      cases hv : host_char c with
      | true => rfl
      | false => exact absurd ⟨c, hc, hv⟩ hno
    · rintro ⟨c, hc, hv⟩ hall
      have := (mem_kDomainCharacterSet_iff c).mp (hall c hc)
      rw [hv] at this
      exact Bool.noConfusion this
  · rintro ⟨c, hc, hv⟩
    have hbad : host_ok (rest.takeWhile (fun c => c ≠ '/')) = false := by
      cases hb : host_ok (rest.takeWhile (fun c => c ≠ '/')) with
      | false => rfl
      | true =>
        have := (mem_kDomainCharacterSet_iff c).mp (((host_ok_iff _).mp hb).1 c hc)
        rw [hv] at this
        exact Bool.noConfusion this
    cases hd : p.allow_domains with
    | none => exact ⟨allowed_domain_none p _ hd, allowed_domain_none p _ hd⟩
    | some doms =>
      have := allowed_domain_of_host p rest doms hd
      simp only [hbad, Bool.false_and] at this
      exact this
  · intro hall hne hlen hd
    have hok : host_ok (rest.takeWhile (fun c => c ≠ '/')) = true :=
      (host_ok_iff _).mpr
        ⟨fun c hc => (mem_kDomainCharacterSet_iff c).mpr (hall c hc), hne, hlen⟩
    have hany : (strtok_all "*".toList ",".toList).any
        (fun g => fnmatch g (rest.takeWhile (fun c => c ≠ '/')) = 0) = true := by
      have htok : strtok_all "*".toList ",".toList = ["*".toList] := by decide
      rw [htok, List.any_cons, fnmatch_star]
      rfl
    have := allowed_domain_of_host p rest "*".toList hd
    simp only [hok, hany, Bool.and_self] at this
    exact this

/-- The witness of C19: the host `a_b.example.com` has only characters of
the set and is allowed under the policy `*`; the host `Google.com` has the
capital `G` and is denied. -/
theorem policy_domain_character_check_witness :
    (policy_plugin_allowed_domain star_plugin "http://a_b.example.com/x".toList = true ∧
      policy_plugin_allowed_domain star_plugin "https://a_b.example.com/x".toList = true) ∧
    (policy_plugin_allowed_domain star_plugin "http://Google.com/".toList = false ∧
      policy_plugin_allowed_domain star_plugin "https://Google.com/".toList = false) :=
  ⟨(policy_domain_character_check star_plugin "a_b.example.com/x".toList).2.2
      (by decide) (by decide) (by decide) rfl,
    (policy_domain_character_check star_plugin "Google.com/".toList).2.1
      ⟨'G', by decide, by decide⟩⟩

/-- C19 fails as stated: the host `Google.com` is made of letters and `.`
only, yet the character check rejects it and the URL is denied under the
policy `*`; and the host `a_b.example.com` holds `_`, which is neither a
letter, a digit, `-` nor `.`, yet it passes the check and the URL is
allowed. -/
theorem policy_domain_character_check_counterexample :
    ("Google.com".toList.all (fun c => c.isAlpha || c.isDigit || c == '-' || c == '.') = true ∧
      strspn "Google.com".toList kDomainCharacterSet ≠ strlen "Google.com".toList ∧
      policy_plugin_allowed_domain star_plugin "https://Google.com/".toList = false) ∧
    ("a_b.example.com".toList.any
        (fun c => !(c.isAlpha || c.isDigit || c == '-' || c == '.')) = true ∧
      strspn "a_b.example.com".toList kDomainCharacterSet = strlen "a_b.example.com".toList ∧
      policy_plugin_allowed_domain star_plugin "https://a_b.example.com/".toList = true) := by
  refine ⟨⟨by decide, by decide, by decide⟩, by decide, by decide, by decide⟩

/-- C20 fails on the code: `port_plugin` has the `AllowPort` option set and
the host name `www.google.com` matches its glob `*.google.com`, yet the URL
`https://www.google.com:8443/x` is denied by `policy_plugin_allowed_domain`,
and so by `policy_plugin_allowed_url`, while the same URL without the port is
allowed. The option is stored and never read: the decision is the same
whatever the value of `allow_port`. -/
theorem policy_domain_ignores_allow_port :
    port_plugin.allow_port.isSome = true ∧
    fnmatch "*.google.com".toList "www.google.com".toList = 0 ∧
    policy_plugin_allowed_domain port_plugin "https://www.google.com:8443/x".toList = false ∧
    policy_plugin_allowed_url port_plugin "https://www.google.com:8443/x".toList = false ∧
    policy_plugin_allowed_domain port_plugin "https://www.google.com/x".toList = true ∧
    ∀ (p : plugin) (v : Option CStr) (url : CStr),
      policy_plugin_allowed_domain { p with allow_port := v } url =
        policy_plugin_allowed_domain p url := by
  refine ⟨rfl, by decide, by decide, by decide, by decide, ?_⟩
  intro p v url
  rfl


/-! ## Message encoding: claims C23 and C30 -/

theorem encode_loop_eq (output message : CStr) :
    encode_loop output message =
      output ++ message.flatMap (fun c => '%' :: sprintf_02hx (char_to_int c)) := by
  induction message generalizing output with
  | nil => simp [encode_loop]
  | cons c message ih =>
    rw [encode_loop, ih, List.flatMap_cons, List.append_assoc]

theorem sprintf_02hx_small :
    ∀ b : Nat, b < 128 → sprintf_02hx (b : Int) = [hex_digit (b / 16), hex_digit (b % 16)] := by
  decide

theorem hex_digit_mem : ∀ d : Nat, d < 16 → hex_digit d ∈ "0123456789abcdef".toList := by
  decide

theorem sprintf_02hx_mem (arg : Int) (c : Char) (hc : c ∈ sprintf_02hx arg) :
    c ∈ "0123456789abcdef".toList := by
  unfold sprintf_02hx at hc
  rcases List.mem_append.mp hc with h | h
  · rw [(List.mem_replicate.mp h).2]
    decide
  · obtain ⟨d, hd, rfl⟩ := List.mem_map.mp h
    have hd2 := (List.dropWhile_sublist _).subset hd
    apply hex_digit_mem
    simp only [List.mem_cons, List.mem_singleton, List.not_mem_nil, or_false] at hd2
    rcases hd2 with rfl | rfl | rfl | rfl <;> exact Nat.mod_lt _ (by decide)

/-- For a message of at most 2048 bytes, all below 128,
`encode_javascript_string` returns true, its output is the percent encoding
of the message, three times as long as the message, and it fits the buffer of
`3 * len + 1` bytes. -/
theorem encode_javascript_string_of_ascii (message : CStr)
    (hlen : message.length ≤ 2048) (hascii : ∀ c ∈ message, c.toNat % 256 < 128) :
    encode_javascript_string (some message) =
      some ⟨3 * message.length + 1, percent_encoding message⟩ ∧
    (percent_encoding message).length = 3 * message.length ∧
    Encoded.fits ⟨3 * message.length + 1, percent_encoding message⟩ = true := by
  have hloop : encode_loop [] message = percent_encoding message := by
    rw [encode_loop_eq, List.nil_append]
    unfold percent_encoding
    induction message with
    | nil => rfl
    | cons c message ih =>
      rw [List.flatMap_cons, List.flatMap_cons,
        ih (by simp at hlen; omega) (fun x hx => hascii x (List.mem_cons_of_mem _ hx))]
      have hc := hascii c (List.mem_cons_self _ _)
      have : char_to_int c = ((c.toNat % 256 : Nat) : Int) := by
        unfold char_to_int
        rw [if_pos hc]
      rw [this, sprintf_02hx_small _ hc]
  have hl : (percent_encoding message).length = 3 * message.length := by
    unfold percent_encoding
    clear hloop hlen hascii
    induction message with
    | nil => rfl
    | cons c message ih =>
      rw [List.flatMap_cons, List.length_append, ih]
      simp only [List.length_cons, List.length_nil]
      omega
  refine ⟨?_, hl, by simp [Encoded.fits, hl]⟩
  unfold encode_javascript_string
  have : ¬ strlen message > kMessageLengthMax := by
    simp only [strlen, kMessageLengthMax]
    omega
  show (if strlen message > kMessageLengthMax then none
    else some (Encoded.mk (strlen message * 3 + 1) (encode_loop [] message))) = _
  rw [if_neg this, hloop]
  simp only [strlen]
  rw [Nat.mul_comm]

/-- C23 fails on the code: for `accented_message`, the two bytes `0xc3 0xa9`,
`encode_javascript_string` returns true with a buffer of 7 bytes and writes
`%ffc3%ffa9`, ten characters and a NUL, past the end of the buffer, where the
percent encoding of the message is `%c3%a9`: a `char` above `0x7f` is
negative, and `%02hx` prints it as an `unsigned short` of four digits. The
messages of the runtime test, `test` and the empty one, are encoded as the
claim says. -/
theorem encode_javascript_string_overruns :
    accented_message.length ≤ kMessageLengthMax ∧
    encode_javascript_string (some accented_message) = some ⟨7, "%ffc3%ffa9".toList⟩ ∧
    percent_encoding accented_message = "%c3%a9".toList ∧
    Encoded.fits ⟨7, "%ffc3%ffa9".toList⟩ = false ∧
    encode_javascript_string (some "test".toList) = some ⟨13, "%74%65%73%74".toList⟩ ∧
    encode_javascript_string (some []) = some ⟨1, []⟩ := by
  refine ⟨by decide, by decide, by decide, by decide, by decide, by decide⟩

/-- C30: when `encode_javascript_string` returns true, every character of its
output is `%`, a digit or one of the letters `a` to `f`; so the output holds
no single quote (code 39), no double quote (code 34), no backslash (code 92),
no line feed and no carriage return. -/
theorem encode_javascript_string_charset (message : CStr) (e : Encoded)
    (h : encode_javascript_string (some message) = some e) :
    (∀ c ∈ e.output, c ∈ "%0123456789abcdef".toList) ∧
    Char.ofNat 39 ∉ e.output ∧ Char.ofNat 34 ∉ e.output ∧ Char.ofNat 92 ∉ e.output ∧
    Char.ofNat 10 ∉ e.output ∧ Char.ofNat 13 ∉ e.output := by
  have hall : ∀ c ∈ e.output, c ∈ "%0123456789abcdef".toList := by
    unfold encode_javascript_string at h
    by_cases hl : strlen message > kMessageLengthMax
    · simp [hl] at h
    · simp only [hl, if_false, Option.some.injEq] at h
      subst h
      intro c hc
      simp only at hc
      rw [encode_loop_eq, List.nil_append, List.mem_flatMap] at hc
      obtain ⟨x, _, hx⟩ := hc
      rcases List.mem_cons.mp hx with rfl | hx
      · decide
      · exact List.mem_cons_of_mem _ (sprintf_02hx_mem _ c hx)
  refine ⟨hall, ?_, ?_, ?_, ?_, ?_⟩ <;>
    exact fun hc => absurd (hall _ hc) (by decide)

/-- The witness of C30: a message with a single quote (code 39), two double
quotes (code 34), the byte `0xe9` and a line feed is encoded with the
characters of the set only. -/
theorem encode_javascript_string_charset_witness :
    encode_javascript_string
        (some [ 'i', 't', Char.ofNat 39, 's', ' ', Char.ofNat 34, Char.ofNat 0xe9, Char.ofNat 34, Char.ofNat 10]) =
      some ⟨28, "%69%74%27%73%20%22%ffe9%22%0a".toList⟩ ∧
    "%69%74%27%73%20%22%ffe9%22%0a".toList.all
      (fun c => "%0123456789abcdef".toList.contains c) = true :=
  ⟨by decide,
    List.all_eq_true.mpr (fun c hc => by
      simpa using (encode_javascript_string_charset
        [ 'i', 't', Char.ofNat 39, 's', ' ', Char.ofNat 34, Char.ofNat 0xe9, Char.ofNat 34, Char.ofNat 10]
        ⟨28, "%69%74%27%73%20%22%ffe9%22%0a".toList⟩ (by decide)).1 c hc)⟩

/-! ## Entry points of an instance: claims C24, C27 and C28 -/

theorem pass_through_unresolved (table : List instance_entry) (inst : NPP)
    (unresolved missing : Returned) (handler : NPPluginFuncs → Option Returned)
    (name : Handler) (h : (netscape_instance_resolve table inst).1 = false) :
    pass_through table inst unresolved missing handler name = ⟨some unresolved, [], none⟩ := by
  unfold pass_through
  rcases hr : netscape_instance_resolve table inst with ⟨b, r⟩
  rw [hr] at h
  simp only at h
  subst h
  rfl

/-- C24, as the code has it: with a handle that `netscape_instance_resolve`
does not resolve, no entry point calls a handler of a plugin. `setwindow`,
`newstream`, `destroystream`, `setvalue`, `writeready`, `write` and
`handleevent` return `NPERR_INVALID_INSTANCE_ERROR`, as does `getvalue` for a
variable other than the name and the description of the plugin; `destroy`
returns `NPERR_GENERIC_ERROR` and leaves the table as it was; `gotfocus`
returns false; and `streamasfile`, `print`, `urlnotify`, `lostfocus` and
`urlredirectnotify`, of type `void`, return with nothing. -/
theorem netscape_plugin_unresolved (reg : registry) (table : List instance_entry)
    (inst : NPP) (h : (netscape_instance_resolve table inst).1 = false) :
    (netscape_plugin_setwindow table inst =
        ⟨some (Returned.error NPERR_INVALID_INSTANCE_ERROR), [], none⟩ ∧
      netscape_plugin_newstream table inst =
        ⟨some (Returned.error NPERR_INVALID_INSTANCE_ERROR), [], none⟩ ∧
      netscape_plugin_destroystream table inst =
        ⟨some (Returned.error NPERR_INVALID_INSTANCE_ERROR), [], none⟩ ∧
      netscape_plugin_setvalue table inst =
        ⟨some (Returned.error NPERR_INVALID_INSTANCE_ERROR), [], none⟩ ∧
      netscape_plugin_writeready table inst =
        ⟨some (Returned.error NPERR_INVALID_INSTANCE_ERROR), [], none⟩ ∧
      netscape_plugin_write table inst =
        ⟨some (Returned.error NPERR_INVALID_INSTANCE_ERROR), [], none⟩ ∧
      netscape_plugin_handleevent table inst =
        ⟨some (Returned.error NPERR_INVALID_INSTANCE_ERROR), [], none⟩) ∧
    ((∀ n, netscape_plugin_getvalue reg table inst (NPPVariable.other n) =
        ⟨some (Returned.error NPERR_INVALID_INSTANCE_ERROR), [], none⟩) ∧
      ∀ var, (netscape_plugin_getvalue reg table inst var).calls = []) ∧
    netscape_plugin_destroy table inst =
      (⟨some (Returned.error NPERR_GENERIC_ERROR), [], none⟩, table) ∧
    netscape_plugin_gotfocus table inst = ⟨some (Returned.flag false), [], none⟩ ∧
    (netscape_plugin_streamasfile table inst = ⟨some Returned.nothing, [], none⟩ ∧
      netscape_plugin_print table inst = ⟨some Returned.nothing, [], none⟩ ∧
      netscape_plugin_urlnotify table inst = ⟨some Returned.nothing, [], none⟩ ∧
      netscape_plugin_lostfocus table inst = ⟨some Returned.nothing, [], none⟩ ∧
      netscape_plugin_urlredirectnotify table inst = ⟨some Returned.nothing, [], none⟩) := by
  have hother : ∀ n, netscape_plugin_getvalue reg table inst (NPPVariable.other n) =
      ⟨some (Returned.error NPERR_INVALID_INSTANCE_ERROR), [], none⟩ := by
    intro n
    unfold netscape_plugin_getvalue NP_GetValue
    rcases hr : netscape_instance_resolve table inst with ⟨b, r⟩
    rw [hr] at h
    simp only at h
    subst h
    rfl
  refine ⟨⟨?_, ?_, ?_, ?_, ?_, ?_, ?_⟩, ⟨hother, ?_⟩, ?_, ?_, ?_, ?_, ?_, ?_, ?_⟩
  · exact pass_through_unresolved table inst _ _ _ _ h
  · exact pass_through_unresolved table inst _ _ _ _ h
  · exact pass_through_unresolved table inst _ _ _ _ h
  · exact pass_through_unresolved table inst _ _ _ _ h
  · exact pass_through_unresolved table inst _ _ _ _ h
  · exact pass_through_unresolved table inst _ _ _ _ h
  · exact pass_through_unresolved table inst _ _ _ _ h
  · intro var
    cases var with
    | other n => rw [hother n]
    | NPPVpluginNameString =>
      unfold netscape_plugin_getvalue NP_GetValue
      dsimp only
      cases reg.global with
      | none => rfl
      | some g =>
        dsimp only
        cases g.name <;> rfl
    | NPPVpluginDescriptionString =>
      unfold netscape_plugin_getvalue NP_GetValue
      dsimp only
      cases reg.global with
      | none => rfl
      | some g =>
        dsimp only
        cases g.name <;> rfl
  · unfold netscape_plugin_destroy
    rcases hr : netscape_instance_resolve table inst with ⟨b, r⟩
    rw [hr] at h
    simp only at h
    subst h
    rfl
  · exact pass_through_unresolved table inst _ _ _ _ h
  · exact pass_through_unresolved table inst _ _ _ _ h
  · exact pass_through_unresolved table inst _ _ _ _ h
  · exact pass_through_unresolved table inst _ _ _ _ h
  · exact pass_through_unresolved table inst _ _ _ _ h
  · exact pass_through_unresolved table inst _ _ _ _ h

/-- The witness of C24 as amended: the handle `7` is not in the table that
holds the handle `3`; `setwindow` returns `NPERR_INVALID_INSTANCE_ERROR`,
`destroy` returns `NPERR_GENERIC_ERROR` with the table as it was, and `print`
returns with nothing, no handler called. -/
theorem netscape_plugin_unresolved_witness :
    netscape_plugin_setwindow [⟨3, some complete_plugin⟩] 7 =
      ⟨some (Returned.error NPERR_INVALID_INSTANCE_ERROR), [], none⟩ ∧
    netscape_plugin_destroy [⟨3, some complete_plugin⟩] 7 =
      (⟨some (Returned.error NPERR_GENERIC_ERROR), [], none⟩, [⟨3, some complete_plugin⟩]) ∧
    netscape_plugin_print [⟨3, some complete_plugin⟩] 7 = ⟨some Returned.nothing, [], none⟩ :=
  ⟨(netscape_plugin_unresolved {} [⟨3, some complete_plugin⟩] 7 (by decide)).1.1,
    (netscape_plugin_unresolved {} [⟨3, some complete_plugin⟩] 7 (by decide)).2.2.1,
    (netscape_plugin_unresolved {} [⟨3, some complete_plugin⟩] 7 (by decide)).2.2.2.2.2.1⟩

/-- C24 fails as stated: the handle `7` is not in the empty table, yet
`print`, `streamasfile`, `urlnotify`, `lostfocus` and `urlredirectnotify`
return with nothing, which is also what they return for the handle of
`complete_plugin` after its handler was called, and `gotfocus` returns false;
and `getvalue` for the name of the plugin returns `NPERR_NO_ERROR` with the
name of the `Global` section. -/
theorem netscape_plugin_unresolved_counterexample :
    (netscape_instance_resolve [] 7).1 = false ∧
    (netscape_plugin_print [] 7 = ⟨some Returned.nothing, [], none⟩ ∧
      netscape_plugin_print [⟨7, some complete_plugin⟩] 7 =
        ⟨some Returned.nothing, [⟨complete_plugin, Handler.print, 7⟩], none⟩) ∧
    (netscape_plugin_streamasfile [] 7).ret = some Returned.nothing ∧
    (netscape_plugin_urlnotify [] 7).ret = some Returned.nothing ∧
    (netscape_plugin_lostfocus [] 7).ret = some Returned.nothing ∧
    (netscape_plugin_urlredirectnotify [] 7).ret = some Returned.nothing ∧
    (netscape_plugin_gotfocus [] 7).ret = some (Returned.flag false) ∧
    netscape_plugin_getvalue named_registry [] 7 NPPVariable.NPPVpluginNameString =
      ⟨some (Returned.error NPERR_NO_ERROR), [], some (some "Wrapper".toList)⟩ := by
  refine ⟨by decide, ⟨by decide, by decide⟩, by decide, by decide, by decide, by decide,
    by decide, by decide⟩

/-- The table `netscape_plugin_new` leaves is the one it was given, or that
one after `netscape_instance_map` for the instance. -/
theorem netscape_plugin_new_table (reg : registry) (geturl : NPP → Option CStr)
    (table : List instance_entry) (pluginType : CStr) (inst : NPP) :
    (netscape_plugin_new reg geturl table pluginType inst).table = table ∨
    ∃ cur, (netscape_plugin_new reg geturl table pluginType inst).table =
      (netscape_instance_map table inst (some cur)).2 := by
  unfold netscape_plugin_new
  by_cases h1 : strspn pluginType kMimeCharacterSet ≠ strlen pluginType
  · rw [if_pos h1]; exact Or.inl rfl
  · rw [if_neg h1]
    by_cases h2 : strlen pluginType > kMaxMimeLength
    · rw [if_pos h2]; exact Or.inl rfl
    · rw [if_neg h2]
      rcases find_plugin reg geturl pluginType inst reg.plugins with ⟨ev, r⟩
      cases r with
      | fault => exact Or.inl rfl
      | exhausted => exact Or.inl rfl
      | found cur =>
        dsimp only
        rcases hm : netscape_instance_map table inst (some cur) with ⟨b, t1⟩
        cases b with
        | false => exact Or.inl rfl
        | true =>
          right
          refine ⟨cur, ?_⟩
          rw [hm]
          dsimp only
          cases cur.plugin_funcs with
          | none => rfl
          | some funcs =>
            dsimp only
            cases funcs.newp <;> rfl

/-- The table `netscape_plugin_destroy` leaves is the one it was given, or
that one after `netscape_instance_destroy` for the instance. -/
theorem netscape_plugin_destroy_table (table : List instance_entry) (inst : NPP) :
    (netscape_plugin_destroy table inst).2 = table ∨
    (netscape_plugin_destroy table inst).2 = (netscape_instance_destroy table inst).2 := by
  unfold netscape_plugin_destroy
  rcases netscape_instance_resolve table inst with ⟨b, r⟩
  cases b with
  | false => exact Or.inl rfl
  | true =>
    right
    dsimp only
    rcases netscape_instance_destroy table inst with ⟨b2, t1⟩
    cases b2 with
    | false => rfl
    | true =>
      dsimp only
      cases r with
      | none => rfl
      | some P =>
        dsimp only
        cases P.plugin_funcs with
        | none => rfl
        | some funcs =>
          dsimp only
          cases funcs.destroy <;> rfl

/-- A table the browser can bring about through the entry points is one that
calls of `netscape_instance_map` and `netscape_instance_destroy` reach. -/
theorem dispatched_reachable (reg : registry) (table : List instance_entry)
    (h : Dispatched reg table) : Reachable table := by
  induction h with
  | empty => exact Reachable.empty
  | create geturl table pluginType inst _ _ ih =>
    rcases netscape_plugin_new_table reg geturl table pluginType inst with e | ⟨cur, e⟩
    · rw [e]; exact ih
    · rw [e]; exact Reachable.map table inst (some cur) ih
  | destroy table inst _ _ ih =>
    rcases netscape_plugin_destroy_table table inst with e | e
    · rw [e]; exact ih
    · rw [e]; exact Reachable.destroy table inst ih

/-- What `netscape_plugin_destroy` does once the handle is resolved to `P`
and its row is taken out. -/
theorem netscape_plugin_destroy_of_resolved (table : List instance_entry) (inst : NPP)
    (P : plugin) (hres : netscape_instance_resolve table inst = (true, some P))
    (hdes : (netscape_instance_destroy table inst).1 = true) :
    netscape_plugin_destroy table inst =
      (match P.plugin_funcs with
        | none => ⟨none, [], none⟩
        | some funcs =>
          match funcs.destroy with
          | none => ⟨some (Returned.error NPERR_GENERIC_ERROR), [], none⟩
          | some code => ⟨some (Returned.error code), [⟨P, Handler.destroy, inst⟩], none⟩,
        (netscape_instance_destroy table inst).2) := by
  unfold netscape_plugin_destroy
  rw [hres]
  dsimp only
  rcases hd : netscape_instance_destroy table inst with ⟨b, t1⟩
  rw [hd] at hdes
  simp only at hdes
  subst hdes
  dsimp only
  cases P.plugin_funcs with
  | none => rfl
  | some funcs =>
    dsimp only
    cases funcs.destroy <;> rfl

/-- When `netscape_plugin_new` returns and has changed the table, the plugin
it bound has a table of entry points. -/
theorem netscape_plugin_new_table_funcs (reg : registry) (geturl : NPP → Option CStr)
    (table : List instance_entry) (pluginType : CStr) (inst : NPP)
    (hret : (netscape_plugin_new reg geturl table pluginType inst).ret ≠ none) :
    (netscape_plugin_new reg geturl table pluginType inst).table = table ∨
    ∃ cur funcs, (netscape_plugin_new reg geturl table pluginType inst).table =
      (netscape_instance_map table inst (some cur)).2 ∧ cur.plugin_funcs = some funcs := by
  unfold netscape_plugin_new at hret ⊢
  by_cases h1 : strspn pluginType kMimeCharacterSet ≠ strlen pluginType
  · rw [if_pos h1]; exact Or.inl rfl
  · rw [if_neg h1] at hret ⊢
    by_cases h2 : strlen pluginType > kMaxMimeLength
    · rw [if_pos h2]; exact Or.inl rfl
    · rw [if_neg h2] at hret ⊢
      rcases hfp : find_plugin reg geturl pluginType inst reg.plugins with ⟨ev, r⟩
      rw [hfp] at hret
      cases r with
      | fault => exact Or.inl rfl
      | exhausted => exact Or.inl rfl
      | found cur =>
        dsimp only at hret ⊢
        rcases hm : netscape_instance_map table inst (some cur) with ⟨b, t1⟩
        rw [hm] at hret
        cases b with
        | false => exact Or.inl rfl
        | true =>
          right
          dsimp only at hret ⊢
          cases hf : cur.plugin_funcs with
          | none =>
            rw [hf] at hret
            exact absurd rfl hret
          | some funcs =>
            refine ⟨cur, funcs, ?_, hf⟩
            rw [hm]
            dsimp only
            cases funcs.newp <;> rfl

/-- In a table the browser can bring about through the entry points, every
row has an owner, and the owner has a table of entry points. -/
theorem dispatched_rows (reg : registry) (table : List instance_entry)
    (h : Dispatched reg table) :
    ∀ row ∈ table, ∃ P funcs, row.plugin = some P ∧ P.plugin_funcs = some funcs := by
  induction h with
  | empty => exact fun row hrow => absurd hrow (List.not_mem_nil _)
  | create geturl table pluginType inst _ hret ih =>
    rcases netscape_plugin_new_table_funcs reg geturl table pluginType inst hret with
      e | ⟨cur, funcs, e, hf⟩
    · rw [e]; exact ih
    · rw [e]
      intro row hrow
      unfold netscape_instance_map at hrow
      by_cases hfull : table.length ≥ kMaxInstances
      · rw [if_pos hfull] at hrow
        exact ih row hrow
      · rw [if_neg hfull] at hrow
        rcases List.mem_append.mp ((mem_qsort row _).mp hrow) with hr | hr
        · exact ih row hr
        · rw [List.mem_singleton.mp hr]
          exact ⟨cur, funcs, rfl, hf⟩
  | destroy table inst _ _ ih =>
    rcases netscape_plugin_destroy_table table inst with e | e
    · rw [e]; exact ih
    · rw [e]
      intro row hrow
      apply ih row
      unfold netscape_instance_destroy at hrow
      cases hb : bsearch ⟨inst, none⟩ table with
      | none => rw [hb] at hrow; exact hrow
      | some idx =>
        rw [hb] at hrow
        exact List.mem_of_mem_eraseIdx hrow

/-- The owner `netscape_instance_resolve` gives is the owner stored in a row of
the table. -/
theorem resolve_some_row (table : List instance_entry) (inst : NPP) (P : plugin)
    (h : netscape_instance_resolve table inst = (true, some P)) :
    ∃ row ∈ table, row.plugin = some P := by
  unfold netscape_instance_resolve at h
  cases hb : bsearch ⟨inst, none⟩ table with
  | none =>
    rw [hb] at h
    simp at h
  | some idx =>
    rw [hb] at h
    dsimp only at h
    cases hg : table[idx]? with
    | none =>
      rw [hg] at h
      simp at h
    | some row =>
      rw [hg] at h
      simp only [Option.some_bind, Prod.mk.injEq] at h
      exact ⟨row, List.getElem?_mem hg, h.2⟩

/-- C27, as the code has it: in a table the browser can bring about through
`netscape_plugin_new` and `netscape_plugin_destroy`, for a handle that has
one row and resolves to `P`, `netscape_plugin_destroy` returns and the handle
no longer resolves, whatever `P` has for `destroy`; the handler of `P` is called
once, and its code returned, when `P` has one, and nothing is called, with
`NPERR_GENERIC_ERROR` returned, when `P` has none. For a handle that does not
resolve the call returns `NPERR_GENERIC_ERROR`, leaves the table as it was
and calls nothing. -/
theorem netscape_plugin_destroy_once (reg : registry) (table : List instance_entry)
    (inst : NPP) (hreach : Dispatched reg table) :
    ((netscape_instance_resolve table inst).1 = false →
      netscape_plugin_destroy table inst =
        (⟨some (Returned.error NPERR_GENERIC_ERROR), [], none⟩, table)) ∧
    ∀ P, netscape_instance_resolve table inst = (true, some P) →
      (rows_of table inst).length ≤ 1 →
      (netscape_plugin_destroy table inst).1.ret ≠ none ∧
      netscape_instance_resolve (netscape_plugin_destroy table inst).2 inst = (false, none) ∧
      ((netscape_plugin_destroy table inst).1.calls = [] ∨
        (netscape_plugin_destroy table inst).1.calls = [⟨P, Handler.destroy, inst⟩]) ∧
      (∀ funcs code, P.plugin_funcs = some funcs → funcs.destroy = some code →
        (netscape_plugin_destroy table inst).1 =
          ⟨some (Returned.error code), [⟨P, Handler.destroy, inst⟩], none⟩) ∧
      (∀ funcs, P.plugin_funcs = some funcs → funcs.destroy = none →
        (netscape_plugin_destroy table inst).1 =
          ⟨some (Returned.error NPERR_GENERIC_ERROR), [], none⟩) := by
  have hs := (reachable_sorted table (dispatched_reachable reg table hreach)).1
  constructor
  · intro h
    unfold netscape_plugin_destroy
    rcases hr : netscape_instance_resolve table inst with ⟨b, r⟩
    rw [hr] at h
    simp only at h
    subst h
    rfl
  · intro P hres hone
    have hb : is_bound table inst = true := by
      cases hb : is_bound table inst with
      | true => rfl
      | false =>
        rw [resolve_of_unbound table inst hb] at hres
        simp at hres
    obtain ⟨hret, hless, _⟩ := (netscape_instance_destroy_rows table inst hs).2.1 hb
    have hnil : rows_of (netscape_instance_destroy table inst).2 inst = [] :=
      List.length_eq_zero.mp (by omega)
    obtain ⟨row, hrow, hrp⟩ := resolve_some_row table inst P hres
    obtain ⟨P2, funcs0, hP2, hfuncs0⟩ := dispatched_rows reg table hreach row hrow
    rw [hrp] at hP2
    injection hP2 with hP2
    subst hP2
    rw [netscape_plugin_destroy_of_resolved table inst P hres hret]
    refine ⟨?_, resolve_of_unbound _ inst ((rows_of_eq_nil_iff _ _).mp hnil), ?_, ?_, ?_⟩
    · dsimp only
      rw [hfuncs0]
      dsimp only
      cases funcs0.destroy <;> simp
    · dsimp only
      cases P.plugin_funcs with
      | none => exact Or.inl rfl
      | some funcs =>
        dsimp only
        cases funcs.destroy with
        | none => exact Or.inl rfl
        | some code => exact Or.inr rfl
    · intro funcs code h1 h2
      dsimp only
      rw [h1]
      dsimp only
      rw [h2]
    · intro funcs h1 h2
      dsimp only
      rw [h1]
      dsimp only
      rw [h2]

/-- The table after one call of `netscape_plugin_new` for the handle `7` on a
Google page, with `complete_plugin` registered. -/
theorem dispatched_once :
    Dispatched { plugins := [complete_plugin] } [⟨7, some complete_plugin⟩] := by
  have h := Dispatched.create google_page [] "application/pdf".toList 7
    (Dispatched.empty : Dispatched { plugins := [complete_plugin] } []) (by decide)
  have e : (netscape_plugin_new { plugins := [complete_plugin] } google_page []
      "application/pdf".toList 7).table = [⟨7, some complete_plugin⟩] := by decide
  rw [e] at h
  exact h

/-- The table after two calls of `netscape_plugin_new` for the handle `7`. -/
theorem dispatched_twice :
    Dispatched { plugins := [complete_plugin] }
      [⟨7, some complete_plugin⟩, ⟨7, some complete_plugin⟩] := by
  have h := Dispatched.create google_page _ "application/pdf".toList 7 dispatched_once
    (by decide)
  have e : (netscape_plugin_new { plugins := [complete_plugin] } google_page
      [⟨7, some complete_plugin⟩] "application/pdf".toList 7).table =
      [⟨7, some complete_plugin⟩, ⟨7, some complete_plugin⟩] := by decide
  rw [e] at h
  exact h

/-- The witness of C27 as amended: after one `netscape_plugin_new` for the
handle `7`, `netscape_plugin_destroy` calls the `destroy` of
`complete_plugin` once, returns its code, and the handle no longer
resolves. -/
theorem netscape_plugin_destroy_once_witness :
    netscape_instance_resolve (netscape_plugin_destroy [⟨7, some complete_plugin⟩] 7).2 7 =
      (false, none) ∧
    (netscape_plugin_destroy [⟨7, some complete_plugin⟩] 7).1 =
      ⟨some (Returned.error NPERR_NO_ERROR), [⟨complete_plugin, Handler.destroy, 7⟩], none⟩ :=
  ⟨((netscape_plugin_destroy_once { plugins := [complete_plugin] }
      [⟨7, some complete_plugin⟩] 7 dispatched_once).2 complete_plugin (by decide)
      (by decide)).2.1,
    ((netscape_plugin_destroy_once { plugins := [complete_plugin] }
      [⟨7, some complete_plugin⟩] 7 dispatched_once).2 complete_plugin (by decide)
      (by decide)).2.2.2.1 _ NPERR_NO_ERROR rfl rfl⟩

/-- C27 fails as stated: two calls of `netscape_plugin_new` for the handle
`7` leave two rows for it; `netscape_plugin_destroy` then returns
`NPERR_NO_ERROR` and the handle still resolves to `complete_plugin`, whose
`destroy` is called again by a second `netscape_plugin_destroy`. -/
theorem netscape_plugin_destroy_once_counterexample :
    Dispatched { plugins := [complete_plugin] }
      [⟨7, some complete_plugin⟩, ⟨7, some complete_plugin⟩] ∧
    netscape_instance_resolve [⟨7, some complete_plugin⟩, ⟨7, some complete_plugin⟩] 7 =
      (true, some complete_plugin) ∧
    netscape_plugin_destroy [⟨7, some complete_plugin⟩, ⟨7, some complete_plugin⟩] 7 =
      (⟨some (Returned.error NPERR_NO_ERROR), [⟨complete_plugin, Handler.destroy, 7⟩], none⟩,
        [⟨7, some complete_plugin⟩]) ∧
    netscape_instance_resolve [⟨7, some complete_plugin⟩] 7 = (true, some complete_plugin) ∧
    netscape_plugin_destroy [⟨7, some complete_plugin⟩] 7 =
      (⟨some (Returned.error NPERR_NO_ERROR), [⟨complete_plugin, Handler.destroy, 7⟩], none⟩,
        []) :=
  ⟨dispatched_twice, by decide, by decide, by decide, by decide⟩

/-- C28: every table reached from the empty one by calls of
`netscape_instance_map` and `netscape_instance_destroy` is in non-decreasing
order under `instance_compare`, and for every handle that has a row in it the
binary search finds a row of that handle: `netscape_instance_destroy` returns
true and `netscape_instance_resolve` gives the owner stored in a row of the
handle. -/
theorem reachable_sorted_lookup (table : List instance_entry) (hreach : Reachable table) :
    table.Sorted (fun x y => instance_compare x y ≤ 0) ∧
    ∀ h, is_bound table h = true →
      (∃ i row, bsearch ⟨h, none⟩ table = some i ∧ table[i]? = some row ∧ row.npp = h ∧
        netscape_instance_resolve table h = (row.plugin.isSome, row.plugin)) ∧
      (netscape_instance_destroy table h).1 = true := by
  have hs := (reachable_sorted table hreach).1
  refine ⟨hs, ?_⟩
  intro h hb
  obtain ⟨i, row, hfind, hget, hnpp⟩ := bsearch_of_bound table h none hs hb
  refine ⟨⟨i, row, hfind, hget, hnpp, ?_⟩, ((netscape_instance_destroy_rows table h hs).2.1 hb).1⟩
  unfold netscape_instance_resolve
  simp only [hfind, hget]
  rfl

/-- The witness of C28: after the handles `7`, `3` and `5` are bound and `7`
is destroyed, the table is in order, and `3` and `5` are found. -/
theorem reachable_sorted_lookup_witness :
    (netscape_instance_destroy (netscape_instance_map (netscape_instance_map
      (netscape_instance_map [] 7 (some pdf_plugin)).2 3 (some intranet_plugin)).2 5
        (some pdf_plugin)).2 7).2 = [⟨3, some intranet_plugin⟩, ⟨5, some pdf_plugin⟩] ∧
    [(⟨3, some intranet_plugin⟩ : instance_entry), ⟨5, some pdf_plugin⟩].Sorted
      (fun x y => instance_compare x y ≤ 0) ∧
    (netscape_instance_destroy [⟨3, some intranet_plugin⟩, ⟨5, some pdf_plugin⟩] 5).1 = true :=
  have e : (netscape_instance_destroy (netscape_instance_map (netscape_instance_map
      (netscape_instance_map [] 7 (some pdf_plugin)).2 3 (some intranet_plugin)).2 5
        (some pdf_plugin)).2 7).2 = [⟨3, some intranet_plugin⟩, ⟨5, some pdf_plugin⟩] := by
    decide
  have hreach : Reachable [⟨3, some intranet_plugin⟩, ⟨5, some pdf_plugin⟩] :=
    e ▸ Reachable.destroy _ 7 (Reachable.map _ 5 (some pdf_plugin)
      (Reachable.map _ 3 (some intranet_plugin)
        (Reachable.map [] 7 (some pdf_plugin) Reachable.empty)))
  ⟨e, (reachable_sorted_lookup _ hreach).1,
    ((reachable_sorted_lookup _ hreach).2 5 (by decide)).2⟩

/-! ## Denial messages: claims C25 and C26 -/

/-- The body of the field loop at a matching field whose page the policy
denies: `netscape_display_message` is called with the warning of the plugin
when it has one, else with that of the `Global` section, and the loop goes
on; with neither a warning nor a `Global` section the body dereferences
`NULL`. -/
theorem try_field_of_denied (reg : registry) (geturl : NPP → Option CStr)
    (ty : CStr) (inst : NPP) (cur : plugin) (field url : CStr)
    (hm : field_matches field ty = true) (hu : geturl inst = some url)
    (ha : policy_plugin_allowed_url cur url = false) :
    (∀ w, cur.warning = some w →
      try_field reg geturl ty inst cur field =
        ([Event.geturl inst, Event.display_message inst (some w)], Scan.next)) ∧
    (cur.warning = none → ∀ g, reg.global = some g →
      try_field reg geturl ty inst cur field =
        ([Event.geturl inst, Event.display_message inst g.warning], Scan.next)) ∧
    (cur.warning = none → reg.global = none →
      try_field reg geturl ty inst cur field = ([Event.geturl inst], Scan.fault)) := by
  rw [try_field_of_matches _ _ _ _ _ _ hm, hu]
  simp only [ha, if_true]
  refine ⟨?_, ?_, ?_⟩
  · intro w hw
    rw [hw]
  · intro hw g hg
    rw [hw, hg]
  · intro hw hg
    rw [hw, hg]

/-- C26 fails on the code: in a registry without `Global` section,
`silent_plugin` declares `application/pdf`, is denied on a Google page and has
no warning of its own, and `pdf_plugin` after it is eligible; the call does
not carry on to `pdf_plugin`: it reads the warning of the absent `Global`
record, a `NULL` dereference. With a `Global` section the same call shows the
warning of that section and selects `pdf_plugin`; and a plugin with a warning
of its own has that one shown, `Global` section or not. -/
theorem netscape_plugin_new_denial_faults :
    (warned_registry.global.isSome = true ∧
      warned_registry.plugins = [silent_plugin, pdf_plugin]) ∧
    eligible google_page 7 "application/pdf".toList pdf_plugin = true ∧
    netscape_plugin_new { plugins := [silent_plugin, pdf_plugin] } google_page []
        "application/pdf".toList 7 = ⟨none, [], [Event.geturl 7]⟩ ∧
    netscape_plugin_new warned_registry google_page [] "application/pdf".toList 7 =
      ⟨some NPERR_NO_ERROR, [⟨7, some pdf_plugin⟩],
        [Event.geturl 7, Event.display_message 7 (some "Not allowed here".toList),
          Event.geturl 7, Event.newp pdf_plugin "application/pdf".toList 7]⟩ ∧
    (netscape_plugin_new { plugins := [intranet_plugin, pdf_plugin] } google_page []
        "application/pdf".toList 7).trace =
      [Event.geturl 7, Event.display_message 7 (some "Ask the help desk".toList),
        Event.geturl 7, Event.newp pdf_plugin "application/pdf".toList 7] := by
  refine ⟨⟨by decide, rfl⟩, by decide, by decide, by decide, by decide⟩

/-! ## Facts about the configuration -/

theorem splitOn_append_delim (d : Char) (a b : CStr) :
    (a ++ d :: b).splitOn d = a.splitOn d ++ b.splitOn d := by
  induction a with
  | nil => simp [List.splitOn, List.splitOnP_cons, List.splitOnP_nil]
  | cons x a ih =>
    unfold List.splitOn at ih ⊢
    rw [List.cons_append, List.splitOnP_cons, List.splitOnP_cons, ih]
    by_cases hx : (x == d) = true
    · simp [hx]
    · simp only [hx, Bool.false_eq_true, if_false]
      have hne := List.splitOnP_ne_nil (fun c => c == d) a
      cases hs : List.splitOnP (fun c => c == d) a with
      | nil => exact absurd hs hne
      | cons h t => rfl

theorem separated_append_delim (d : Char) (a b : CStr) :
    separated d (a ++ d :: b) = separated d a ++ separated d b := by
  unfold separated
  rw [splitOn_append_delim, List.filter_append]

theorem strrchr_last (s : CStr) (c : Char) (i : Nat) (h : strrchr s c = some i)
    (hi : i + 1 = s.length) : ∃ t, s = t ++ [c] := by
  induction s generalizing i with
  | nil => simp [strrchr] at h
  | cons x s ih =>
    rw [strrchr] at h
    cases hr : strrchr s c with
    | some j =>
      rw [hr] at h
      simp only [Option.some.injEq] at h
      subst h
      obtain ⟨t, ht⟩ := ih j hr (by simpa using hi)
      exact ⟨x :: t, by rw [ht]; rfl⟩
    | none =>
      rw [hr] at h
      by_cases hx : x = c
      · simp only [hx, if_true, Option.some.injEq] at h
        subst h
        have : s = [] := List.length_eq_zero.mp (by simpa using hi.symm)
        exact ⟨[], by rw [this, hx]; rfl⟩
      · simp [hx] at h

/-- The aggregate after a description is added splits, at the semicolons,
into the pieces of the aggregate before followed by those of the
description. -/
theorem append_description_separated (aggregate : Option CStr) (description : CStr) :
    separated ';' (append_description aggregate description) =
      separated ';' (aggregate.getD []) ++ separated ';' description := by
  cases aggregate with
  | none => simp [append_description, separated_nil]
  | some agg =>
    simp only [append_description, Option.getD_some]
    by_cases hl : ((match strrchr agg ';' with
        | none => true
        | some i => decide (i + 1 ≠ strlen agg)) = true ∧ strlen agg ≠ 0)
    · rw [if_pos hl]
      show separated ';' ((agg ++ [';']) ++ description) = _
      rw [List.append_assoc, List.singleton_append, separated_append_delim]
    · rw [if_neg hl]
      by_cases hz : strlen agg = 0
      · have : agg = [] := List.length_eq_zero.mp hz
        subst this
        simp [separated_nil]
      · have hlack : ¬ ((match strrchr agg ';' with
            | none => true
            | some i => decide (i + 1 ≠ strlen agg)) = true) := fun h => hl ⟨h, hz⟩
        cases hr : strrchr agg ';' with
        | none => rw [hr] at hlack; exact absurd rfl hlack
        | some i =>
          rw [hr] at hlack
          have hi : i + 1 = strlen agg := by simpa using hlack
          obtain ⟨t, ht⟩ := strrchr_last agg ';' i hr hi
          subst ht
          rw [List.append_assoc, List.singleton_append, separated_append_delim,
            separated_append_delim, separated_nil, List.append_nil]

theorem mime_description_assign (reg : registry) (slot : Slot) (f : plugin → plugin) :
    (reg.assign slot f).mime_description = reg.mime_description := by
  cases slot <;> rfl

theorem record_assign (reg : registry) (slot other : Slot) (f : plugin → plugin) :
    (reg.assign slot f).record other =
      if other = slot then (reg.record other).map f else reg.record other := by
  cases slot with
  | global =>
    cases other with
    | global => simp [registry.assign, registry.record]
    | entry j => simp [registry.assign, registry.record]
  | entry i =>
    cases other with
    | global => simp [registry.assign, registry.record]
    | entry j =>
      simp only [registry.assign, registry.record, List.getElem?_modify, Slot.entry.injEq]
      by_cases hij : i = j
      · subst hij
        simp
      · have hji : ¬ j = i := fun e => hij e.symm
        simp only [hij, hji, if_false]
        cases reg.plugins[j]? <;> rfl

theorem sections_named_iff (reg : registry) :
    sections_named reg = true ↔
      ∀ slot p, reg.record slot = some p → p.section_name.isSome = true := by
  unfold sections_named
  rw [Bool.and_eq_true, List.all_eq_true]
  constructor
  · rintro ⟨h1, h2⟩ slot p hp
    cases slot with
    | global =>
      simp only [registry.record] at hp
      rw [hp] at h2
      exact h2
    | entry i => exact h1 p (List.getElem?_mem hp)
  · intro h
    constructor
    · intro p hp
      obtain ⟨i, hi⟩ := List.mem_iff_getElem?.mp hp
      exact h (Slot.entry i) p hi
    · cases hg : reg.global with
      | none => rfl
      | some g => exact h Slot.global g hg

theorem sections_named_assign (reg : registry) (slot : Slot) (f : plugin → plugin)
    (hf : ∀ p, (f p).section_name = p.section_name) (h : sections_named reg = true) :
    sections_named (reg.assign slot f) = true := by
  rw [sections_named_iff] at h ⊢
  intro other p hp
  rw [record_assign] at hp
  by_cases ho : other = slot
  · rw [if_pos ho] at hp
    cases hr : reg.record other with
    | none => rw [hr] at hp; simp at hp
    | some q =>
      rw [hr] at hp
      simp only [Option.map_some', Option.some.injEq] at hp
      rw [← hp, hf]
      exact h other q hr
  · rw [if_neg ho] at hp
    exact h other p hp

theorem find_section_spec (sect : CStr) (l : List plugin) (k : Nat)
    (hl : ∀ p ∈ l, p.section_name.isSome = true) :
    ((∀ p ∈ l, p.section_name ≠ some sect) ∧ find_section sect l k = some none) ∨
    ∃ i p, find_section sect l k = some (some (k + i)) ∧ l[i]? = some p ∧
      p.section_name = some sect ∧
      ∀ j q, j < i → l[j]? = some q → q.section_name ≠ some sect := by
  induction l generalizing k with
  | nil => exact Or.inl ⟨fun p hp => absurd hp (List.not_mem_nil _), rfl⟩
  | cons cur next ih =>
    rw [find_section]
    have hc := hl cur (List.mem_cons_self _ _)
    cases hs : cur.section_name with
    | none => rw [hs] at hc; simp at hc
    | some s =>
      dsimp only
      by_cases he : s = sect
      · rw [if_pos he]
        right
        refine ⟨0, cur, rfl, List.getElem?_cons_zero, by rw [hs, he], ?_⟩
        intro j q hj
        exact absurd hj (Nat.not_lt_zero _)
      · rw [if_neg he]
        rcases ih (k + 1) (fun p hp => hl p (List.mem_cons_of_mem _ hp)) with
          ⟨hno, hf⟩ | ⟨i, p, hf, hget, hp, hfirst⟩
        · left
          refine ⟨?_, hf⟩
          intro p hp
          rcases List.mem_cons.mp hp with rfl | hp
          · rw [hs]
            intro e
            injection e with e
            exact he e
          · exact hno p hp
        · right
          refine ⟨i + 1, p, ?_, by rw [List.getElem?_cons_succ]; exact hget, hp, ?_⟩
          · rw [hf]
            congr 2
            omega
          · intro j q hj hq
            cases j with
            | zero =>
              simp only [List.getElem?_cons_zero, Option.some.injEq] at hq
              rw [← hq, hs]
              intro e
              injection e with e
              exact he e
            | succ j =>
              rw [List.getElem?_cons_succ] at hq
              exact hfirst j q (by omega) hq

/-- What `find_plugin_section` does on a registry whose records have section
names: it returns true with a slot that holds a record; the records there
were stay where they were, no record is without a section name afterwards,
and the aggregated MIME description is untouched. -/
theorem find_plugin_section_spec (reg : registry) (sect : CStr)
    (hnamed : sections_named reg = true) :
    ∃ reg0 slot p, find_plugin_section reg sect = some (true, reg0, slot) ∧
      sections_named reg0 = true ∧ reg0.mime_description = reg.mime_description ∧
      reg0.record slot = some p ∧
      ∀ other q, reg.record other = some q → reg0.record other = some q := by
  have hn := hnamed
  unfold sections_named at hn
  rw [Bool.and_eq_true, List.all_eq_true] at hn
  obtain ⟨hpl, hgl⟩ := hn
  unfold find_plugin_section
  by_cases hs : sect = "Global".toList
  · rw [if_pos hs]
    cases hg : reg.global with
    | none =>
      refine ⟨_, _, _, rfl, ?_, rfl, rfl, ?_⟩
      · unfold sections_named
        rw [Bool.and_eq_true, List.all_eq_true]
        exact ⟨hpl, rfl⟩
      · intro other q hq
        cases other with
        | global =>
          simp only [registry.record] at hq
          rw [hg] at hq
          exact Option.noConfusion hq
        | entry i => exact hq
    | some g =>
      rw [hg] at hgl
      dsimp only at hgl ⊢
      rw [hgl]
      exact ⟨reg, Slot.global, g, rfl, hnamed, rfl, hg, fun _ _ h => h⟩
  · rw [if_neg hs]
    rcases find_section_spec sect reg.plugins 0 hpl with ⟨_, hf⟩ | ⟨i, p, hf, hget, _, _⟩
    · rw [hf]
      refine ⟨_, _, { section_name := some sect }, rfl, ?_, rfl, ?_, ?_⟩
      · unfold sections_named
        rw [Bool.and_eq_true, List.all_eq_true]
        refine ⟨?_, hgl⟩
        intro p hp
        rcases List.mem_append.mp hp with h | h
        · exact hpl p h
        · rw [List.mem_singleton.mp h]
          rfl
      · simp [registry.record]
      · intro other q hq
        cases other with
        | global => exact hq
        | entry j =>
          simp only [registry.record] at hq ⊢
          rw [List.getElem?_append_left (List.getElem?_eq_some.mp hq).1]
          exact hq
    · rw [hf, Nat.zero_add]
      exact ⟨reg, Slot.entry i, p, rfl, hnamed, rfl, hget, fun _ _ h => h⟩

/-! ## Configuration: claims C21, C22 and C29 -/

/-- C22, as the code has it: on a registry whose records have section names,
`find_plugin_section` with a name other than `Global` that no record has
appends an empty record of that name at the end of the plugin list and
returns true; with a name that a record has it returns true with the
position of the first such record and leaves the registry as it was; and
with the name `Global` it leaves the plugin list as it was. -/
theorem find_plugin_section_registers (reg : registry) (sect : CStr)
    (hnamed : ∀ p ∈ reg.plugins, p.section_name.isSome = true) :
    (sect ≠ "Global".toList → (∀ p ∈ reg.plugins, p.section_name ≠ some sect) →
      find_plugin_section reg sect =
        some (true, { reg with plugins := reg.plugins ++ [{ section_name := some sect }] },
          Slot.entry reg.plugins.length)) ∧
    (sect ≠ "Global".toList → (∃ p ∈ reg.plugins, p.section_name = some sect) →
      ∃ i p, find_plugin_section reg sect = some (true, reg, Slot.entry i) ∧
        reg.plugins[i]? = some p ∧ p.section_name = some sect ∧
        ∀ j q, j < i → reg.plugins[j]? = some q → q.section_name ≠ some sect) ∧
    ∃ ok reg1, find_plugin_section reg "Global".toList = some (ok, reg1, Slot.global) ∧
      reg1.plugins = reg.plugins := by
  refine ⟨?_, ?_, ?_⟩
  · intro hs hno
    unfold find_plugin_section
    rw [if_neg hs]
    rcases find_section_spec sect reg.plugins 0 hnamed with ⟨_, hf⟩ | ⟨i, p, _, hget, hp, _⟩
    · rw [hf]
    · exact absurd hp (hno p (List.getElem?_mem hget))
  · rintro hs ⟨p, hp, hps⟩
    unfold find_plugin_section
    rw [if_neg hs]
    rcases find_section_spec sect reg.plugins 0 hnamed with ⟨hno, _⟩ | ⟨i, q, hf, hget, hq, hfirst⟩
    · exact absurd hps (hno p hp)
    · rw [hf, Nat.zero_add]
      exact ⟨i, q, rfl, hget, hq, hfirst⟩
  · unfold find_plugin_section
    rw [if_pos rfl]
    cases reg.global with
    | none => exact ⟨_, _, rfl, rfl⟩
    | some g => exact ⟨_, _, rfl, rfl⟩

/-- The witness of C22 as amended: with the section `Viewer` present, the
name `Flash` gets a new record at the end, and the name `Viewer` gets the
record that is there. -/
theorem find_plugin_section_registers_witness :
    find_plugin_section { plugins := [pdf_plugin] } "Flash".toList =
      some (true, { plugins := [pdf_plugin, { section_name := some "Flash".toList }] },
        Slot.entry 1) ∧
    find_plugin_section { plugins := [pdf_plugin, intranet_plugin] } "Intranet viewer".toList =
      some (true, { plugins := [pdf_plugin, intranet_plugin] }, Slot.entry 1) :=
  ⟨(find_plugin_section_registers { plugins := [pdf_plugin] } "Flash".toList
      (by decide)).1 (by decide) (by decide),
    match (find_plugin_section_registers { plugins := [pdf_plugin, intranet_plugin] }
      "Intranet viewer".toList (by decide)).2.1 (by decide)
      ⟨intranet_plugin, by decide, rfl⟩ with
    | ⟨_, _, _, _, _, _⟩ => by decide⟩

/-- C22 fails as stated: a registry holds the section `Viewer`; a second
`find_plugin_section` for `Viewer` does not fail: it returns true with the
record that is there, and the directives of both sections go to that one
record; and the name `Global` adds no record to the plugin list. -/
theorem find_plugin_section_registers_counterexample :
    pdf_plugin.section_name = some "Viewer".toList ∧
    find_plugin_section { plugins := [pdf_plugin] } "Viewer".toList =
      some (true, { plugins := [pdf_plugin] }, Slot.entry 0) ∧
    config_run example_libraries {}
        [⟨"Viewer".toList, "AllowPort".toList, "1".toList⟩,
          ⟨"Flash".toList, "AllowPort".toList, "1".toList⟩,
          ⟨"Viewer".toList, "AllowInsecure".toList, "1".toList⟩] =
      some { plugins :=
        [{ section_name := some "Viewer".toList, allow_port := some "1".toList,
           allow_insecure := some "1".toList },
          { section_name := some "Flash".toList, allow_port := some "1".toList }] } ∧
    find_plugin_section { plugins := [pdf_plugin] } "Global".toList =
      some (true, { global := some { section_name := some "Global".toList },
                    plugins := [pdf_plugin] }, Slot.global) := by
  refine ⟨rfl, by decide, by decide, by decide⟩

/-- An assignment that leaves the section name alone and does not clear
`allow_insecure`, at the slot `find_plugin_section` gave: the records of the
registry before the lookup are still there, with their section names and with
`allow_insecure` still set where it was. -/
theorem assign_keeps (reg reg0 : registry) (slot : Slot) (f : plugin → plugin)
    (hf1 : ∀ p, (f p).section_name = p.section_name)
    (hf2 : ∀ p, p.allow_insecure.isSome = true → (f p).allow_insecure.isSome = true)
    (hkeep : ∀ other q, reg.record other = some q → reg0.record other = some q) :
    ∀ other q, reg.record other = some q →
      ∃ q1, (reg0.assign slot f).record other = some q1 ∧
        q1.section_name = q.section_name ∧
        (q.allow_insecure.isSome = true → q1.allow_insecure.isSome = true) := by
  intro other q hq
  rw [record_assign, hkeep other q hq]
  by_cases ho : other = slot
  · rw [if_pos ho]
    exact ⟨f q, rfl, hf1 q, hf2 q⟩
  · rw [if_neg ho]
    exact ⟨q, rfl, rfl, fun h => h⟩

theorem loaded_descriptions_of_other (env : Libraries) (d : Directive)
    (h : d.name ≠ "LoadPlugin".toList) : loaded_descriptions env [d] = [] := by
  simp only [loaded_descriptions, List.filterMap_cons, List.filterMap_nil, if_neg h]

theorem loaded_descriptions_of_load (env : Libraries) (d : Directive)
    (h : d.name = "LoadPlugin".toList) :
    loaded_descriptions env [d] =
      (platform_getmimedescription env { handle := platform_dlopen env d.value }).toList := by
  simp only [loaded_descriptions, List.filterMap_cons, List.filterMap_nil, h, if_true]
  cases platform_getmimedescription env { handle := platform_dlopen env d.value } <;> rfl

/-- What one call of `config_ini_handler` does on a registry whose records
have section names: it returns; no record is without a section name
afterwards; the records that were there are still at their slots, with their
section names and with `allow_insecure` still set where it was; and the
aggregated MIME description is as before, or, when the directive is a
`LoadPlugin` that produces a description, that description added to it. -/
theorem config_ini_handler_spec (env : Libraries) (reg : registry) (d : Directive)
    (hnamed : sections_named reg = true) :
    ∃ ok reg1, config_ini_handler env reg d.sect d.name d.value = some (ok, reg1) ∧
      sections_named reg1 = true ∧
      (∀ other q, reg.record other = some q →
        ∃ q1, reg1.record other = some q1 ∧ q1.section_name = q.section_name ∧
          (q.allow_insecure.isSome = true → q1.allow_insecure.isSome = true)) ∧
      reg1.mime_description =
        match loaded_descriptions env [d] with
        | [] => reg.mime_description
        | x :: _ => some (append_description reg.mime_description x) := by
  obtain ⟨reg0, slot, p, hfind, hnamed0, hmime0, hrec, hkeep⟩ :=
    find_plugin_section_spec reg d.sect hnamed
  have simple : ∀ f : plugin → plugin, d.name ≠ "LoadPlugin".toList →
      (∀ p, (f p).section_name = p.section_name) →
      (∀ p, p.allow_insecure.isSome = true → (f p).allow_insecure.isSome = true) →
      sections_named (reg0.assign slot f) = true ∧
      (∀ other q, reg.record other = some q →
        ∃ q1, (reg0.assign slot f).record other = some q1 ∧
          q1.section_name = q.section_name ∧
          (q.allow_insecure.isSome = true → q1.allow_insecure.isSome = true)) ∧
      (reg0.assign slot f).mime_description =
        match loaded_descriptions env [d] with
        | [] => reg.mime_description
        | x :: _ => some (append_description reg.mime_description x) := by
    intro f hname hf1 hf2
    refine ⟨sections_named_assign reg0 slot f hf1 hnamed0,
      assign_keeps reg reg0 slot f hf1 hf2 hkeep, ?_⟩
    rw [loaded_descriptions_of_other env d hname, mime_description_assign, hmime0]
  unfold config_ini_handler
  rw [hfind]
  dsimp only
  by_cases h1 : d.name = "AllowedDomains".toList
  · rw [if_pos h1]
    exact ⟨true, _, rfl, simple _ (by rw [h1]; decide) (fun _ => rfl) (fun _ h => h)⟩
  rw [if_neg h1]
  by_cases h2 : d.name = "AllowInsecure".toList
  · rw [if_pos h2]
    exact ⟨true, _, rfl, simple _ (by rw [h2]; decide) (fun _ => rfl) (fun _ _ => rfl)⟩
  rw [if_neg h2]
  by_cases h3 : d.name = "FriendlyWarning".toList
  · rw [if_pos h3]
    exact ⟨true, _, rfl, simple _ (by rw [h3]; decide) (fun _ => rfl) (fun _ h => h)⟩
  rw [if_neg h3]
  by_cases h4 : d.name = "PluginDescription".toList
  · rw [if_pos h4]
    exact ⟨true, _, rfl, simple _ (by rw [h4]; decide) (fun _ => rfl) (fun _ h => h)⟩
  rw [if_neg h4]
  by_cases h5 : d.name = "PluginName".toList
  · rw [if_pos h5]
    exact ⟨true, _, rfl, simple _ (by rw [h5]; decide) (fun _ => rfl) (fun _ h => h)⟩
  rw [if_neg h5]
  by_cases h6 : d.name = "AllowPort".toList
  · rw [if_pos h6]
    exact ⟨true, _, rfl, simple _ (by rw [h6]; decide) (fun _ => rfl) (fun _ h => h)⟩
  rw [if_neg h6]
  by_cases h7 : d.name = "AllowAuth".toList
  · rw [if_pos h7]
    exact ⟨true, _, rfl, simple _ (by rw [h7]; decide) (fun _ => rfl) (fun _ h => h)⟩
  rw [if_neg h7]
  by_cases h8 : d.name = "LoadPlugin".toList
  · rw [if_pos h8]
    have hrec2 : (reg0.assign slot (fun p =>
        { p with plugin := some d.value, handle := platform_dlopen env d.value })).record slot =
        some { p with plugin := some d.value, handle := platform_dlopen env d.value } := by
      rw [record_assign, if_pos rfl, hrec]
      rfl
    have hmime : ((reg0.assign slot (fun p =>
        { p with plugin := some d.value, handle := platform_dlopen env d.value })).record
          slot).bind (platform_getmimedescription env) =
        platform_getmimedescription env { handle := platform_dlopen env d.value } := by
      rw [hrec2]
      rfl
    rw [hmime, loaded_descriptions_of_load env d h8]
    -- the two assignments, one after the other
    have hnamed3 : ∀ m : Option CStr, sections_named ((reg0.assign slot (fun p =>
        { p with plugin := some d.value, handle := platform_dlopen env d.value })).assign slot
          (fun p => { p with mime_description := m })) = true := fun m =>
      sections_named_assign _ slot _ (fun _ => rfl)
        (sections_named_assign reg0 slot _ (fun _ => rfl) hnamed0)
    have hkeep3 : ∀ m : Option CStr, ∀ other q, reg.record other = some q →
        ∃ q1, ((reg0.assign slot (fun p =>
          { p with plugin := some d.value, handle := platform_dlopen env d.value })).assign
            slot (fun p => { p with mime_description := m })).record other = some q1 ∧
          q1.section_name = q.section_name ∧
          (q.allow_insecure.isSome = true → q1.allow_insecure.isSome = true) := by
      intro m other q hq
      obtain ⟨q1, hq1, hs1, ha1⟩ := assign_keeps reg reg0 slot (fun p =>
        { p with plugin := some d.value, handle := platform_dlopen env d.value })
        (fun _ => rfl) (fun _ h => h) hkeep other q hq
      rw [record_assign, hq1]
      by_cases ho : other = slot
      · rw [if_pos ho]
        exact ⟨_, rfl, hs1, ha1⟩
      · rw [if_neg ho]
        exact ⟨q1, rfl, hs1, ha1⟩
    cases hm : platform_getmimedescription env { handle := platform_dlopen env d.value } with
    | none =>
      refine ⟨true, _, rfl, hnamed3 none, hkeep3 none, ?_⟩
      rw [mime_description_assign, mime_description_assign, hmime0]
      rfl
    | some x =>
      refine ⟨true, _, rfl, ?_, ?_, ?_⟩
      · have := hnamed3 (some x)
        unfold sections_named at this ⊢
        exact this
      · exact hkeep3 (some x)
      · show some (append_description _ x) = some (append_description reg.mime_description x)
        rw [mime_description_assign, mime_description_assign, hmime0]
  · rw [if_neg h8]
    refine ⟨false, reg0, rfl, hnamed0, ?_, ?_⟩
    · intro other q hq
      exact ⟨q, hkeep other q hq, rfl, fun h => h⟩
    · rw [loaded_descriptions_of_other env d h8, hmime0]

/-- What a sequence of calls of `config_ini_handler` does on a registry whose
records have section names: every call returns; the records that were there
are still at their slots, with their section names and with `allow_insecure`
still set where it was; and the aggregated MIME description splits, at the
semicolons, into its pieces before followed by those of the descriptions the
sequence produced, in order. -/
theorem config_run_spec (env : Libraries) (ds : List Directive) (reg : registry)
    (hnamed : sections_named reg = true) :
    ∃ reg1, config_run env reg ds = some reg1 ∧ sections_named reg1 = true ∧
      (∀ other q, reg.record other = some q →
        ∃ q1, reg1.record other = some q1 ∧ q1.section_name = q.section_name ∧
          (q.allow_insecure.isSome = true → q1.allow_insecure.isSome = true)) ∧
      separated ';' (reg1.mime_description.getD []) =
        separated ';' (reg.mime_description.getD []) ++
          (loaded_descriptions env ds).flatMap (separated ';') ∧
      (loaded_descriptions env ds = [] → reg1.mime_description = reg.mime_description) ∧
      (reg.mime_description = none → ∀ x, loaded_descriptions env ds = [x] →
        reg1.mime_description = some x) := by
  induction ds generalizing reg with
  | nil =>
    refine ⟨reg, rfl, hnamed, fun other q hq => ⟨q, hq, rfl, fun h => h⟩, ?_, fun _ => rfl, ?_⟩
    · simp [loaded_descriptions]
    · intro _ x hx
      simp [loaded_descriptions] at hx
  | cons d ds ih =>
    obtain ⟨ok, reg1, hstep, hnamed1, hkeep1, hmime1⟩ := config_ini_handler_spec env reg d hnamed
    obtain ⟨reg2, hrun, hnamed2, hkeep2, hsep2, hnil2, hone2⟩ := ih reg1 hnamed1
    have hsplit : loaded_descriptions env (d :: ds) =
        loaded_descriptions env [d] ++ loaded_descriptions env ds := by
      unfold loaded_descriptions
      rw [← List.filterMap_append]
      rfl
    refine ⟨reg2, ?_, hnamed2, ?_, ?_, ?_, ?_⟩
    · rw [config_run, hstep]
      exact hrun
    · intro other q hq
      obtain ⟨q1, hq1, hs1, ha1⟩ := hkeep1 other q hq
      obtain ⟨q2, hq2, hs2, ha2⟩ := hkeep2 other q1 hq1
      exact ⟨q2, hq2, hs2.trans hs1, fun h => ha2 (ha1 h)⟩
    · rw [hsep2, hsplit, List.flatMap_append, ← List.append_assoc]
      congr 1
      cases hl : loaded_descriptions env [d] with
      | nil =>
        rw [hl] at hmime1
        simp only at hmime1
        rw [hmime1]
        simp
      | cons x rest =>
        rw [hl] at hmime1
        simp only at hmime1
        have hrest : rest = [] := by
          have hlen : (loaded_descriptions env [d]).length ≤ 1 := by
            unfold loaded_descriptions
            exact (List.length_filterMap_le _ _).trans (by simp)
          rw [hl] at hlen
          exact List.length_eq_zero.mp (by simpa using hlen)
        subst hrest
        rw [hmime1, Option.getD_some, append_description_separated]
        simp
    · intro hnil
      rw [hsplit] at hnil
      obtain ⟨ha, hb⟩ := List.append_eq_nil.mp hnil
      rw [hnil2 hb, hmime1, ha]
    · intro hnone x hx
      rw [hsplit] at hx
      cases hl : loaded_descriptions env [d] with
      | nil =>
        rw [hl, List.nil_append] at hx
        rw [hl] at hmime1
        simp only at hmime1
        exact hone2 (by rw [hmime1, hnone]) x hx
      | cons y rest =>
        rw [hl] at hx hmime1
        simp only at hmime1
        simp only [List.cons_append, List.cons.injEq, List.append_eq_nil] at hx
        obtain ⟨hy, _, hds⟩ := hx
        rw [hnil2 hds, hmime1, hnone, hy]
        rfl

/-- C21: from the empty registry, after any sequence of directives has been
handed to `config_ini_handler`, the aggregated `registry.mime_description`,
split at the semicolons with the empty pieces dropped, is the concatenation,
in order, of the descriptions that the `LoadPlugin` directives produced, each
split the same way; and when exactly one description was produced the
aggregate is that description itself. -/
theorem config_mime_description_aggregate (env : Libraries) (ds : List Directive) :
    ∃ reg, config_run env {} ds = some reg ∧
      separated ';' (reg.mime_description.getD []) =
        (loaded_descriptions env ds).flatMap (separated ';') ∧
      ∀ x, loaded_descriptions env ds = [x] → reg.mime_description = some x := by
  obtain ⟨reg, hrun, _, _, hsep, _, hone⟩ := config_run_spec env ds {} rfl
  refine ⟨reg, hrun, ?_, hone rfl⟩
  rw [hsep]
  simp [separated_nil]

/-- The witness of C21: the one `LoadPlugin` directive of the section
`Viewer` produces `app/x:ext1,ext2:Desc`, and the aggregate is exactly that;
and for `example_config`, which loads two libraries, the pieces of the
aggregate are those of the two descriptions in order. -/
theorem config_mime_description_aggregate_witness :
    (config_run example_libraries {}
      [⟨"Viewer".toList, "LoadPlugin".toList, "/usr/lib/pdf.so".toList⟩]).map
        (fun reg => reg.mime_description) = some (some "app/x:ext1,ext2:Desc".toList) ∧
    ((config_run example_libraries {} example_config).map
        (fun reg => separated ';' (reg.mime_description.getD []))) =
      some ["app/flash:swf:Flash".toList, "app/x:ext1,ext2:Desc".toList] :=
  ⟨match config_mime_description_aggregate example_libraries
      [⟨"Viewer".toList, "LoadPlugin".toList, "/usr/lib/pdf.so".toList⟩] with
    | ⟨reg, hrun, _, hone⟩ => by
      rw [hrun, Option.map_some', hone "app/x:ext1,ext2:Desc".toList (by decide)],
    match config_mime_description_aggregate example_libraries example_config with
    | ⟨reg, hrun, hsep, _⟩ => by
      rw [hrun, Option.map_some', hsep]
      decide⟩

/-- C29: on a registry whose records have section names, `config_ini_handler`
with an `AllowInsecure` directive of any value returns true and leaves the
record of the section with `allow_insecure` set to that value, so that
`policy_plugin_allowed_protocol` is true for it on every URL; and this stays
so for the record at that slot after any further directives. -/
theorem config_allow_insecure_by_presence (env : Libraries) (reg : registry)
    (sect value : CStr) (hnamed : sections_named reg = true) :
    ∃ reg1 slot p,
      config_ini_handler env reg sect "AllowInsecure".toList value = some (true, reg1) ∧
      (∃ reg0, find_plugin_section reg sect = some (true, reg0, slot)) ∧
      reg1.record slot = some p ∧ p.allow_insecure = some value ∧
      (∀ url, policy_plugin_allowed_protocol p url = true) ∧
      ∀ ds, ∃ reg2 p2, config_run env reg1 ds = some reg2 ∧ reg2.record slot = some p2 ∧
        p2.section_name = p.section_name ∧
        ∀ url, policy_plugin_allowed_protocol p2 url = true := by
  obtain ⟨reg0, slot, p0, hfind, hnamed0, _, hrec, _⟩ :=
    find_plugin_section_spec reg sect hnamed
  have hallow : ∀ q : plugin, q.allow_insecure.isSome = true →
      ∀ url, policy_plugin_allowed_protocol q url = true := by
    intro q hq url
    unfold policy_plugin_allowed_protocol
    rw [if_pos hq]
  have hrec1 : (reg0.assign slot (fun p => { p with allow_insecure := some value })).record
      slot = some { p0 with allow_insecure := some value } := by
    rw [record_assign, if_pos rfl, hrec]
    rfl
  refine ⟨reg0.assign slot (fun p => { p with allow_insecure := some value }), slot,
    { p0 with allow_insecure := some value }, ?_, ⟨reg0, hfind⟩, hrec1, rfl,
    hallow _ rfl, ?_⟩
  · unfold config_ini_handler
    rw [hfind]
    dsimp only
    rw [if_neg (by decide), if_pos rfl]
  · intro ds
    obtain ⟨reg2, hrun, _, hkeep, _⟩ := config_run_spec env ds
      (reg0.assign slot (fun p => { p with allow_insecure := some value }))
      (sections_named_assign reg0 slot _ (fun _ => rfl) hnamed0)
    obtain ⟨p2, hp2, hs2, ha2⟩ := hkeep slot _ hrec1
    exact ⟨reg2, p2, hrun, hp2, hs2, hallow p2 (ha2 rfl)⟩

/-- The witness of C29: the directive `AllowInsecure=0` of the section
`Viewer`, on the empty registry, leaves a record for which
`policy_plugin_allowed_protocol` is true on an `http://` URL. -/
theorem config_allow_insecure_by_presence_witness :
    config_ini_handler example_libraries {} "Viewer".toList "AllowInsecure".toList
        "0".toList =
      some (true, { plugins :=
        [{ section_name := some "Viewer".toList, allow_insecure := some "0".toList }] }) ∧
    policy_plugin_allowed_protocol
      { section_name := some "Viewer".toList, allow_insecure := some "0".toList }
      "http://example.org/".toList = true := by
  obtain ⟨reg1, slot, p, h1, ⟨reg0, h2⟩, h3, _, h5, _⟩ :=
    config_allow_insecure_by_presence example_libraries {} "Viewer".toList "0".toList rfl
  have e1 : config_ini_handler example_libraries {} "Viewer".toList "AllowInsecure".toList
      "0".toList = some (true, { plugins :=
        [{ section_name := some "Viewer".toList, allow_insecure := some "0".toList }] }) := by
    decide
  have e2 : find_plugin_section {} "Viewer".toList =
      some (true, { plugins := [{ section_name := some "Viewer".toList }] }, Slot.entry 0) := by
    decide
  rw [e1] at h1
  rw [e2] at h2
  simp only [Option.some.injEq, Prod.mk.injEq, true_and] at h1 h2
  obtain ⟨_, hslot⟩ := h2
  subst h1
  subst hslot
  simp only [registry.record, List.getElem?_cons_zero, Option.some.injEq] at h3
  subst h3
  exact ⟨e1, h5 _⟩

end NSSecurity
